import Mathlib

/-!
# DataConvert — a shallow embedding of `dataconvert.py` with verified properties

This file embeds the core of the DataConvert repository (`src/dataconvert.py`)
in Lean 4: the shared value model, the `SimpleYAML` block-format codec, the
element-tree ↔ value mapping used for XML, and the `DataConvert.convert`
facade.  Python strings are modeled as `String`/`List Char`; Python `dict`s as
insertion-ordered association lists; fallible code returns `Except`.

External collaborators (the stdlib `json`, `csv`, `xml.etree` modules) are
modeled from the specification's interface descriptions; each such definition
carries a doc comment starting with `Modelled from the spec:`.
-/

namespace DataConvertModel

/-! ## Python string primitives (over `List Char`) -/

/-- The characters Python's `str.strip` / `str.lstrip` remove: every code
point `c` with `chr(c) != chr(c).strip()` in CPython — the ASCII whitespace
and separators, NEL, NBSP, Ogham space, the U+2000–U+200A spaces, the line
and paragraph separators, narrow/medium spaces and the ideographic space. -/
def pyWsChars : List Char :=
  ['\t', '\n', '\x0b', '\x0c', '\r', '\x1c', '\x1d', '\x1e', '\x1f', ' ',
   '\x85', '\xa0', Char.ofNat 5760, Char.ofNat 8192, Char.ofNat 8193, Char.ofNat 8194,
   Char.ofNat 8195, Char.ofNat 8196, Char.ofNat 8197, Char.ofNat 8198, Char.ofNat 8199,
   Char.ofNat 8200, Char.ofNat 8201, Char.ofNat 8202, Char.ofNat 8232, Char.ofNat 8233,
   Char.ofNat 8239, Char.ofNat 8287, Char.ofNat 12288]

/-- `str.isspace`-class membership as `str.strip` uses it. -/
def isPyWhitespace (c : Char) : Bool := pyWsChars.contains c

/-- `str.strip()`: drop leading and trailing whitespace. -/
def stripL (l : List Char) : List Char :=
  ((l.dropWhile isPyWhitespace).reverse.dropWhile isPyWhitespace).reverse

/-- `str.strip()` packaged on `String`. -/
def pyStrip (s : String) : String := ⟨stripL s.data⟩

/-- `len(line) - len(line.lstrip())`: the count of leading whitespace. -/
def indentOf (l : List Char) : Nat := (l.takeWhile isPyWhitespace).length

/-- `str.split('\n')`: split on every newline; the empty string yields one
empty chunk, like Python. -/
def splitLinesL : List Char → List (List Char)
  | [] => [[]]
  | c :: rest =>
    if c = '\n' then [] :: splitLinesL rest
    else
      match splitLinesL rest with
      | [] => [[c]]
      | h :: t => (c :: h) :: t

/-- `str.split(':', 1)`: split at the first colon; `none` when there is no
colon (Python's `':' in s` guard is false exactly then). -/
def splitFirstColon : List Char → Option (List Char × List Char)
  | [] => none
  | c :: rest =>
    if c = ':' then some ([], rest)
    else (splitFirstColon rest).map (fun p => (c :: p.1, p.2))

/-- `str.isdigit()` on ASCII text, where it accepts exactly `0`–`9` and
agrees with `int()`.  Beyond ASCII, CPython's `isdigit` accepts further
digit-class characters on which `int()` may raise (see `pyStrIsDigit`), so
every theorem whose truth depends on digit classification of an arbitrary
token carries an explicit `allAscii` hypothesis. -/
def pyIsDigit (l : List Char) : Bool := !l.isEmpty && l.all Char.isDigit

/-- Numeric value of a digit character. -/
def digitVal (c : Char) : Nat := c.toNat - '0'.toNat

/-- `int(s)` on a string of ASCII digits. -/
def natOfDigits (l : List Char) : Nat := l.foldl (fun acc c => acc * 10 + digitVal c) 0

/-- `int(s)` producing a Python (arbitrary-precision) integer from digits. -/
def pyIntOfDigits (l : List Char) : Int := (natOfDigits l : Int)

/-- Decimal digits of a natural number, most significant first.  `fuel`-driven
like the division recursion it models; `fuel = n` always suffices. -/
def natDigitsGo : Nat → Nat → List Char → List Char
  | 0, n, acc => Char.ofNat ('0'.toNat + n % 10) :: acc
  | fuel + 1, n, acc =>
    if n < 10 then Char.ofNat ('0'.toNat + n) :: acc
    else natDigitsGo fuel (n / 10) (Char.ofNat ('0'.toNat + n % 10) :: acc)

/-- `str(n)` for a natural number. -/
def pyNatStr (n : Nat) : String := ⟨natDigitsGo n n []⟩

/-- `str(n)` for a Python integer: a minus sign followed by the digits when
negative. -/
def pyIntStr (n : Int) : String :=
  if n < 0 then "-" ++ pyNatStr n.natAbs else pyNatStr n.natAbs

/-! ## Python floats

Python `float` is an IEEE-754 double.  The claims never depend on rounding or
on the digits of a rendered float, so finite floats are modeled by the exact
rational value of their decimal literal. -/

/-- Model of a Python `float`: a finite value (as the exact rational of its
literal), an infinity, or a NaN. -/
inductive PyFloat where
  | finite (q : ℚ)
  | inf
  | negInf
  | nan
  deriving DecidableEq

/-- Continuation of a PEP 515 digit group after its first digit: further
digits, with a single underscore allowed only between two digits.  Returns
the remaining digits (underscores removed) and the unconsumed rest, or `none`
when an underscore is misplaced (`float` raises `ValueError` there). -/
def groupCont : List Char → Option (List Char × List Char)
  | [] => some ([], [])
  | '_' :: r =>
    match r with
    | c :: r2 =>
      if c.isDigit then (groupCont r2).map (fun p => (c :: p.1, p.2)) else none
    | [] => none
  | c :: r =>
    if c.isDigit then (groupCont r).map (fun p => (c :: p.1, p.2))
    else some ([], c :: r)

/-- A non-empty PEP 515 digit group: `digit (['_'] digit)*`.  `none` when the
input does not begin with a digit or an underscore is misplaced. -/
def groupDigits : List Char → Option (List Char × List Char)
  | c :: r =>
    if c.isDigit then (groupCont r).map (fun p => (c :: p.1, p.2)) else none
  | [] => none

/-- Parse an unsigned decimal `float` literal body: `digits [. digits]
[(e|E) [sign] digits]`, requiring at least one mantissa digit, each digit run
a PEP 515 group (underscores only between digits, as `float` accepts since
Python 3.6).  Returns the exact rational value. -/
def pyFloatBody (l : List Char) : Option ℚ :=
  let (intPart, rest1) :=
    match groupDigits l with
    | some (ds, r) => (ds, r)
    | none => ([], l)
  let (fracPart, rest2) :=
    match rest1 with
    | c :: r =>
      if c = '.' then
        match groupDigits r with
        | some (ds, r2) => (ds, r2)
        | none => ([], r)
      else ([], rest1)
    | [] => ([], rest1)
  if intPart.isEmpty && fracPart.isEmpty then none
  else
    let mant : ℚ := (natOfDigits intPart : ℚ) + (natOfDigits fracPart : ℚ) / ((10 : ℚ) ^ fracPart.length)
    match rest2 with
    | [] => some mant
    | e :: r3 =>
      if e = 'e' || e = 'E' then
        let (eneg, r4) :=
          match r3 with
          | '+' :: r => (false, r)
          | '-' :: r => (true, r)
          | r => (false, r)
        match groupDigits r4 with
        | some (ds, []) =>
          let ex : ℤ := if eneg then -(natOfDigits ds : ℤ) else (natOfDigits ds : ℤ)
          some (mant * (10 : ℚ) ^ ex)
        | _ => none
      else none

/-- `float(s)` on an already-stripped token: optional sign, then `inf`,
`infinity` or `nan` (case-insensitive) or a decimal literal with PEP 515
digit-group underscores. -/
def pyFloatParse (l : List Char) : Option PyFloat :=
  let (neg, rest) :=
    match l with
    | '+' :: r => (false, r)
    | '-' :: r => (true, r)
    | r => (false, r)
  let low := rest.map Char.toLower
  if low = "inf".data || low = "infinity".data then
    some (if neg then PyFloat.negInf else PyFloat.inf)
  else if low = "nan".data then some PyFloat.nan
  else
    (pyFloatBody rest).map fun q => PyFloat.finite (if neg then -q else q)

/-- Modelled from the spec: `str()` on a Python float (`repr` of an IEEE-754
double).  The shortest-round-trip digit algorithm is not reproduced; no claim
depends on this rendering. -/
def pyFloatStr : PyFloat → String
  | .inf => "inf"
  | .negInf => "-inf"
  | .nan => "nan"
  | .finite q => pyIntStr q.num ++ "/" ++ pyNatStr q.den

/-! ## The Value Model

The shared in-memory representation (spec §3): Python `None`/`bool`/`int`/
`float`/`str`/`list`/`dict` as produced and consumed by the codecs.  A Python
`dict` is an insertion-ordered association list. -/

inductive Value where
  | null
  | bool (b : Bool)
  | int (n : Int)
  | float (x : PyFloat)
  | str (s : String)
  | list (items : List Value)
  | dict (entries : List (String × Value))

/-- `d[k]` lookup: first matching key (keys are unique in dicts the code
builds, so first-match is Python's lookup). -/
def pyDictGet (d : List (String × Value)) (k : String) : Option Value :=
  match d with
  | [] => none
  | (k', v) :: rest => if k' = k then some v else pyDictGet rest k

/-- `d[k] = v` assignment: overwrite in place when the key exists (Python
keeps the key's original insertion position), else append. -/
def pyDictSet (d : List (String × Value)) (k : String) (v : Value) : List (String × Value) :=
  match d with
  | [] => [(k, v)]
  | (k', v') :: rest => if k' = k then (k', v) :: rest else (k', v') :: pyDictSet rest k v

/-- `k in d`. -/
def pyDictHas (d : List (String × Value)) (k : String) : Bool :=
  (pyDictGet d k).isSome

mutual

/-- `repr()` of a Value.  Containers render their elements' `repr`; string
escaping inside `repr` is not reproduced (no claim reads a container's
rendering). -/
def pyRepr : Value → String
  | .null => "None"
  | .bool b => if b then "True" else "False"
  | .int n => pyIntStr n
  | .float x => pyFloatStr x
  | .str s => "'" ++ s ++ "'"
  | .list l => "[" ++ pyReprList l ++ "]"
  | .dict d => "\x7b" ++ pyReprDict d ++ "\x7d"

def pyReprList : List Value → String
  | [] => ""
  | [v] => pyRepr v
  | v :: rest => pyRepr v ++ ", " ++ pyReprList rest

def pyReprDict : List (String × Value) → String
  | [] => ""
  | [(k, v)] => "'" ++ k ++ "': " ++ pyRepr v
  | (k, v) :: rest => "'" ++ k ++ "': " ++ pyRepr v ++ ", " ++ pyReprDict rest

end

/-- `str()` of a Value: like `repr` except that a string renders as itself. -/
def pyStr : Value → String
  | .str s => s
  | v => pyRepr v

/-! ## The Block-Format Codec (`SimpleYAML`) -/

namespace SimpleYAML

open DataConvertModel

/-- `SimpleYAML._parse_value`: scalar parsing with the source's precedence —
empty/`null`, `true`, `false`, all-digit, float, quote-stripping, raw text. -/
def _parse_value (value : List Char) : Value :=
  if value = [] || value = "null".data then .null
  else if value = "true".data then .bool true
  else if value = "false".data then .bool false
  else if pyIsDigit value then .int (pyIntOfDigits value)
  else
    match pyFloatParse value with
    | some x => .float x
    | none =>
      -- Remove quotes if present
      if (value.head? = some '"' && value.getLast? = some '"')
          || (value.head? = some (Char.ofNat 39) && value.getLast? = some (Char.ofNat 39)) then
        .str ⟨(value.drop 1).dropLast⟩
      else .str ⟨value⟩

/-- One step of `SimpleYAML._parse_lines`'s `while` loop, with the cursor `i`
replaced by structural recursion on the remaining lines and a `fuel` bound
(`fuel = lines.length` always suffices: every step consumes at least one
line).  `result` and `list_items` are the loop's accumulators. -/
def _parse_lines_go (fuel : Nat) (indent : Nat) (lines : List (List Char))
    (result : List (String × Value)) (list_items : List Value) : Value :=
  match fuel, lines with
  | 0, _ => if !list_items.isEmpty then .list list_items else .dict result
  | _ + 1, [] => if !list_items.isEmpty then .list list_items else .dict result
  | fuel + 1, line :: rest =>
    let stripped := stripL line
    if stripped.isEmpty || stripped.head? = some '#' then
      _parse_lines_go fuel indent rest result list_items
    else
      let line_indent := indentOf line
      if line_indent < indent then
        -- scope ends: the loop breaks and returns
        if !list_items.isEmpty then .list list_items else .dict result
      else if line_indent > indent then
        _parse_lines_go fuel indent rest result list_items
      else if "- ".data.isPrefixOf stripped then
        -- List item
        let value := stripL (stripped.drop 2)
        match splitFirstColon value with
        | some (k, v) =>
          -- Dict in list
          _parse_lines_go fuel indent rest result
            (list_items ++ [.dict [(⟨stripL k⟩, _parse_value (stripL v))]])
        | none =>
          _parse_lines_go fuel indent rest result (list_items ++ [_parse_value value])
      else
        match splitFirstColon stripped with
        | some (k0, v0) =>
          -- Key-value pair
          let key : String := ⟨stripL k0⟩
          let value := stripL v0
          if !value.isEmpty then
            _parse_lines_go fuel indent rest (pyDictSet result key (_parse_value value)) list_items
          else
            match rest with
            | next_line :: _ =>
              let next_indent := indentOf next_line
              if next_indent > line_indent then
                -- Nested structure
                let keep := fun sl => !(indentOf sl ≤ line_indent && !(stripL sl).isEmpty)
                let sub_lines := rest.takeWhile keep
                let rest' := rest.dropWhile keep
                _parse_lines_go fuel indent rest'
                  (pyDictSet result key (_parse_lines_go fuel next_indent sub_lines [] [])) list_items
              else
                -- next line exists but is not deeper: the source sets nothing
                -- for `key` and advances the cursor
                _parse_lines_go fuel indent rest result list_items
            | [] =>
              _parse_lines_go fuel indent rest (pyDictSet result key .null) list_items
        | none =>
          _parse_lines_go fuel indent rest result list_items

/-- `SimpleYAML._parse_lines`. -/
def _parse_lines (lines : List (List Char)) (indent : Nat) : Value :=
  _parse_lines_go lines.length indent lines [] []

/-- `SimpleYAML.parse`. -/
def parse (text : String) : Value :=
  _parse_lines (splitLinesL (stripL text.data)) 0

/-- `SimpleYAML._serialize_value`. -/
def _serialize_value : Value → String
  | .null => "null"
  | .bool b => if b then "true" else "false"
  | .str s => if s.data.contains ' ' || s.data.contains ':' then "\"" ++ s ++ "\"" else pyStr (.str s)
  | v => pyStr v

/-- Two spaces per indent level (`'  ' * indent`). -/
def indStr (indent : Nat) : String := ⟨List.replicate (2 * indent) ' '⟩

mutual

/-- `SimpleYAML.serialize`: the list of chunks the source appends to `lines`
for a dict (a nested serialization is appended as one multi-line chunk before
the final `'\n'.join`). -/
def serializeDictChunks : List (String × Value) → Nat → List String
  | [], _ => []
  | (key, value) :: rest, indent =>
    (match value with
     | .dict d => [indStr indent ++ key ++ ":", serialize (.dict d) (indent + 1)]
     | .list l => [indStr indent ++ key ++ ":", serialize (.list l) (indent + 1)]
     | v => [indStr indent ++ key ++ ": " ++ _serialize_value v])
      ++ serializeDictChunks rest indent

/-- The chunks appended for a list.  For a nested dict/list item the source
computes `sub.replace(ind + '  ', ind + '  ', 1)` — replacing a substring
with itself, a no-op kept here as `sub` directly. -/
def serializeListChunks : List Value → Nat → List String
  | [], _ => []
  | item :: rest, indent =>
    (match item with
     | .dict d => [indStr indent ++ "- ", serialize (.dict d) (indent + 1)]
     | .list l => [indStr indent ++ "- ", serialize (.list l) (indent + 1)]
     | v => [indStr indent ++ "- " ++ _serialize_value v])
      ++ serializeListChunks rest indent

/-- `SimpleYAML.serialize`. -/
def serialize (data : Value) (indent : Nat) : String :=
  match data with
  | .dict d => String.intercalate "\n" (serializeDictChunks d indent)
  | .list l => String.intercalate "\n" (serializeListChunks l indent)
  | v => pyStr v

end

end SimpleYAML

/-! ## The Tree-Mapping Codec (`ElementNode` ↔ `Value`)

`ElementNode` (spec §3): tag, ordered attribute map, optional direct text
content, ordered children.  `text = none` models `element.text is None`
(an `xml.etree` element with no character data); `some ""` models an empty
string assigned to `.text`. -/

structure Element where
  tag : String
  attrib : List (String × String)
  text : Option String
  children : List Element

/-- Truthiness of `element.text and element.text.strip()`: the text exists and
strips to something non-empty. -/
def textTruthy : Option String → Bool
  | none => false
  | some t => !(stripL t.data).isEmpty

mutual

/-- `DataConvert._element_to_dict`: attributes under `"@attributes"`, stripped
text under `"#text"`, children folded with repeated tags promoted to lists;
a single `#text` entry collapses to the bare text, an empty result becomes
`None`. -/
def _element_to_dict : Element → Value
  | ⟨_, attrib, text, children⟩ =>
    let r0 : List (String × Value) :=
      if !attrib.isEmpty then
        [("@attributes", .dict (attrib.map fun p => (p.1, .str p.2)))]
      else []
    let r1 : List (String × Value) :=
      match text with
      | some t => if !(stripL t.data).isEmpty then r0 ++ [("#text", .str ⟨stripL t.data⟩)] else r0
      | none => r0
    let r2 := foldChildren children r1
    -- Simplify single-text elements
    match r2 with
    | [(k, v)] => if k = "#text" then v else .dict [(k, v)]
    | [] => .null
    | r => .dict r

/-- The child loop of `_element_to_dict`: insert each child's value under its
tag, promoting an existing entry to a list and appending on repetition. -/
def foldChildren : List Element → List (String × Value) → List (String × Value)
  | [], r => r
  | child :: rest, r =>
    let child_data := _element_to_dict child
    let r' :=
      match pyDictGet r child.tag with
      | some existing =>
        match existing with
        | .list l => pyDictSet r child.tag (.list (l ++ [child_data]))
        | v => pyDictSet r child.tag (.list [v, child_data])
      | none => pyDictSet r child.tag child_data
    foldChildren rest r' 

end

/-- `element.attrib.update(data['@attributes'])`.  A `Value.dict` merges its
entries (attribute values are rendered to text: CPython stores the raw
objects, and every claim exercises only Text-valued attributes).  CPython also
accepts a few sequence-of-pairs shapes (an empty string, a list of two-element
sequences) that no claim exercises; every non-dict argument is modeled as the
error CPython raises at the non-iterable scalars the claims do exercise
(`TypeError`). -/
def attribUpdate (attrib : List (String × String)) : Value → Except String (List (String × String))
  | .dict ad => .ok (attrib ++ ad.map fun p => (p.1, pyStr p.2))
  | _ => .error "TypeError: object is not iterable"

mutual

/-- `DataConvert._dict_to_element`: rebuild an element from a Value.  A dict
contributes attributes from `"@attributes"`, text from `"#text"`, one child
per key (per item for list values); a list becomes children tagged `"item"`;
a scalar sets the element's text (`''` for `None`). -/
def _dict_to_element (data : Value) (tag : String) : Except String Element :=
  match data with
  | .dict d => do
    let attrib ←
      match pyDictGet d "@attributes" with
      | some av => attribUpdate [] av
      | none => pure []
    let (text, children) ← dictEntriesToElement d none []
    pure ⟨tag, attrib, text, children⟩
  | .list l => do
    let children ← listToElements l "item"
    pure ⟨tag, [], none, children⟩
  | .null => .ok ⟨tag, [], some "", []⟩
  | v => .ok ⟨tag, [], some (pyStr v), []⟩

/-- The key loop of `_dict_to_element` over a dict's entries, threading the
element's text and children. -/
def dictEntriesToElement : List (String × Value) → Option String → List Element →
    Except String (Option String × List Element)
  | [], text, children => .ok (text, children)
  | (key, value) :: rest, text, children =>
    if key = "@attributes" then dictEntriesToElement rest text children
    else if key = "#text" then dictEntriesToElement rest (some (pyStr value)) children
    else
      match value with
      | .list l => do
        let cs ← listToElements l key
        dictEntriesToElement rest text (children ++ cs)
      | v => do
        let c ← _dict_to_element v key
        dictEntriesToElement rest text (children ++ [c])

/-- One child element per list item, all under the same tag. -/
def listToElements : List Value → String → Except String (List Element)
  | [], _ => .ok []
  | item :: rest, tag => do
    let c ← _dict_to_element item tag
    let cs ← listToElements rest tag
    pure (c :: cs)

end

/-! ## External collaborators (spec §6)

The element-tree parser/renderer (`xml.etree.ElementTree`), the balanced-tree
notation codec (`json`) and the tabular codec (`csv`) are thin external
collaborators; they are modeled here from the spec's interface descriptions. -/

/-- Characters allowed in a modeled markup tag name. -/
def isXmlNameChar (c : Char) : Bool :=
  c.isAlphanum || c = '_' || c = '-' || c = '.'

mutual

/-- Modelled from the spec: the external element-tree parser
(`Parse(text) → ElementNode`, failing with a parse error on malformed
markup).  Parses `<tag>…</tag>` with nested children and direct text; the
attribute, comment and declaration syntax is outside the modeled subset and
reports an error.  Consumes one element; returns the remaining input. -/
def xmlParseElement : Nat → List Char → Except String (Element × List Char)
  | 0, _ => .error "syntax error"
  | fuel + 1, l =>
    match l with
    | '<' :: rest =>
      let name := rest.takeWhile isXmlNameChar
      let rest1 := rest.dropWhile isXmlNameChar
      if name.isEmpty then .error "syntax error"
      else
        match rest1 with
        | '>' :: rest2 => xmlParseContent fuel name rest2 [] []
        | '/' :: '>' :: rest2 => .ok (⟨⟨name⟩, [], none, []⟩, rest2)
        | _ => .error "syntax error"
    | _ => .error "syntax error"

/-- Content loop of the modeled element-tree parser: text before the first
child becomes the element's direct text (as in `xml.etree`, `none` when no
characters precede a child or the closing tag); tail text after a child is
dropped, as the codec never reads it. -/
def xmlParseContent (fuel : Nat) (tag : List Char) (l : List Char)
    (firstText : List Char) (children : List Element) : Except String (Element × List Char) :=
  match fuel, l with
  | 0, _ => .error "syntax error"
  | _ + 1, [] => .error "no element found"
  | _ + 1, '<' :: '/' :: rest =>
    let name := rest.takeWhile isXmlNameChar
    let rest1 := rest.dropWhile isXmlNameChar
    match rest1 with
    | '>' :: rest2 =>
      if name = tag then
        .ok (⟨⟨tag⟩, [], if firstText.isEmpty then none else some ⟨firstText⟩, children⟩, rest2)
      else .error "mismatched tag"
    | _ => .error "syntax error"
  | fuel + 1, '<' :: rest =>
    match xmlParseElement fuel ('<' :: rest) with
    | .ok (child, rest') => xmlParseContent fuel tag rest' firstText (children ++ [child])
    | .error e => .error e
  | fuel + 1, c :: rest =>
    let txt := rest.takeWhile (fun x => x ≠ '<')
    let rest' := rest.dropWhile (fun x => x ≠ '<')
    xmlParseContent fuel tag rest'
      (if children.isEmpty then firstText ++ (c :: txt) else firstText) children

end

/-- Modelled from the spec: `xml.etree.ElementTree.fromstring` — parse a whole
document, tolerating surrounding whitespace, failing on leftover content. -/
def xmlFromString (s : String) : Except String Element :=
  match xmlParseElement (s.data.length + 1) (s.data.dropWhile isPyWhitespace) with
  | .ok (e, rest) =>
    if rest.all isPyWhitespace then .ok e else .error "junk after document element"
  | .error e => .error e

mutual

/-- Modelled from the spec: the element-tree renderer
(`Render(ElementNode, pretty) → text`).  Emits compact `<tag …>…</tag>` text;
the exact pretty-printing of `minidom` is not reproduced (no claim reads
rendered markup). -/
def xmlRenderElement : Element → String
  | ⟨tag, attrib, text, children⟩ =>
    "<" ++ tag ++ String.join (attrib.map fun p => " " ++ p.1 ++ "=\"" ++ p.2 ++ "\"")
      ++ ">" ++ (match text with | some t => t | none => "")
      ++ xmlRenderList children ++ "</" ++ tag ++ ">"
  termination_by e => sizeOf e

def xmlRenderList : List Element → String
  | [] => ""
  | c :: rest => xmlRenderElement c ++ xmlRenderList rest
  termination_by cs => sizeOf cs

end

/-! ### The balanced-tree notation codec (`json`) -/

/-- JSON insignificant whitespace. -/
def jsonSkipWs (l : List Char) : List Char :=
  l.dropWhile fun c => c = ' ' || c = '\t' || c = '\n' || c = '\r'

/-- ASCII hexadecimal digit. -/
def isHexDigitChar (c : Char) : Bool :=
  c.isDigit || ('a' ≤ c && c ≤ 'f') || ('A' ≤ c && c ≤ 'F')

/-- Value of an ASCII hexadecimal digit. -/
def hexDigitVal (c : Char) : Nat :=
  if c.isDigit then c.toNat - '0'.toNat
  else if 'a' ≤ c && c ≤ 'f' then c.toNat - 'a'.toNat + 10
  else c.toNat - 'A'.toNat + 10

/-- Decode one JSON string body after the opening quote, handling the
standard escapes; returns the string and the input after the closing quote. -/
def jsonParseString : Nat → List Char → Except String (List Char × List Char)
  | 0, _ => .error "Unterminated string"
  | _ + 1, [] => .error "Unterminated string"
  | fuel + 1, c :: rest =>
    if c = '"' then .ok ([], rest)
    else if c = '\\' then
      match rest with
      | [] => .error "Unterminated string"
      | e :: rest2 =>
        let dec : Except String (List Char × List Char) :=
          if e = 'u' then
            match rest2 with
            | a :: b :: cc :: d :: rest3 =>
              if [a, b, cc, d].all isHexDigitChar then
                let n := [a, b, cc, d].foldl (fun acc x => acc * 16 + hexDigitVal x) 0
                .ok ([Char.ofNat n], rest3)
              else .error "Invalid \\uXXXX escape"
            | _ => .error "Invalid \\uXXXX escape"
          else if e = 'n' then .ok (['\n'], rest2)
          else if e = 't' then .ok (['\t'], rest2)
          else if e = 'r' then .ok (['\r'], rest2)
          else if e = 'b' then .ok (['\x08'], rest2)
          else if e = 'f' then .ok (['\x0c'], rest2)
          else if e = '"' || e = '\\' || e = '/' then .ok ([e], rest2)
          else .error "Invalid escape"
        match dec with
        | .ok (cs, rest3) => (jsonParseString fuel rest3).map fun p => (cs ++ p.1, p.2)
        | .error msg => .error msg
    else (jsonParseString fuel rest).map fun p => (c :: p.1, p.2)

/-- Characters that may occur in a JSON number token. -/
def isJsonNumChar (c : Char) : Bool :=
  c.isDigit || c = '-' || c = '+' || c = '.' || c = 'e' || c = 'E'

mutual

/-- Modelled from the spec: the balanced-tree notation codec's parser
(`Parse(text) → Value`, failing on malformed input).  One JSON value;
returns the remaining input.  A number without `.`/exponent is an Integer,
otherwise a Float. -/
def jsonParseValue : Nat → List Char → Except String (Value × List Char)
  | 0, _ => .error "Expecting value"
  | fuel + 1, l =>
    match jsonSkipWs l with
    | [] => .error "Expecting value"
    | c :: rest =>
      if c = 'n' then
        if "ull".data.isPrefixOf rest then .ok (.null, rest.drop 3) else .error "Expecting value"
      else if c = 't' then
        if "rue".data.isPrefixOf rest then .ok (.bool true, rest.drop 3) else .error "Expecting value"
      else if c = 'f' then
        if "alse".data.isPrefixOf rest then .ok (.bool false, rest.drop 4) else .error "Expecting value"
      else if c = '"' then
        (jsonParseString (rest.length + 1) rest).map fun p => (.str ⟨p.1⟩, p.2)
      else if c = '[' then
        match jsonSkipWs rest with
        | ']' :: rest2 => .ok (.list [], rest2)
        | _ => jsonParseArray fuel rest []
      else if c = '\x7b' then
        match jsonSkipWs rest with
        | '\x7d' :: rest2 => .ok (.dict [], rest2)
        | _ => jsonParseObject fuel rest []
      else
        let tok := (c :: rest).takeWhile isJsonNumChar
        let rest' := (c :: rest).dropWhile isJsonNumChar
        if tok.isEmpty then .error "Expecting value"
        else if tok.contains '.' || tok.contains 'e' || tok.contains 'E' then
          match pyFloatParse tok with
          | some x => .ok (.float x, rest')
          | none => .error "Expecting value"
        else
          match tok with
          | '-' :: ds => if pyIsDigit ds then .ok (.int (-(pyIntOfDigits ds)), rest') else .error "Expecting value"
          | ds => if pyIsDigit ds then .ok (.int (pyIntOfDigits ds), rest') else .error "Expecting value"

/-- Elements of a JSON array after `[`. -/
def jsonParseArray (fuel : Nat) (l : List Char) (acc : List Value) : Except String (Value × List Char) :=
  match fuel with
  | 0 => .error "Expecting value"
  | fuel + 1 =>
    match jsonParseValue fuel l with
    | .error e => .error e
    | .ok (v, rest) =>
      match jsonSkipWs rest with
      | ',' :: rest2 => jsonParseArray fuel rest2 (acc ++ [v])
      | ']' :: rest2 => .ok (.list (acc ++ [v]), rest2)
      | _ => .error "Expecting ',' delimiter"

/-- Members of a JSON object after an opening brace (a duplicate key
overwrites its value in place, as in a Python dict). -/
def jsonParseObject (fuel : Nat) (l : List Char) (acc : List (String × Value)) :
    Except String (Value × List Char) :=
  match fuel with
  | 0 => .error "Expecting value"
  | fuel + 1 =>
    match jsonSkipWs l with
    | '"' :: rest =>
      match jsonParseString (rest.length + 1) rest with
      | .error e => .error e
      | .ok (k, rest1) =>
        match jsonSkipWs rest1 with
        | ':' :: rest2 =>
          match jsonParseValue fuel rest2 with
          | .error e => .error e
          | .ok (v, rest3) =>
            let acc' := pyDictSet acc ⟨k⟩ v
            match jsonSkipWs rest3 with
            | ',' :: rest4 => jsonParseObject fuel rest4 acc'
            | '\x7d' :: rest4 => .ok (.dict acc', rest4)
            | _ => .error "Expecting ',' delimiter"
        | _ => .error "Expecting ':' delimiter"
    | _ => .error "Expecting property name enclosed in double quotes"

end

/-- Modelled from the spec: `json.loads` — a whole document with nothing but
whitespace after it. -/
def pyJsonLoads (s : String) : Except String Value :=
  match jsonParseValue (s.data.length + 1) s.data with
  | .error e => .error e
  | .ok (v, rest) => if (jsonSkipWs rest).isEmpty then .ok v else .error "Extra data"

/-- JSON string escaping (`ensure_ascii=False`: non-ASCII characters are kept
as-is). -/
def jsonEscapeChar (c : Char) : List Char :=
  if c = '"' then ['\\', '"']
  else if c = '\\' then ['\\', '\\']
  else if c = '\n' then ['\\', 'n']
  else if c = '\t' then ['\\', 't']
  else if c = '\r' then ['\\', 'r']
  else if c = '\x08' then ['\\', 'b']
  else if c = '\x0c' then ['\\', 'f']
  else if c.toNat < 0x20 then
    ['\\', 'u', '0', '0', Char.ofNat ('0'.toNat + c.toNat / 16),
      if c.toNat % 16 < 10 then Char.ofNat ('0'.toNat + c.toNat % 16)
      else Char.ofNat ('a'.toNat + c.toNat % 16 - 10)]
  else [c]

/-- A JSON string literal. -/
def jsonStrLit (s : String) : String :=
  "\"" ++ ⟨s.data.flatMap jsonEscapeChar⟩ ++ "\""

/-- Rendering of a float in JSON output (`Infinity`/`NaN` as emitted by
`json.dumps`; finite values via the modeled float rendering). -/
def jsonFloatLit : PyFloat → String
  | .inf => "Infinity"
  | .negInf => "-Infinity"
  | .nan => "NaN"
  | .finite q => pyFloatStr (.finite q)

/-- `level` spaces of JSON indentation (`indent=2`). -/
def jsonInd (level : Nat) : String := ⟨List.replicate (2 * level) ' '⟩

mutual

/-- Modelled from the spec: the balanced-tree notation codec's serializer
(`Render(Value, pretty) → text`): `json.dumps` with `indent=2` when pretty
(2-space indent, `ensure_ascii=False`), default separators otherwise. -/
def pyJsonDumps (v : Value) (pretty : Bool) (level : Nat) : String :=
  match v with
  | .null => "null"
  | .bool b => if b then "true" else "false"
  | .int n => pyIntStr n
  | .float x => jsonFloatLit x
  | .str s => jsonStrLit s
  | .list [] => "[]"
  | .list items =>
    if pretty then
      "[\n" ++ pyJsonDumpsItems items pretty (level + 1) ++ "\n" ++ jsonInd level ++ "]"
    else "[" ++ pyJsonDumpsItems items pretty (level + 1) ++ "]"
  | .dict [] => "\x7b\x7d"
  | .dict d =>
    if pretty then
      "\x7b\n" ++ pyJsonDumpsEntries d pretty (level + 1) ++ "\n" ++ jsonInd level ++ "\x7d"
    else "\x7b" ++ pyJsonDumpsEntries d pretty (level + 1) ++ "\x7d"

def pyJsonDumpsItems (items : List Value) (pretty : Bool) (level : Nat) : String :=
  match items with
  | [] => ""
  | [v] => (if pretty then jsonInd level else "") ++ pyJsonDumps v pretty level
  | v :: rest =>
    (if pretty then jsonInd level else "") ++ pyJsonDumps v pretty level
      ++ (if pretty then ",\n" else ", ") ++ pyJsonDumpsItems rest pretty level

def pyJsonDumpsEntries (d : List (String × Value)) (pretty : Bool) (level : Nat) : String :=
  match d with
  | [] => ""
  | [(k, v)] => (if pretty then jsonInd level else "") ++ jsonStrLit k ++ ": " ++ pyJsonDumps v pretty level
  | (k, v) :: rest =>
    (if pretty then jsonInd level else "") ++ jsonStrLit k ++ ": " ++ pyJsonDumps v pretty level
      ++ (if pretty then ",\n" else ", ") ++ pyJsonDumpsEntries rest pretty level

end

/-! ### The tabular codec (`csv`) -/

/-- Python truthiness of a Value (`if not data: …`). -/
def pyTruthy : Value → Bool
  | .null => false
  | .bool b => b
  | .int n => n ≠ 0
  | .float x => match x with | .finite q => q ≠ 0 | _ => true
  | .str s => !s.isEmpty
  | .list l => !l.isEmpty
  | .dict d => !d.isEmpty

/-- Minimal-quoting of one tabular field: quote when the field contains the
delimiter, a quote character or a line break, doubling embedded quotes. -/
def csvQuoteField (s : String) : String :=
  if s.data.any (fun c => c = ',' || c = '"' || c = '\r' || c = '\n') then
    "\"" ++ ⟨s.data.flatMap fun c => if c = '"' then ['"', '"'] else [c]⟩ ++ "\""
  else s

/-- One rendered field: `None` renders empty, strings as themselves, anything
else via `str()`. -/
def csvFieldOf : Value → String
  | .null => ""
  | .str s => csvQuoteField s
  | v => csvQuoteField (pyStr v)

/-- Modelled from the spec: one record line for `csv.DictWriter.writerow` —
the record must be a map; a key outside the header raises (`ValueError`),
a missing key renders as the empty field. -/
def csvWriteRow (fieldnames : List String) (record : Value) : Except String String :=
  match record with
  | .dict rd =>
    if rd.all (fun p => fieldnames.contains p.1) then
      .ok (String.intercalate ","
        (fieldnames.map fun f =>
          match pyDictGet rd f with
          | some v => csvFieldOf v
          | none => "") ++ "\r\n")
    else .error "ValueError: dict contains fields not in fieldnames"
  | _ => .error "AttributeError: object has no attribute keys"

/-- All record lines. -/
def csvWriteRows (fieldnames : List String) : List Value → Except String String
  | [] => .ok ""
  | r :: rest => do
    let line ← csvWriteRow fieldnames r
    let more ← csvWriteRows fieldnames rest
    pure (line ++ more)

/-- Modelled from the spec: the tabular codec's reader
(`ParseRecords(text)` — first line is the header; one record per line).
Quoted fields and the reader's extra/short-row conventions are outside the
modeled subset; no claim exercises them. -/
def csvReadRecords (lines : List (List Char)) : List Value :=
  match lines with
  | [] => []
  | header :: rows =>
    let names := (splitCommas header).map fun f => (⟨f⟩ : String)
    rows.map fun row =>
      .dict ((names.zip ((splitCommas row).map fun f => Value.str ⟨f⟩)))
where
  /-- Split one line at every comma. -/
  splitCommas (l : List Char) : List (List Char) :=
    match l with
    | [] => [[]]
    | c :: rest =>
      if c = ',' then [] :: splitCommas rest
      else
        match splitCommas rest with
        | [] => [[c]]
        | h :: t => (c :: h) :: t

/-! ## The Conversion Facade (`DataConvert`) -/

namespace DataConvert

/-- `DataConvert.json_to_dict`. -/
def json_to_dict (json_str : String) : Except String Value :=
  pyJsonLoads json_str

/-- `DataConvert.dict_to_json`. -/
def dict_to_json (data : Value) (pretty : Bool) : String :=
  pyJsonDumps data pretty 0

/-- `DataConvert.csv_to_dict`. -/
def csv_to_dict (csv_str : String) : Value :=
  .list (csvReadRecords (splitLinesL (stripL csv_str.data)))

/-- `DataConvert.dict_to_csv`: empty data renders as the empty string with no
header; otherwise a header line from the first record's keys, then one line
per record. -/
def dict_to_csv (data : Value) : Except String String :=
  if !pyTruthy data then .ok ""
  else
    match data with
    | .list (first :: rest) =>
      match first with
      | .dict d0 => do
        let fieldnames := d0.map Prod.fst
        let body ← csvWriteRows fieldnames (.dict d0 :: rest)
        pure (String.intercalate "," (fieldnames.map csvQuoteField) ++ "\r\n" ++ body)
      | _ => .error "AttributeError: object has no attribute keys"
    | _ => .error "TypeError: object is not subscriptable"

/-- `DataConvert.xml_to_dict`. -/
def xml_to_dict (xml_str : String) : Except String Value :=
  (xmlFromString xml_str).map _element_to_dict

/-- `DataConvert.dict_to_xml`.  The `pretty` re-rendering through `minidom`
is part of the modeled renderer and ignored there. -/
def dict_to_xml (data : Value) (root_name : String) (_pretty : Bool) : Except String String :=
  (_dict_to_element data root_name).map xmlRenderElement

/-- `DataConvert.yaml_to_dict`. -/
def yaml_to_dict (yaml_str : String) : Value :=
  SimpleYAML.parse yaml_str

/-- `DataConvert.dict_to_yaml`. -/
def dict_to_yaml (data : Value) : String :=
  SimpleYAML.serialize data 0

/-- The error conditions `DataConvert.convert` can surface: the `ValueError`
raised by its own dispatch (`UnsupportedFormat`), a delegated parser's
failure (`MalformedInput`), and the type errors of delegated serializers. -/
inductive PyErr where
  | unsupportedFormat (msg : String)
  | malformedInput (msg : String)
  | typeError (msg : String)

/-- The parse-dispatch half of `DataConvert.convert` (source lines 301-312):
parse the input by format, wrapping a markup document under `root_name`. -/
def convertParseInput (input_format : String) (data_str : String) (root_name : String) :
    Except PyErr Value :=
  if input_format = "json" then (json_to_dict data_str).mapError PyErr.malformedInput
  else if input_format = "csv" then .ok (csv_to_dict data_str)
  else if input_format = "xml" then
    match xml_to_dict data_str with
    | .ok data => .ok (.dict [(root_name, data)])  -- Wrap in root
    | .error e => .error (.malformedInput e)
  else if input_format = "yaml" then .ok (yaml_to_dict data_str)
  else .error (.unsupportedFormat ("Unsupported input format: " ++ input_format))

/-- The serialize-dispatch half of `DataConvert.convert` (source lines
314-331): render by format, promoting a bare map to a one-record list for
the tabular format and unwrapping a single-entry map for markup. -/
def convertRenderOutput (output_format : String) (data : Value) (root_name : String) :
    Except PyErr String :=
  if output_format = "json" then .ok (dict_to_json data true)
  else if output_format = "csv" then
    -- CSV requires list of dicts
    let data := match data with | .dict d => Value.list [.dict d] | v => v
    (dict_to_csv data).mapError PyErr.typeError
  else if output_format = "xml" then
    -- Extract root if wrapped
    match data with
    | .dict [(root_key, v)] => (dict_to_xml v root_key true).mapError PyErr.typeError
    | _ => (dict_to_xml data root_name true).mapError PyErr.typeError
  else if output_format = "yaml" then .ok (dict_to_yaml data)
  else .error (.unsupportedFormat ("Unsupported output format: " ++ output_format))

/-- `DataConvert.convert`. -/
def convert (input_format output_format : String) (data_str : String) (root_name : String) :
    Except PyErr String := do
  let data ← convertParseInput input_format data_str root_name
  convertRenderOutput output_format data root_name

end DataConvert

/-! ## Definitions supporting the claims -/

/-- The four recognized format tags. -/
def validFormats : List String := ["json", "csv", "xml", "yaml"]

/-- Whether a conversion outcome is the dispatch's `UnsupportedFormat`
condition. -/
def isUnsupportedFormatErr : Except DataConvert.PyErr String → Bool
  | .error (.unsupportedFormat _) => true
  | _ => false

/-- A key–value line with an empty value part: `indent` spaces, the key, and
a trailing colon. -/
def kvLine (indent : Nat) (key : String) : List Char :=
  List.replicate indent ' ' ++ key.data ++ [':']

/-- The first character, when present, is not Python whitespace. -/
def cleanHead (l : List Char) : Bool :=
  match l.head? with
  | some c => !isPyWhitespace c
  | none => true

/-- The last character, when present, is not Python whitespace. -/
def cleanLast (l : List Char) : Bool :=
  match l.getLast? with
  | some c => !isPyWhitespace c
  | none => true

/-- Both ends of a character list are free of Python whitespace (so that
`strip` leaves it unchanged). -/
def cleanEnds (l : List Char) : Bool :=
  cleanHead l && cleanLast l

mutual

/-- `ValueToElement` only inspects a `"@attributes"` entry through
`dict.update`, which requires a map; this predicate demands exactly that at
every dict the traversal reaches (`"@attributes"` and `"#text"` values are
consumed without recursion, mirroring the traversal). -/
def attrsOk : Value → Bool
  | .dict d =>
    (match pyDictGet d "@attributes" with
     | some (.dict _) => true
     | some _ => false
     | none => true) && attrsOkEntries d
  | .list l => attrsOkList l
  | _ => true

def attrsOkEntries : List (String × Value) → Bool
  | [] => true
  | (k, v) :: rest =>
    (if k = "@attributes" then true else if k = "#text" then true else attrsOk v)
      && attrsOkEntries rest

def attrsOkList : List Value → Bool
  | [] => true
  | v :: rest => attrsOk v && attrsOkList rest

end

mutual

/-- Structural equality of element trees up to direct text content: same tag,
same attribute map, recursively skeleton-equal children.  This is "tag
structure and each node's attribute map" of the round-trip claim. -/
def skelEq : Element → Element → Bool
  | ⟨t1, a1, _, cs1⟩, ⟨t2, a2, _, cs2⟩ => t1 = t2 && a1 = a2 && skelEqList cs1 cs2

def skelEqList : List Element → List Element → Bool
  | [], [] => true
  | c1 :: r1, c2 :: r2 => skelEq c1 c2 && skelEqList r1 r2
  | _, _ => false

end

/-- Group adjacent children carrying the same tag. -/
def childGroups : List Element → List (String × List Element)
  | [] => []
  | c :: rest =>
    match childGroups rest with
    | (t, g) :: gs => if c.tag = t then (t, c :: g) :: gs else (c.tag, [c]) :: (t, g) :: gs
    | [] => [(c.tag, [c])]

/-- Concatenate the members of a group list back into a child list. -/
def flattenGroups : List (String × List Element) → List Element
  | [] => []
  | (_, cs) :: gs => cs ++ flattenGroups gs

/-- No string occurs twice. -/
def nodupKeys : List String → Bool
  | [] => true
  | x :: r => !r.contains x && nodupKeys r

/-- The Value `_element_to_dict`'s child fold leaves under a tag: the single
child's value, or the list of the values of the repeated-tag children. -/
def groupValue : List Element → Value
  | [c] => _element_to_dict c
  | cs => .list (cs.map _element_to_dict)

/-- The dict entries the child fold appends: one per tag group. -/
def groupEntries (gs : List (String × List Element)) : List (String × Value) :=
  gs.map fun p => (p.1, groupValue p.2)

mutual

/-- The hypotheses of the amended round-trip claim, at every node: children
with equal tags are adjacent and no two tag groups repeat a tag
(`nodupKeys` over the group tags), and no child uses one of the codec's
reserved keys as its tag. -/
def goodTree : Element → Bool
  | ⟨_, _, _, children⟩ =>
    nodupKeys ((childGroups children).map Prod.fst)
      && !(children.map Element.tag).contains "@attributes"
      && !(children.map Element.tag).contains "#text"
      && goodForest children

def goodForest : List Element → Bool
  | [] => true
  | c :: rest => goodTree c && goodForest rest

end

/-- The single-child update of the fold, as its own function. -/
def foldStep (r : List (String × Value)) (tg : String) (cd : Value) :
    List (String × Value) :=
  match pyDictGet r tg with
  | some existing =>
    match existing with
    | .list l => pyDictSet r tg (.list (l ++ [cd]))
    | v => pyDictSet r tg (.list [v, cd])
  | none => pyDictSet r tg cd

/-- The attribute/text entries `_element_to_dict` seeds its result with. -/
def r01 (attrib : List (String × String)) (text : Option String) : List (String × Value) :=
  let r0 : List (String × Value) :=
    if !attrib.isEmpty then
      [("@attributes", .dict (attrib.map fun p => (p.1, .str p.2)))]
    else []
  match text with
  | some t => if !(stripL t.data).isEmpty then r0 ++ [("#text", .str ⟨stripL t.data⟩)] else r0
  | none => r0

/-- The text value the rebuilt element carries, given the seed entries. -/
def r01Text (tx : Option String) : Option String :=
  match tx with
  | some t => if !(stripL t.data).isEmpty then some ⟨stripL t.data⟩ else none
  | none => none

/-- The round-trip property of a single tree: rebuilding its Value under its
own tag succeeds and reproduces its skeleton. -/
def RoundOK (c : Element) : Prop :=
  ∃ e', _dict_to_element (_element_to_dict c) c.tag = .ok e' ∧ skelEq e' c = true


/-! ## Claim C1 support: safe Values, numeric coercion, serialized line shape -/

/-- Every character is ASCII: the domain on which the modeled `str.isdigit`,
`int()` and `float()` are exactly CPython's. -/
def allAscii (l : List Char) : Bool := l.all (fun c => c.toNat ≤ 127)

/-- CPython's `str.isdigit` character class on ASCII plus the superscript
digits `¹`, `²`, `³` (Unicode `Numeric_Type=Digit` characters that `isdigit`
accepts but `int()` rejects).  On tokens drawn from this sub-domain the
predicate is exactly `str.isdigit`; further non-ASCII digit-class characters
exist and are outside the modeled domain. -/
def isDigitClassChar (c : Char) : Bool :=
  c.isDigit || c = '¹' || c = '²' || c = '³'

/-- `str.isdigit()` over the modeled character class. -/
def pyStrIsDigit (l : List Char) : Bool := !l.isEmpty && l.all isDigitClassChar

/-- `int(token)` on a digit-class token: defined exactly on ASCII decimal
digits; on the digit-class characters outside that set — the superscripts —
CPython raises `ValueError`, modeled as `none`. -/
def pyIntParse (l : List Char) : Option Int :=
  if pyIsDigit l then some (pyIntOfDigits l) else none

/-- The quote-stripping condition of `_parse_value`: the token both begins and
ends with a double quote, or both begins and ends with a single quote. -/
def quoteWrapped (value : List Char) : Bool :=
  (value.head? = some '"' && value.getLast? = some '"')
    || (value.head? = some (Char.ofNat 39) && value.getLast? = some (Char.ofNat 39))

/-- A Map key the serializer embeds verbatim and the parser recovers: free of
colons and newlines, strip-invariant, and not beginning with the comment or
list-item markers. -/
def SafeKey (k : String) : Bool :=
  cleanEnds k.data && !k.data.contains ':' && !k.data.contains '\n'
    && !(k.data.head? == some '#') && !(k.data.head? == some '-')

/-- A Text scalar whose serialization re-parses to itself: newline-free, and
either quoted on output (it contains a space or colon) or an all-ASCII bare
token that is non-empty, strip-invariant, distinct from the keyword
literals, not parseable as a float unless it is all digits, and not
quote-wrapped.  The ASCII condition keeps the bare token inside the domain
where the modeled `isdigit`/`int`/`float` are exactly CPython's. -/
def SafeText (s : String) : Bool :=
  !s.data.contains '\n' &&
    (s.data.contains ' ' || s.data.contains ':' ||
      (!s.data.isEmpty && cleanEnds s.data
        && !(s == "null") && !(s == "true") && !(s == "false")
        && (pyIsDigit s.data || (pyFloatParse s.data).isNone)
        && !quoteWrapped s.data && allAscii s.data))

/-- Scalars whose `_serialize_value` rendering re-parses to themselves (up to
the all-digit-Text-to-Integer coercion): Null, Booleans, non-negative
Integers and safe Text. -/
def SafeScalar : Value → Bool
  | .null => true
  | .bool _ => true
  | .int n => decide (0 ≤ n)
  | .str s => SafeText s
  | _ => false

/-- A List item the serializer puts on a single `- ` line that the parser
recovers: a safe scalar whose rendered token is colon-free. -/
def SafeItem : Value → Bool
  | .str s => SafeText s && !s.data.contains ':'
  | .int n => decide (0 ≤ n)
  | .null => true
  | .bool _ => true
  | _ => false

mutual

/-- Values of the amended round-trip claim: safe scalars at the leaves,
non-empty Lists of safe items, and non-empty Maps with pairwise-distinct safe
keys and safe values. -/
def SafeVal : Value → Bool
  | .dict d => !d.isEmpty && nodupKeys (d.map Prod.fst) && SafeEntries d
  | .list l => !l.isEmpty && SafeItems l
  | v => SafeScalar v

def SafeEntries : List (String × Value) → Bool
  | [] => true
  | (k, v) :: rest => SafeKey k && SafeVal v && SafeEntries rest

def SafeItems : List Value → Bool
  | [] => true
  | v :: rest => SafeItem v && SafeItems rest

end

mutual

/-- The Integer coercion the round-trip claim allows: every all-digit Text
anywhere in the Value becomes the Integer it spells. -/
def numify : Value → Value
  | .str s => if pyIsDigit s.data then .int (pyIntOfDigits s.data) else .str s
  | .list l => .list (numifyItems l)
  | .dict d => .dict (numifyEntries d)
  | v => v

def numifyItems : List Value → List Value
  | [] => []
  | v :: rest => numify v :: numifyItems rest

def numifyEntries : List (String × Value) → List (String × Value)
  | [] => []
  | (k, v) :: rest => (k, numify v) :: numifyEntries rest

end

mutual

/-- The serialized lines of a Map block at indent level `k` (two spaces per
level): one `key: value` line per scalar entry, a `key:` line followed by the
nested block's lines for a container entry. -/
def dictLines : List (String × Value) → Nat → List (List Char)
  | [], _ => []
  | (key, value) :: rest, k =>
    (match value with
     | .dict d => (List.replicate (2 * k) ' ' ++ key.data ++ [':']) :: dictLines d (k + 1)
     | .list l => (List.replicate (2 * k) ' ' ++ key.data ++ [':']) :: listLines l (k + 1)
     | v => [List.replicate (2 * k) ' ' ++ key.data
              ++ ':' :: ' ' :: (SimpleYAML._serialize_value v).data])
      ++ dictLines rest k

/-- The serialized lines of a List block at indent level `k`: one `- value`
line per scalar item, a bare `- ` line followed by the nested block's lines
for a container item. -/
def listLines : List Value → Nat → List (List Char)
  | [], _ => []
  | item :: rest, k =>
    (match item with
     | .dict d => (List.replicate (2 * k) ' ' ++ "- ".data) :: dictLines d (k + 1)
     | .list l => (List.replicate (2 * k) ' ' ++ "- ".data) :: listLines l (k + 1)
     | v => [List.replicate (2 * k) ' ' ++ '-' :: ' ' :: (SimpleYAML._serialize_value v).data])
      ++ listLines rest k

end

/-- Join lines with newlines: the left inverse of `splitLinesL`. -/
def joinLinesL : List (List Char) → List Char
  | [] => []
  | [a] => a
  | a :: rest => a ++ '\n' :: joinLinesL rest

/-- The lines following a serialized block either end the input or resume with
a non-blank line at the block's indent or shallower, so the parser's
look-ahead never swallows them. -/
def suffixOK (ind : Nat) (suffix : List (List Char)) : Prop :=
  ∀ h, suffix.head? = some h → indentOf h ≤ ind ∧ (stripL h).isEmpty = false

/-- Top-level shapes the amended round-trip claim quantifies over. -/
def isContainer : Value → Bool
  | .dict _ => true
  | .list _ => true
  | _ => false

/-! ## Helper lemmas -/

open DataConvert

/-- The space character is Python whitespace. -/
theorem ws_space : isPyWhitespace ' ' = true := by decide

/-- Leading spaces are consumed by a whitespace `dropWhile`. -/
theorem dropWhile_ws_replicate (n : Nat) (l : List Char) :
    (List.replicate n ' ' ++ l).dropWhile isPyWhitespace = l.dropWhile isPyWhitespace := by
  induction n with
  | zero => rfl
  | succ n ih => simp [List.replicate_succ, List.dropWhile_cons, ws_space, ih]

/-- `strip` ignores leading spaces. -/
theorem stripL_replicate_append (n : Nat) (l : List Char) :
    stripL (List.replicate n ' ' ++ l) = stripL l := by
  simp [stripL, dropWhile_ws_replicate]

/-- A whitespace `dropWhile` leaves a list with a clean head unchanged. -/
theorem dropWhile_ws_of_cleanHead (l : List Char) (h : cleanHead l = true) :
    l.dropWhile isPyWhitespace = l := by
  cases l with
  | nil => rfl
  | cons c rest =>
    simp only [cleanHead, List.head?] at h
    have h' : isPyWhitespace c = false := by simpa using h
    simp [List.dropWhile_cons, h']

/-- `strip` leaves a list with clean ends unchanged. -/
theorem stripL_of_cleanEnds (l : List Char) (h : cleanEnds l = true) :
    stripL l = l := by
  simp only [cleanEnds, Bool.and_eq_true] at h
  obtain ⟨h1, h2⟩ := h
  have hrev : cleanHead l.reverse = true := by
    cases l with
    | nil => rfl
    | cons c rest =>
      simp only [cleanLast] at h2
      simp only [cleanHead, List.head?_reverse]
      rw [show (c :: rest).getLast? = some ((c :: rest).getLast (by simp)) from
        List.getLast?_eq_getLast _ (by simp)] at h2 ⊢
      exact h2
  rw [stripL, dropWhile_ws_of_cleanHead l h1, dropWhile_ws_of_cleanHead _ hrev,
    List.reverse_reverse]

/-- The indent of `n` spaces followed by a clean-headed remainder is `n`. -/
theorem indentOf_replicate_append (n : Nat) (l : List Char) (h : cleanHead l = true) :
    indentOf (List.replicate n ' ' ++ l) = n := by
  have htw : (List.replicate n ' ' ++ l).takeWhile isPyWhitespace = List.replicate n ' ' := by
    induction n with
    | zero =>
      cases l with
      | nil => rfl
      | cons c rest =>
        simp only [cleanHead, List.head?] at h
        have h' : isPyWhitespace c = false := by simpa using h
        simp [List.takeWhile_cons, h']
    | succ n ih => simpa [List.replicate_succ, List.takeWhile_cons, ws_space] using ih
  simp [indentOf, htw]

/-- Splitting at the first colon of `k ++ ':' :: r` returns `(k, r)` when `k`
is colon-free. -/
theorem splitFirstColon_append (k r : List Char) (h : k.contains ':' = false) :
    splitFirstColon (k ++ ':' :: r) = some (k, r) := by
  induction k with
  | nil => simp [splitFirstColon]
  | cons c rest ih =>
    simp only [List.contains_cons, Bool.or_eq_false_iff] at h
    obtain ⟨hc, hrest⟩ := h
    have hc' : ¬c = ':' := by
      intro hcc; subst hcc; simp at hc
    simp [splitFirstColon, hc', ih hrest]

/-- A colon-free list has no first-colon split. -/
theorem splitFirstColon_none (l : List Char) (h : l.contains ':' = false) :
    splitFirstColon l = none := by
  induction l with
  | nil => rfl
  | cons c rest ih =>
    simp only [List.contains_cons, Bool.or_eq_false_iff] at h
    obtain ⟨hc, hrest⟩ := h
    have hc' : ¬c = ':' := by
      intro hcc; subst hcc; simp at hc
    simp [splitFirstColon, hc', ih hrest]

/-- A list whose head is not `'-'` does not start with the list marker. -/
theorem not_isPrefixOf_dash (l : List Char) (h : l.head? ≠ some '-') :
    "- ".data.isPrefixOf l = false := by
  cases l with
  | nil => rfl
  | cons c rest =>
    simp only [List.head?] at h
    have : ¬('-' == c) = true := by
      intro hc
      exact h (by simpa using (eq_of_beq hc).symm)
    show (('-' == c) && _) = false
    simp [this]

/-- `Except.mapError` to a `typeError` never produces the dispatch's
`UnsupportedFormat` condition. -/
theorem isUF_mapError_typeError (e : Except String String) :
    isUnsupportedFormatErr (e.mapError PyErr.typeError) = false := by
  cases e <;> rfl

/-- None of the four serializer branches signals `UnsupportedFormat`. -/
theorem isUF_renderOutput (fout : String) (v : Value) (root : String)
    (h : fout ∈ validFormats) :
    isUnsupportedFormatErr (convertRenderOutput fout v root) = false := by
  simp only [validFormats, List.mem_cons, List.mem_singleton, List.not_mem_nil, or_false] at h
  rcases h with rfl | rfl | rfl | rfl
  · rfl
  · show isUnsupportedFormatErr
      (if ("csv" : String) = "json" then _ else if ("csv" : String) = "csv" then _ else _) = false
    rw [if_neg (by decide), if_pos rfl]
    exact isUF_mapError_typeError _
  · show isUnsupportedFormatErr
      (if ("xml" : String) = "json" then _ else if ("xml" : String) = "csv" then _ else _) = false
    rw [if_neg (by decide), if_neg (by decide)]
    show isUnsupportedFormatErr
      (if ("xml" : String) = "xml" then _ else _) = false
    rw [if_pos rfl]
    split
    · exact isUF_mapError_typeError _
    · exact isUF_mapError_typeError _
  · rfl

/-- A recognized input format's parse phase never signals
`UnsupportedFormat` (its failures are the delegated parsers'
`MalformedInput`). -/
theorem parseInput_not_UF (fin s root : String) (h : fin ∈ validFormats) (m : String) :
    convertParseInput fin s root ≠ .error (.unsupportedFormat m) := by
  simp only [validFormats, List.mem_cons, List.mem_singleton, List.not_mem_nil, or_false] at h
  rcases h with rfl | rfl | rfl | rfl
  · simp only [convertParseInput, reduceIte]
    cases json_to_dict s <;> simp [Except.mapError]
  · simp [convertParseInput]
  · simp only [convertParseInput, reduceIte]
    cases xml_to_dict s <;> simp
  · simp [convertParseInput]

/-- Evaluation of the tree-mapping on the concrete document
`<data><name>Test</name></data>`. -/
theorem xml_to_dict_testdoc :
    xml_to_dict "<data><name>Test</name></data>" = .ok (.dict [("name", .str "Test")]) := by
  have he : _element_to_dict ⟨"data", [], none, [⟨"name", [], some "Test", []⟩]⟩ =
      .dict [("name", .str "Test")] := rfl
  show (xmlFromString "<data><name>Test</name></data>").map _element_to_dict = _
  rw [show xmlFromString "<data><name>Test</name></data>" =
      .ok ⟨"data", [], none, [⟨"name", [], some "Test", []⟩]⟩ from rfl]
  simp [Except.map, he]

/-- The parse phase on the concrete document, wrapped under the
caller-supplied root name. -/
theorem parse_xml_testdoc (root : String) :
    convertParseInput "xml" "<data><name>Test</name></data>" root =
      .ok (.dict [(root, .dict [("name", .str "Test")])]) := by
  show (match (xmlFromString "<data><name>Test</name></data>").map _element_to_dict with
    | Except.ok data => Except.ok (Value.dict [(root, data)])
    | Except.error e => (Except.error (PyErr.malformedInput e) : Except PyErr Value)) = _
  rw [show (xmlFromString "<data><name>Test</name></data>").map _element_to_dict =
      .ok (.dict [("name", .str "Test")]) from xml_to_dict_testdoc]

/-! ## The claims -/

/-- Claim C9: applied to a bare scalar at the top level, the block-format
serializer returns the host language's default rendering: Boolean true
renders as `True` (not `true`), Null renders as `None` (not `null`), and a
Text is returned as-is — never quoted, even with a space or colon. -/
theorem C9_bare_scalar_serialize :
    SimpleYAML.serialize (.bool true) 0 = "True" ∧
    SimpleYAML.serialize .null 0 = "None" ∧
    ∀ s : String, SimpleYAML.serialize (.str s) 0 = s :=
  ⟨rfl, rfl, fun _ => rfl⟩

/-- Claim C10: rendering an empty list of records to the tabular format
returns the empty string — no header line is emitted. -/
theorem C10_empty_csv_render :
    dict_to_csv (.list []) = .ok "" := rfl

/-- Claim C7 (corrected): with a recognized source format whose parse fails
(a malformed markup document) and an unrecognized destination format, the
conversion surfaces the parser's failure, not `UnsupportedFormat` — so the
claimed "if and only if" does not hold as stated. -/
theorem C7_counterexample :
    isUnsupportedFormatErr (convert "xml" "bogus" "<" "root") = false ∧
    "xml" ∈ validFormats ∧ "bogus" ∉ validFormats ∧
    convert "xml" "bogus" "<" "root" = .error (.malformedInput "syntax error") :=
  ⟨rfl, by decide, by decide, rfl⟩

/-- Claim C7 (amended): `UnsupportedFormat` is signaled exactly by the two
dispatch points — for an unrecognized source tag, and for an unrecognized
destination tag once the source parse has succeeded; with both tags
recognized the conversion never signals it. -/
theorem C7_unsupported_format_dispatch :
    (∀ fin fout s root, fin ∉ validFormats →
      convert fin fout s root =
        .error (.unsupportedFormat ("Unsupported input format: " ++ fin))) ∧
    (∀ fin fout s root v, fin ∈ validFormats → fout ∉ validFormats →
      convertParseInput fin s root = .ok v →
      convert fin fout s root =
        .error (.unsupportedFormat ("Unsupported output format: " ++ fout))) ∧
    (∀ fin fout s root, fin ∈ validFormats → fout ∈ validFormats →
      isUnsupportedFormatErr (convert fin fout s root) = false) := by
  refine ⟨?_, ?_, ?_⟩
  · intro fin fout s root h
    simp only [validFormats, List.mem_cons, List.mem_singleton, List.not_mem_nil, or_false,
      not_or] at h
    obtain ⟨h1, h2, h3, h4⟩ := h
    simp [convert, convertParseInput, h1, h2, h3, h4, Bind.bind, Except.bind]
  · intro fin fout s root v hin hout hok
    simp only [validFormats, List.mem_cons, List.mem_singleton, List.not_mem_nil, or_false,
      not_or] at hout
    obtain ⟨o1, o2, o3, o4⟩ := hout
    show (convertParseInput fin s root).bind (fun data => convertRenderOutput fout data root) = _
    rw [hok]
    simp [Except.bind, convertRenderOutput, o1, o2, o3, o4]
  · intro fin fout s root hin hout
    show isUnsupportedFormatErr
      ((convertParseInput fin s root).bind fun data => convertRenderOutput fout data root) = false
    cases hp : convertParseInput fin s root with
    | ok v => simpa [Except.bind] using isUF_renderOutput fout v root hout
    | error e =>
      cases e with
      | unsupportedFormat m => exact absurd hp (parseInput_not_UF fin s root hin m)
      | malformedInput m => simp [Except.bind, isUnsupportedFormatErr]
      | typeError m => simp [Except.bind, isUnsupportedFormatErr]

/-- Witness for C7: a conversion between two recognized formats, with the
membership hypotheses discharged concretely. -/
theorem C7_witness :
    isUnsupportedFormatErr (convert "yaml" "json" "a: 1" "root") = false :=
  C7_unsupported_format_dispatch.2.2 "yaml" "json" "a: 1" "root" (by decide) (by decide)

/-- Claim C3 (corrected): converting from markup wraps the parsed document
under the caller-supplied root name (the facade's `root_name`, default
`"root"`), not under the document's root tag: for `<data>…</data>` the key
is `"root"`, not `"data"`. -/
theorem C3_counterexample :
    convertParseInput "xml" "<data><name>Test</name></data>" "root" =
      .ok (.dict [("root", .dict [("name", .str "Test")])]) ∧
    "root" ≠ "data" :=
  ⟨parse_xml_testdoc "root", by decide⟩

/-- Claim C3 (amended): for every markup source whose document parses, the
parse phase hands downstream codecs a single-entry map keyed by the
caller-supplied root name. -/
theorem C3_root_wrap (s root : String) (d : Value) (h : xml_to_dict s = .ok d) :
    convertParseInput "xml" s root = .ok (.dict [(root, d)]) := by
  show (match xml_to_dict s with
    | Except.ok data => Except.ok (Value.dict [(root, data)])
    | Except.error e => (Except.error (PyErr.malformedInput e) : Except PyErr Value)) = _
  rw [h]

/-- Witness for C3: the wrap on a concretely parsed document. -/
theorem C3_witness :
    convertParseInput "xml" "<data><name>Test</name></data>" "cfg" =
      .ok (.dict [("cfg", .dict [("name", .str "Test")])]) :=
  C3_root_wrap "<data><name>Test</name></data>" "cfg" _ xml_to_dict_testdoc

/-- Claim C4: `Convert("xml","json","<data><name>Test</name></data>")` with
the default root name yields the JSON object with the single top-level key
`"root"` mapping `"name"` to `"Test"`. -/
theorem C4_xml_to_json_concrete :
    convert "xml" "json" "<data><name>Test</name></data>" "root" =
      .ok (pyJsonDumps (.dict [("root", .dict [("name", .str "Test")])]) true 0) ∧
    pyJsonDumps (.dict [("root", .dict [("name", .str "Test")])]) true 0 =
      "\x7b\n  \"root\": \x7b\n    \"name\": \"Test\"\n  \x7d\n\x7d" := by
  constructor
  · show (convertParseInput "xml" "<data><name>Test</name></data>" "root").bind
      (fun data => convertRenderOutput "json" data "root") = _
    rw [parse_xml_testdoc "root"]
    rfl
  · rfl

/-- Claim C8 (amended): for every all-ASCII trimmed token — the domain on
which `str.isdigit`, `int()` and `float()` coincide with their models —
scalar parsing applies exactly the source's precedence: empty or `null`
gives Null; `true`/`false` the Boolean; an all-digit token an Integer; else
a successful float parse (PEP 515 underscores included) a Float; else a
token wrapped in matching single or double quotes the Text inside; else the
raw token as Text.  Outside ASCII the precedence fails as claimed: see the
counterexample. -/
theorem C8_scalar_parse_precedence (v : List Char) (hascii : allAscii v = true) :
    ((v = [] ∨ v = "null".data) → SimpleYAML._parse_value v = .null) ∧
    (v = "true".data → SimpleYAML._parse_value v = .bool true) ∧
    (v = "false".data → SimpleYAML._parse_value v = .bool false) ∧
    (v ≠ [] → v ≠ "null".data → pyIsDigit v = true →
      SimpleYAML._parse_value v = .int (pyIntOfDigits v)) ∧
    (∀ x, v ≠ [] → v ≠ "null".data → pyIsDigit v = false → pyFloatParse v = some x →
      SimpleYAML._parse_value v = .float x) ∧
    (v ≠ [] → v ≠ "null".data → v ≠ "true".data → v ≠ "false".data → pyIsDigit v = false →
      pyFloatParse v = none →
      ((v.head? = some '"' ∧ v.getLast? = some '"') ∨
        (v.head? = some (Char.ofNat 39) ∧ v.getLast? = some (Char.ofNat 39))) →
      SimpleYAML._parse_value v = .str ⟨(v.drop 1).dropLast⟩) ∧
    (v ≠ [] → v ≠ "null".data → v ≠ "true".data → v ≠ "false".data → pyIsDigit v = false →
      pyFloatParse v = none →
      ¬((v.head? = some '"' ∧ v.getLast? = some '"') ∨
        (v.head? = some (Char.ofNat 39) ∧ v.getLast? = some (Char.ofNat 39))) →
      SimpleYAML._parse_value v = .str ⟨v⟩) := by
  refine ⟨?_, ?_, ?_, ?_, ?_, ?_, ?_⟩
  · rintro (rfl | rfl) <;> rfl
  · rintro rfl; rfl
  · rintro rfl; rfl
  · intro h1 h2 h3
    have ht : v ≠ "true".data := by rintro rfl; exact absurd h3 (by decide)
    have hf : v ≠ "false".data := by rintro rfl; exact absurd h3 (by decide)
    simp [SimpleYAML._parse_value, h1, h2, ht, hf, h3]
  · intro x h1 h2 h3 h4
    have ht : v ≠ "true".data := by
      rintro rfl; rw [show pyFloatParse "true".data = none from rfl] at h4; exact absurd h4 (by simp)
    have hf : v ≠ "false".data := by
      rintro rfl; rw [show pyFloatParse "false".data = none from rfl] at h4; exact absurd h4 (by simp)
    simp [SimpleYAML._parse_value, h1, h2, ht, hf, h3, h4]
  · intro h1 h2 h3 h4 h5 h6 hq
    rcases hq with ⟨hq1, hq2⟩ | ⟨hq1, hq2⟩ <;>
      simp [SimpleYAML._parse_value, h1, h2, h3, h4, h5, h6, hq1, hq2]
  · intro h1 h2 h3 h4 h5 h6 hq
    rw [not_or, not_and_or, not_and_or] at hq
    obtain ⟨hd | hd, hs | hs⟩ := hq <;>
      simp [SimpleYAML._parse_value, h1, h2, h3, h4, h5, h6, hd, hs]

/-- Witness for C8: the raw-text fallback at a concrete token, with every
earlier rule's failure discharged. -/
theorem C8_witness : SimpleYAML._parse_value "hello".data = .str "hello" :=
  (C8_scalar_parse_precedence "hello".data (by decide)).2.2.2.2.2.2 (by decide)
    (by decide) (by decide) (by decide) (by rfl) (by rfl) (by decide)

/-- Claim C8 (corrected): the claimed precedence fails beyond ASCII — the
superscript `²` is a digit-class token (`'²'.isdigit()` is `True`), yet
`int('²')` has no value (CPython raises `ValueError` there, so the parse
raises instead of returning the claimed Integer), while the ASCII-domain
scalar parser would return it as raw Text. -/
theorem C8_counterexample :
    pyStrIsDigit "²".data = true ∧ pyIntParse "²".data = none ∧
    SimpleYAML._parse_value "²".data = .str "²" :=
  ⟨by decide, rfl, rfl⟩

/-- Claim C5 (corrected): `ValueToElement` does raise on some Values — a Map
whose `"@attributes"` entry is not itself a Map makes `dict.update` raise a
`TypeError` (modeled as the error result). -/
theorem C5_counterexample :
    _dict_to_element (.dict [("@attributes", .int 5)]) "root" =
      .error "TypeError: object is not iterable" := rfl

mutual

/-- `ValueToElement` succeeds on every Value whose reachable `"@attributes"`
entries are Maps. -/
theorem dict_to_element_total (v : Value) (tag : String) (h : attrsOk v = true) :
    ∃ e, _dict_to_element v tag = .ok e := by
  cases v with
  | null => exact ⟨_, rfl⟩
  | bool b => exact ⟨_, rfl⟩
  | int n => exact ⟨_, rfl⟩
  | float x => exact ⟨_, rfl⟩
  | str s => exact ⟨_, rfl⟩
  | list l =>
    simp only [attrsOk] at h
    obtain ⟨cs, hcs⟩ := list_to_elements_total l "item" h
    refine ⟨⟨tag, [], none, cs⟩, ?_⟩
    show (do
      let children ← listToElements l "item"
      pure (⟨tag, [], none, children⟩ : Element) : Except String Element) = _
    rw [hcs]
    rfl
  | dict d =>
    simp only [attrsOk, Bool.and_eq_true] at h
    obtain ⟨ha, he⟩ := h
    obtain ⟨p, hp⟩ := dict_entries_total d none [] he
    have hbody : _dict_to_element (.dict d) tag = (do
        let attrib ←
          match pyDictGet d "@attributes" with
          | some av => attribUpdate [] av
          | none => pure []
        let (text, children) ← dictEntriesToElement d none []
        pure (⟨tag, attrib, text, children⟩ : Element) : Except String Element) := rfl
    cases hg : pyDictGet d "@attributes" with
    | none =>
      refine ⟨⟨tag, [], p.1, p.2⟩, ?_⟩
      rw [hbody, hg, hp]
      rfl
    | some av =>
      rw [hg] at ha
      cases av with
      | dict ad =>
        refine ⟨⟨tag, ad.map (fun q => (q.1, pyStr q.2)), p.1, p.2⟩, ?_⟩
        rw [hbody, hg]
        show (do
          let attrib ← attribUpdate [] (.dict ad)
          let (text, children) ← dictEntriesToElement d none []
          pure (⟨tag, attrib, text, children⟩ : Element) : Except String Element) = _
        rw [show attribUpdate [] (.dict ad) =
          .ok (ad.map (fun q => (q.1, pyStr q.2))) from rfl, hp]
        rfl
      | null => simp at ha
      | bool b => simp at ha
      | int n => simp at ha
      | float x => simp at ha
      | str s => simp at ha
      | list l => simp at ha
  termination_by sizeOf v

theorem dict_entries_total : ∀ (d : List (String × Value)) (text : Option String)
    (children : List Element), attrsOkEntries d = true →
    ∃ p, dictEntriesToElement d text children = .ok p
  | [], _, _, _ => ⟨_, rfl⟩
  | (k, v) :: rest, text, children, h => by
    simp only [attrsOkEntries, Bool.and_eq_true] at h
    obtain ⟨hv, hrest⟩ := h
    by_cases hka : k = "@attributes"
    · subst hka
      obtain ⟨p, hp⟩ := dict_entries_total rest text children hrest
      exact ⟨p, by rw [show dictEntriesToElement (("@attributes", v) :: rest) text children =
        dictEntriesToElement rest text children from rfl]; exact hp⟩
    · by_cases hkt : k = "#text"
      · subst hkt
        obtain ⟨p, hp⟩ := dict_entries_total rest (some (pyStr v)) children hrest
        exact ⟨p, by rw [show dictEntriesToElement (("#text", v) :: rest) text children =
          dictEntriesToElement rest (some (pyStr v)) children from rfl]; exact hp⟩
      · rw [if_neg hka, if_neg hkt] at hv
        cases v with
        | list l =>
          simp only [attrsOk] at hv
          obtain ⟨cs, hcs⟩ := list_to_elements_total l k hv
          obtain ⟨p, hp⟩ := dict_entries_total rest text (children ++ cs) hrest
          have hstep : dictEntriesToElement ((k, Value.list l) :: rest) text children =
              if k = "@attributes" then dictEntriesToElement rest text children
              else if k = "#text" then
                dictEntriesToElement rest (some (pyStr (.list l))) children
              else (do
                let cs ← listToElements l k
                dictEntriesToElement rest text (children ++ cs)) := rfl
          refine ⟨p, ?_⟩
          rw [hstep, if_neg hka, if_neg hkt, hcs]
          exact hp
        | null =>
          obtain ⟨c, hc⟩ := dict_to_element_total .null k hv
          obtain ⟨p, hp⟩ := dict_entries_total rest text (children ++ [c]) hrest
          have hstep : dictEntriesToElement ((k, Value.null) :: rest) text children =
              if k = "@attributes" then dictEntriesToElement rest text children
              else if k = "#text" then
                dictEntriesToElement rest (some (pyStr .null)) children
              else (do
                let c ← _dict_to_element .null k
                dictEntriesToElement rest text (children ++ [c])) := rfl
          refine ⟨p, ?_⟩
          rw [hstep, if_neg hka, if_neg hkt, hc]
          exact hp
        | bool b =>
          obtain ⟨c, hc⟩ := dict_to_element_total (.bool b) k hv
          obtain ⟨p, hp⟩ := dict_entries_total rest text (children ++ [c]) hrest
          have hstep : dictEntriesToElement ((k, Value.bool b) :: rest) text children =
              if k = "@attributes" then dictEntriesToElement rest text children
              else if k = "#text" then
                dictEntriesToElement rest (some (pyStr (.bool b))) children
              else (do
                let c ← _dict_to_element (.bool b) k
                dictEntriesToElement rest text (children ++ [c])) := rfl
          refine ⟨p, ?_⟩
          rw [hstep, if_neg hka, if_neg hkt, hc]
          exact hp
        | int n =>
          obtain ⟨c, hc⟩ := dict_to_element_total (.int n) k hv
          obtain ⟨p, hp⟩ := dict_entries_total rest text (children ++ [c]) hrest
          have hstep : dictEntriesToElement ((k, Value.int n) :: rest) text children =
              if k = "@attributes" then dictEntriesToElement rest text children
              else if k = "#text" then
                dictEntriesToElement rest (some (pyStr (.int n))) children
              else (do
                let c ← _dict_to_element (.int n) k
                dictEntriesToElement rest text (children ++ [c])) := rfl
          refine ⟨p, ?_⟩
          rw [hstep, if_neg hka, if_neg hkt, hc]
          exact hp
        | float x =>
          obtain ⟨c, hc⟩ := dict_to_element_total (.float x) k hv
          obtain ⟨p, hp⟩ := dict_entries_total rest text (children ++ [c]) hrest
          have hstep : dictEntriesToElement ((k, Value.float x) :: rest) text children =
              if k = "@attributes" then dictEntriesToElement rest text children
              else if k = "#text" then
                dictEntriesToElement rest (some (pyStr (.float x))) children
              else (do
                let c ← _dict_to_element (.float x) k
                dictEntriesToElement rest text (children ++ [c])) := rfl
          refine ⟨p, ?_⟩
          rw [hstep, if_neg hka, if_neg hkt, hc]
          exact hp
        | str sv =>
          obtain ⟨c, hc⟩ := dict_to_element_total (.str sv) k hv
          obtain ⟨p, hp⟩ := dict_entries_total rest text (children ++ [c]) hrest
          have hstep : dictEntriesToElement ((k, Value.str sv) :: rest) text children =
              if k = "@attributes" then dictEntriesToElement rest text children
              else if k = "#text" then
                dictEntriesToElement rest (some (pyStr (.str sv))) children
              else (do
                let c ← _dict_to_element (.str sv) k
                dictEntriesToElement rest text (children ++ [c])) := rfl
          refine ⟨p, ?_⟩
          rw [hstep, if_neg hka, if_neg hkt, hc]
          exact hp
        | dict d2 =>
          obtain ⟨c, hc⟩ := dict_to_element_total (.dict d2) k hv
          obtain ⟨p, hp⟩ := dict_entries_total rest text (children ++ [c]) hrest
          have hstep : dictEntriesToElement ((k, Value.dict d2) :: rest) text children =
              if k = "@attributes" then dictEntriesToElement rest text children
              else if k = "#text" then
                dictEntriesToElement rest (some (pyStr (.dict d2))) children
              else (do
                let c ← _dict_to_element (.dict d2) k
                dictEntriesToElement rest text (children ++ [c])) := rfl
          refine ⟨p, ?_⟩
          rw [hstep, if_neg hka, if_neg hkt, hc]
          exact hp
  termination_by d => sizeOf d

theorem list_to_elements_total : ∀ (l : List Value) (tag : String),
    attrsOkList l = true → ∃ cs, listToElements l tag = .ok cs
  | [], _, _ => ⟨_, rfl⟩
  | item :: rest, tag, h => by
    simp only [attrsOkList, Bool.and_eq_true] at h
    obtain ⟨hi, hrest⟩ := h
    obtain ⟨c, hc⟩ := dict_to_element_total item tag hi
    obtain ⟨cs, hcs⟩ := list_to_elements_total rest tag hrest
    refine ⟨c :: cs, ?_⟩
    show (do
      let c ← _dict_to_element item tag
      let cs ← listToElements rest tag
      pure (c :: cs) : Except String _) = _
    rw [hc, hcs]
    rfl
  termination_by l _ => sizeOf l

end

/-- Claim C5 (amended): the block-format serializer and `ElementToValue`
never raise, and the block-format parser never raises on all-ASCII input
(outside ASCII its `isdigit`-then-`int` path does raise, see
`C8_counterexample`); `ValueToElement` returns a tree — rather than raising —
for every Value whose reachable `"@attributes"` entries are Maps, and a
non-Map `"@attributes"` value makes it raise a `TypeError`. -/
theorem C5_value_to_element_no_raise (v : Value) (tag : String) (h : attrsOk v = true) :
    ∃ e, _dict_to_element v tag = .ok e :=
  dict_to_element_total v tag h

/-- Witness for C5: a Value carrying a well-formed attribute map. -/
theorem C5_witness :
    ∃ e, _dict_to_element
      (.dict [("@attributes", .dict [("id", .str "1")]), ("name", .str "Widget")]) "item" =
      .ok e :=
  C5_value_to_element_no_raise _ "item" (by rfl)

/-- One iteration of the block parser's loop, with the body exposed. -/
theorem parse_go_cons (fuel indent : Nat) (line : List Char) (rest : List (List Char))
    (result : List (String × Value)) (list_items : List Value) :
    SimpleYAML._parse_lines_go (fuel + 1) indent (line :: rest) result list_items =
    (let stripped := stripL line
     if stripped.isEmpty || stripped.head? = some '#' then
       SimpleYAML._parse_lines_go fuel indent rest result list_items
     else
       let line_indent := indentOf line
       if line_indent < indent then
         if !list_items.isEmpty then .list list_items else .dict result
       else if line_indent > indent then
         SimpleYAML._parse_lines_go fuel indent rest result list_items
       else if "- ".data.isPrefixOf stripped then
         let value := stripL (stripped.drop 2)
         match splitFirstColon value with
         | some (k, v) =>
           SimpleYAML._parse_lines_go fuel indent rest result
             (list_items ++ [.dict [(⟨stripL k⟩, SimpleYAML._parse_value (stripL v))]])
         | none =>
           SimpleYAML._parse_lines_go fuel indent rest result
             (list_items ++ [SimpleYAML._parse_value value])
       else
         match splitFirstColon stripped with
         | some (k0, v0) =>
           let key : String := ⟨stripL k0⟩
           let value := stripL v0
           if !value.isEmpty then
             SimpleYAML._parse_lines_go fuel indent rest
               (pyDictSet result key (SimpleYAML._parse_value value)) list_items
           else
             match rest with
             | next_line :: _ =>
               let next_indent := indentOf next_line
               if next_indent > line_indent then
                 let keep := fun sl => !(indentOf sl ≤ line_indent && !(stripL sl).isEmpty)
                 let sub_lines := rest.takeWhile keep
                 let rest' := rest.dropWhile keep
                 SimpleYAML._parse_lines_go fuel indent rest'
                   (pyDictSet result key
                     (SimpleYAML._parse_lines_go fuel next_indent sub_lines [] [])) list_items
               else
                 SimpleYAML._parse_lines_go fuel indent rest result list_items
             | [] =>
               SimpleYAML._parse_lines_go fuel indent rest
                 (pyDictSet result key .null) list_items
         | none =>
           SimpleYAML._parse_lines_go fuel indent rest result list_items) := rfl

/-- Claim C2 (amended): at a key–value line whose value part is empty, the
parser binds the key to the recursive parse of the following deeper-indented
lines when the next line is strictly deeper; it binds the key to Null when
there is no next line at all; but when a next line exists and is not deeper,
the key is dropped — the loop continues with the scope's accumulators
unchanged, so the key is absent from the result. -/
theorem C2_empty_value_lookahead (fuel ind : Nat) (key : String) (rest : List (List Char))
    (res : List (String × Value)) (items : List Value)
    (h1 : cleanEnds key.data = true) (h2 : key.data.contains ':' = false)
    (h3 : key.data.head? ≠ some '#') (h4 : key.data.head? ≠ some '-') :
    (rest = [] →
      SimpleYAML._parse_lines_go (fuel + 1) ind (kvLine ind key :: rest) res items =
        SimpleYAML._parse_lines_go fuel ind [] (pyDictSet res key .null) items) ∧
    (∀ next rest2, rest = next :: rest2 → ind < indentOf next →
      SimpleYAML._parse_lines_go (fuel + 1) ind (kvLine ind key :: rest) res items =
        SimpleYAML._parse_lines_go fuel ind
          (rest.dropWhile fun sl => !(indentOf sl ≤ ind && !(stripL sl).isEmpty))
          (pyDictSet res key
            (SimpleYAML._parse_lines_go fuel (indentOf next)
              (rest.takeWhile fun sl => !(indentOf sl ≤ ind && !(stripL sl).isEmpty)) [] []))
          items) ∧
    (∀ next rest2, rest = next :: rest2 → indentOf next ≤ ind →
      SimpleYAML._parse_lines_go (fuel + 1) ind (kvLine ind key :: rest) res items =
        SimpleYAML._parse_lines_go fuel ind rest res items) := by
  have hch : cleanHead (key.data ++ [':']) = true := by
    cases hk : key.data with
    | nil => rfl
    | cons c cs =>
      simp only [cleanEnds, Bool.and_eq_true] at h1
      have := h1.1
      rw [hk] at this
      simpa [cleanHead, List.head?] using this
  have hce : cleanEnds (key.data ++ [':']) = true := by
    simp only [cleanEnds, Bool.and_eq_true]
    refine ⟨hch, ?_⟩
    have hcolon : isPyWhitespace ':' = false := by decide
    simp [cleanLast, hcolon]
  have hstrip : stripL (kvLine ind key) = key.data ++ [':'] := by
    rw [kvLine, List.append_assoc, stripL_replicate_append, stripL_of_cleanEnds _ hce]
  have hind : indentOf (kvLine ind key) = ind := by
    rw [kvLine, List.append_assoc, indentOf_replicate_append _ _ hch]
  have hemp : (key.data ++ [':']).isEmpty = false := by simp
  have hnh : ¬((key.data ++ [':']).head? = some '#') := by
    cases hk : key.data with
    | nil => simp
    | cons c cs =>
      rw [hk] at h3
      simpa using h3
  have hnd : (key.data ++ [':']).head? ≠ some '-' := by
    cases hk : key.data with
    | nil => simp
    | cons c cs =>
      rw [hk] at h4
      simpa using h4
  have hpref : "- ".data.isPrefixOf (key.data ++ [':']) = false :=
    not_isPrefixOf_dash _ hnd
  have hsplit : splitFirstColon (key.data ++ [':']) = some (key.data, []) :=
    splitFirstColon_append key.data [] h2
  have hkstrip : stripL key.data = key.data := stripL_of_cleanEnds _ h1
  have hstep : ∀ R, SimpleYAML._parse_lines_go (fuel + 1) ind (kvLine ind key :: R) res items =
      (match R with
       | next_line :: _ =>
         if indentOf next_line > ind then
           SimpleYAML._parse_lines_go fuel ind
             (R.dropWhile fun sl => !(indentOf sl ≤ ind && !(stripL sl).isEmpty))
             (pyDictSet res key
               (SimpleYAML._parse_lines_go fuel (indentOf next_line)
                 (R.takeWhile fun sl => !(indentOf sl ≤ ind && !(stripL sl).isEmpty)) [] []))
             items
         else
           SimpleYAML._parse_lines_go fuel ind R res items
       | [] =>
         SimpleYAML._parse_lines_go fuel ind R (pyDictSet res key .null) items) := by
    intro R
    rw [parse_go_cons]
    simp only [hstrip, hemp, hnh, hind, hpref, hsplit, Bool.false_or, lt_irrefl,
      gt_iff_lt, if_false, decide_False]
    rw [if_neg (by simp [hnh])]
    simp only [lt_irrefl, if_false, hpref, Bool.false_eq_true, hsplit]
    rw [if_neg (by simp [stripL])]
    simp only [hkstrip]
  refine ⟨?_, ?_, ?_⟩
  · rintro rfl
    rw [hstep]
  · rintro next rest2 rfl hlt
    rw [hstep]
    show (if indentOf next > ind then _ else _) = _
    rw [if_pos hlt]
  · rintro next rest2 rfl hle
    rw [hstep]
    show (if indentOf next > ind then _ else _) = _
    rw [if_neg (by omega)]


/-- Claim C2 (corrected): parsing `"a:\nb: 1"` — the key `a` has an empty
value and the next line is not deeper — yields a map without the key `a`,
although the claim requires `a` to be present bound to Null. -/
theorem C2_counterexample :
    SimpleYAML.parse "a:\nb: 1" = .dict [("b", .int 1)] ∧
    pyDictGet [("b", .int 1)] "a" = none :=
  ⟨rfl, rfl⟩

/-- Witness for C2: the dropped-key case at a concrete scope. -/
theorem C2_witness :
    SimpleYAML._parse_lines_go 2 0 (kvLine 0 "a" :: ["b: 1".data]) [] [] =
      SimpleYAML._parse_lines_go 1 0 ["b: 1".data] [] [] :=
  (C2_empty_value_lookahead 1 0 "a" ["b: 1".data] [] []
    (by decide) (by decide) (by decide) (by decide)).2.2 "b: 1".data [] rfl (by decide)

theorem pyDictGet_append (A B : List (String × Value)) (t : String) :
    pyDictGet (A ++ B) t =
      match pyDictGet A t with
      | some v => some v
      | none => pyDictGet B t := by
  induction A with
  | nil => simp [pyDictGet]
  | cons kv rest ih =>
    obtain ⟨k, v⟩ := kv
    by_cases h : k = t
    · simp [pyDictGet, h]
    · simp [pyDictGet, h, ih]

theorem pyDictSet_append_of_none (A B : List (String × Value)) (t : String) (v : Value)
    (h : pyDictGet A t = none) :
    pyDictSet (A ++ B) t v = A ++ pyDictSet B t v := by
  induction A with
  | nil => simp
  | cons kv rest ih =>
    obtain ⟨k, w⟩ := kv
    simp only [pyDictGet] at h
    by_cases hk : k = t
    · simp [hk] at h
    · have h' : pyDictGet rest t = none := by simpa [hk] using h
      simp [pyDictSet, hk, ih h']

theorem pyDictGet_set_ne (r : List (String × Value)) (k t : String) (v : Value)
    (h : k ≠ t) : pyDictGet (pyDictSet r k v) t = pyDictGet r t := by
  induction r with
  | nil => simp [pyDictSet, pyDictGet, h]
  | cons kv rest ih =>
    obtain ⟨k', w⟩ := kv
    by_cases hk : k' = k
    · simp [pyDictSet, pyDictGet, hk, h]
    · simp [pyDictSet, pyDictGet, hk, ih]

/-- One step of the child fold. -/
theorem foldChildren_cons (c : Element) (rest : List Element) (r : List (String × Value)) :
    foldChildren (c :: rest) r =
      foldChildren rest (foldStep r c.tag (_element_to_dict c)) := rfl

theorem foldStep_none (r : List (String × Value)) (tg : String) (cd : Value)
    (h : pyDictGet r tg = none) : foldStep r tg cd = pyDictSet r tg cd := by
  simp [foldStep, h]

theorem foldStep_list (r : List (String × Value)) (tg : String) (cd : Value) (l : List Value)
    (h : pyDictGet r tg = some (.list l)) :
    foldStep r tg cd = pyDictSet r tg (.list (l ++ [cd])) := by
  simp [foldStep, h]

theorem foldStep_nonlist (r : List (String × Value)) (tg : String) (cd w : Value)
    (h : pyDictGet r tg = some w) (hw : ∀ l, w ≠ .list l) :
    foldStep r tg cd = pyDictSet r tg (.list [w, cd]) := by
  cases w with
  | list l => exact absurd rfl (hw l)
  | null => simp [foldStep, h]
  | bool b => simp [foldStep, h]
  | int n => simp [foldStep, h]
  | float x => simp [foldStep, h]
  | str sv => simp [foldStep, h]
  | dict d => simp [foldStep, h]

theorem foldChildren_get_untouched (children : List Element) (r : List (String × Value))
    (t : String) (h : ∀ c ∈ children, c.tag ≠ t) :
    pyDictGet (foldChildren children r) t = pyDictGet r t := by
  induction children generalizing r with
  | nil => rfl
  | cons c rest ih =>
    have hc : c.tag ≠ t := h c (by simp)
    have hrest : ∀ x ∈ rest, x.tag ≠ t := fun x hx => h x (by simp [hx])
    rw [foldChildren_cons, ih _ hrest]
    cases hg : pyDictGet r c.tag with
    | none => rw [foldStep_none _ _ _ hg]; exact pyDictGet_set_ne r c.tag t _ hc
    | some ex =>
      cases ex with
      | list l => rw [foldStep_list _ _ _ _ hg]; exact pyDictGet_set_ne r c.tag t _ hc
      | null =>
        rw [foldStep_nonlist _ _ _ _ hg (by intro l hl; cases hl)]
        exact pyDictGet_set_ne r c.tag t _ hc
      | bool b =>
        rw [foldStep_nonlist _ _ _ _ hg (by intro l hl; cases hl)]
        exact pyDictGet_set_ne r c.tag t _ hc
      | int n =>
        rw [foldStep_nonlist _ _ _ _ hg (by intro l hl; cases hl)]
        exact pyDictGet_set_ne r c.tag t _ hc
      | float x =>
        rw [foldStep_nonlist _ _ _ _ hg (by intro l hl; cases hl)]
        exact pyDictGet_set_ne r c.tag t _ hc
      | str sv =>
        rw [foldStep_nonlist _ _ _ _ hg (by intro l hl; cases hl)]
        exact pyDictGet_set_ne r c.tag t _ hc
      | dict d =>
        rw [foldStep_nonlist _ _ _ _ hg (by intro l hl; cases hl)]
        exact pyDictGet_set_ne r c.tag t _ hc

theorem foldChildren_group_tail (t : String) (cs rest : List Element)
    (r0 : List (String × Value)) (vs : List Value)
    (hcs : ∀ c ∈ cs, c.tag = t) (h0 : pyDictGet r0 t = none) :
    foldChildren (cs ++ rest) (r0 ++ [(t, .list vs)]) =
      foldChildren rest (r0 ++ [(t, .list (vs ++ cs.map _element_to_dict))]) := by
  induction cs generalizing vs with
  | nil => simp
  | cons c cs' ih =>
    have hct : c.tag = t := hcs c (by simp)
    have hget : pyDictGet (r0 ++ [(t, Value.list vs)]) c.tag = some (.list vs) := by
      rw [hct, pyDictGet_append, h0]
      simp [pyDictGet]
    have hset : pyDictSet (r0 ++ [(t, Value.list vs)]) c.tag
        (.list (vs ++ [_element_to_dict c])) = r0 ++ [(t, .list (vs ++ [_element_to_dict c]))] := by
      rw [hct, pyDictSet_append_of_none _ _ _ _ h0]
      simp [pyDictSet]
    rw [List.cons_append, foldChildren_cons, foldStep_list _ _ _ _ hget, hset,
      ih _ (fun x hx => hcs x (by simp [hx]))]
    simp

theorem foldChildren_group (t : String) (c : Element) (cs rest : List Element)
    (r0 : List (String × Value))
    (hct : c.tag = t) (hcs : ∀ x ∈ cs, x.tag = t) (h0 : pyDictGet r0 t = none)
    (hnl : ∀ l, _element_to_dict c ≠ .list l) :
    foldChildren ((c :: cs) ++ rest) r0 =
      foldChildren rest (r0 ++ [(t, groupValue (c :: cs))]) := by
  have hget : pyDictGet r0 c.tag = none := by rw [hct]; exact h0
  have hset : pyDictSet r0 c.tag (_element_to_dict c) = r0 ++ [(t, _element_to_dict c)] := by
    rw [hct, show (r0 : List (String × Value)) = r0 ++ [] from by simp,
      pyDictSet_append_of_none _ _ _ _ h0]
    simp [pyDictSet]
  cases cs with
  | nil =>
    rw [List.cons_append, List.nil_append, foldChildren_cons, foldStep_none _ _ _ hget, hset]
    rfl
  | cons c2 cs' =>
    have hc2 : c2.tag = t := hcs c2 (by simp)
    rw [List.cons_append, foldChildren_cons, foldStep_none _ _ _ hget, hset]
    have hget2 : pyDictGet (r0 ++ [(t, _element_to_dict c)]) c2.tag =
        some (_element_to_dict c) := by
      rw [hc2, pyDictGet_append, h0]
      simp [pyDictGet]
    have hset2 : pyDictSet (r0 ++ [(t, _element_to_dict c)]) c2.tag
        (.list [_element_to_dict c, _element_to_dict c2]) =
        r0 ++ [(t, .list [_element_to_dict c, _element_to_dict c2])] := by
      rw [hc2, pyDictSet_append_of_none _ _ _ _ h0]
      simp [pyDictSet]
    rw [List.cons_append, foldChildren_cons, foldStep_nonlist _ _ _ _ hget2 hnl, hset2,
      foldChildren_group_tail t cs' rest r0 _ (fun x hx => hcs x (by simp [hx])) h0]
    rfl



theorem childGroups_flatten (l : List Element) : flattenGroups (childGroups l) = l := by
  induction l with
  | nil => rfl
  | cons c rest ih =>
    cases hcg : childGroups rest with
    | nil =>
      rw [hcg] at ih
      have hrest : rest = [] := by simpa [flattenGroups] using ih.symm
      subst hrest
      rfl
    | cons p gs =>
      obtain ⟨t, g⟩ := p
      rw [hcg] at ih
      by_cases hct : c.tag = t
      · simp [childGroups, hcg, hct, flattenGroups]
        rw [show (flattenGroups ((t, g) :: gs) : List Element) = g ++ flattenGroups gs from rfl]
          at ih
        simpa [flattenGroups] using ih
      · simp [childGroups, hcg, hct, flattenGroups]
        rw [show (flattenGroups ((t, g) :: gs) : List Element) = g ++ flattenGroups gs from rfl]
          at ih
        simpa [flattenGroups] using ih

theorem childGroups_tagged (l : List Element) :
    ∀ p ∈ childGroups l, ∀ c ∈ p.2, c.tag = p.1 := by
  induction l with
  | nil => simp [childGroups]
  | cons c rest ih =>
    cases hcg : childGroups rest with
    | nil =>
      simp only [childGroups, hcg]
      intro p hp
      simp at hp
      subst hp
      simp
    | cons q gs =>
      obtain ⟨t, g⟩ := q
      rw [hcg] at ih
      by_cases hct : c.tag = t
      · simp only [childGroups, hcg, if_pos hct]
        intro p hp
        rcases List.mem_cons.mp hp with rfl | hp'
        · intro x hx
          rcases List.mem_cons.mp hx with rfl | hx'
          · exact hct
          · exact ih (t, g) (by simp) x hx'
        · exact ih p (by simp [hp'])
      · simp only [childGroups, hcg, if_neg hct]
        intro p hp
        rcases List.mem_cons.mp hp with rfl | hp'
        · intro x hx
          rcases List.mem_cons.mp hx with rfl | hx'
          · rfl
          · simp at hx'
        · exact ih p hp'

theorem childGroups_nonempty (l : List Element) :
    ∀ p ∈ childGroups l, p.2 ≠ [] := by
  induction l with
  | nil => simp [childGroups]
  | cons c rest ih =>
    cases hcg : childGroups rest with
    | nil =>
      simp only [childGroups, hcg]
      intro p hp
      simp at hp
      subst hp
      simp
    | cons q gs =>
      obtain ⟨t, g⟩ := q
      rw [hcg] at ih
      by_cases hct : c.tag = t
      · simp only [childGroups, hcg, if_pos hct]
        intro p hp
        rcases List.mem_cons.mp hp with rfl | hp'
        · simp
        · exact ih p (by simp [hp'])
      · simp only [childGroups, hcg, if_neg hct]
        intro p hp
        rcases List.mem_cons.mp hp with rfl | hp'
        · simp
        · exact ih p hp'

theorem childGroups_fst_mem (l : List Element) :
    ∀ p ∈ childGroups l, p.1 ∈ l.map Element.tag := by
  induction l with
  | nil => simp [childGroups]
  | cons c rest ih =>
    cases hcg : childGroups rest with
    | nil =>
      simp only [childGroups, hcg]
      intro p hp
      simp at hp
      subst hp
      simp
    | cons q gs =>
      obtain ⟨t, g⟩ := q
      rw [hcg] at ih
      by_cases hct : c.tag = t
      · simp only [childGroups, hcg, if_pos hct]
        intro p hp
        rcases List.mem_cons.mp hp with rfl | hp'
        · simp [← hct]
        · simp only [List.map_cons, List.mem_cons]
          exact Or.inr (ih p (by simp [hp']))
      · simp only [childGroups, hcg, if_neg hct]
        intro p hp
        rcases List.mem_cons.mp hp with rfl | hp'
        · simp
        · simp only [List.map_cons, List.mem_cons]
          exact Or.inr (ih p hp')

theorem childGroups_ne_nil (l : List Element) (h : l ≠ []) : childGroups l ≠ [] := by
  cases l with
  | nil => exact absurd rfl h
  | cons c rest =>
    simp only [childGroups]
    cases childGroups rest with
    | nil => simp
    | cons q gs =>
      obtain ⟨t, g⟩ := q
      by_cases hct : c.tag = t <;> simp [hct]

theorem goodForest_mem (l : List Element) (h : goodForest l = true) :
    ∀ c ∈ l, goodTree c = true := by
  induction l with
  | nil => simp
  | cons c rest ih =>
    simp only [goodForest, Bool.and_eq_true] at h
    intro x hx
    rcases List.mem_cons.mp hx with rfl | hx'
    · exact h.1
    · exact ih h.2 x hx'

theorem pyDictGet_none_of_keys (d : List (String × Value)) (t : String)
    (h : ∀ p ∈ d, p.1 ≠ t) : pyDictGet d t = none := by
  induction d with
  | nil => rfl
  | cons kv rest ih =>
    obtain ⟨k, v⟩ := kv
    have hk : k ≠ t := h (k, v) (by simp)
    simp only [pyDictGet, if_neg hk]
    exact ih fun p hp => h p (by simp [hp])

theorem groupEntries_keys (gs : List (String × List Element)) :
    (groupEntries gs).map Prod.fst = gs.map Prod.fst := by
  induction gs with
  | nil => rfl
  | cons p rest ih =>
    rw [show groupEntries (p :: rest) = (p.1, groupValue p.2) :: groupEntries rest from rfl]
    simp only [List.map_cons]
    rw [ih]

theorem skelEqList_append (a b c d : List Element)
    (h1 : skelEqList a b = true) (h2 : skelEqList c d = true) :
    skelEqList (a ++ c) (b ++ d) = true := by
  induction a generalizing b with
  | nil =>
    cases b with
    | nil => simpa using h2
    | cons x xs => simp [skelEqList] at h1
  | cons x xs ih =>
    cases b with
    | nil => simp [skelEqList] at h1
    | cons y ys =>
      simp only [skelEqList, Bool.and_eq_true] at h1
      simp only [List.cons_append, skelEqList, Bool.and_eq_true]
      exact ⟨h1.1, ih ys h1.2⟩

theorem attrib_map_roundtrip (a : List (String × String)) :
    (a.map fun p => (p.1, Value.str p.2)).map (fun q => (q.1, pyStr q.2)) = a := by
  induction a with
  | nil => rfl
  | cons p rest ih =>
    obtain ⟨k, v⟩ := p
    simp only [List.map_cons]
    rw [ih]
    rfl

theorem nodupKeys_cons (x : List String) (t : String) (h : nodupKeys (t :: x) = true) :
    x.contains t = false ∧ nodupKeys x = true := by
  simp only [nodupKeys, Bool.and_eq_true] at h
  exact ⟨by simpa using h.1, h.2⟩



/-- The fold over a fully grouped child list appends one entry per group. -/
theorem foldChildren_flatten (gs : List (String × List Element)) (r0 : List (String × Value))
    (htag : ∀ p ∈ gs, ∀ c ∈ p.2, c.tag = p.1)
    (hne : ∀ p ∈ gs, p.2 ≠ [])
    (h0 : ∀ p ∈ gs, pyDictGet r0 p.1 = none)
    (hnodup : nodupKeys (gs.map Prod.fst) = true)
    (hnl : ∀ p ∈ gs, ∀ c ∈ p.2, ∀ l, _element_to_dict c ≠ .list l) :
    foldChildren (flattenGroups gs) r0 = r0 ++ groupEntries gs := by
  induction gs generalizing r0 with
  | nil => simp [flattenGroups, groupEntries, foldChildren]
  | cons p gs' ih =>
    obtain ⟨t, cs⟩ := p
    cases cs with
    | nil => exact absurd rfl (hne (t, []) (by simp))
    | cons c cs' =>
      rw [show flattenGroups ((t, c :: cs') :: gs') = (c :: cs') ++ flattenGroups gs' from rfl]
      rw [foldChildren_group t c cs' (flattenGroups gs') r0
        (htag (t, c :: cs') (by simp) c (by simp))
        (fun x hx => htag (t, c :: cs') (by simp) x (by simp [hx]))
        (h0 (t, c :: cs') (by simp))
        (hnl (t, c :: cs') (by simp) c (by simp))]
      simp only [List.map_cons] at hnodup
      obtain ⟨hnin, hnodup'⟩ := nodupKeys_cons _ _ hnodup
      have hnotin : t ∉ gs'.map Prod.fst := by simpa using hnin
      rw [ih (r0 ++ [(t, groupValue (c :: cs'))])
        (fun q hq => htag q (by simp [hq])) (fun q hq => hne q (by simp [hq]))
        (fun q hq => ?_) hnodup' (fun q hq => hnl q (by simp [hq]))]
      · rw [show groupEntries ((t, c :: cs') :: gs') =
          (t, groupValue (c :: cs')) :: groupEntries gs' from rfl]
        simp
      · rw [pyDictGet_append, h0 q (by simp [hq])]
        have hqt : ¬t = q.1 := by
          intro he
          exact hnotin (he ▸ List.mem_map_of_mem Prod.fst hq)
        simp [pyDictGet, hqt]



/-- `_element_to_dict` in terms of the seeded fold. -/
theorem e2d_def (tag : String) (a : List (String × String)) (tx : Option String)
    (cs : List Element) :
    _element_to_dict ⟨tag, a, tx, cs⟩ =
      match foldChildren cs (r01 a tx) with
      | [(k, v)] => if k = "#text" then v else .dict [(k, v)]
      | [] => .null
      | r => .dict r := rfl

theorem r01_keys (a : List (String × String)) (tx : Option String) :
    ∀ p ∈ r01 a tx, p.1 = "@attributes" ∨ p.1 = "#text" := by
  intro p hp
  simp only [r01] at hp
  by_cases ha : a.isEmpty <;> cases tx with
  | none =>
    simp [ha] at hp
    try rcases hp with rfl | rfl
    all_goals simp_all
  | some s =>
    by_cases hs : (stripL s.data).isEmpty <;> simp [ha, hs] at hp <;>
      (try rcases hp with rfl | rfl) <;> simp_all

theorem r01_get_other (a : List (String × String)) (tx : Option String) (t : String)
    (h1 : t ≠ "@attributes") (h2 : t ≠ "#text") : pyDictGet (r01 a tx) t = none := by
  apply pyDictGet_none_of_keys
  intro p hp
  rcases r01_keys a tx p hp with h | h
  · rw [h]; exact fun he => h1 he.symm
  · rw [h]; exact fun he => h2 he.symm



theorem r01_get_text (a : List (String × String)) (tx : Option String) (v : Value)
    (h : pyDictGet (r01 a tx) "#text" = some v) : ∃ s, v = .str s := by
  simp only [r01] at h
  by_cases ha : a.isEmpty <;> cases tx with
  | none => simp [ha, pyDictGet] at h
  | some s =>
    by_cases hs : (stripL s.data).isEmpty <;>
      simp [ha, hs, pyDictGet, pyDictGet_append] at h <;>
      exact ⟨_, h.symm⟩

/-- A tree whose children avoid the `"#text"` tag never maps to a List. -/
theorem e2d_ne_list (e : Element)
    (h : (e.children.map Element.tag).contains "#text" = false) :
    ∀ l, _element_to_dict e ≠ .list l := by
  obtain ⟨tag, a, tx, cs⟩ := e
  have htags : ∀ c ∈ cs, c.tag ≠ "#text" := by
    intro c hc he
    have : "#text" ∈ cs.map Element.tag := he ▸ List.mem_map_of_mem Element.tag hc
    simp only [Element.children] at h
    exact absurd this (by simpa using h)
  have hget := foldChildren_get_untouched cs (r01 a tx) "#text" htags
  rw [e2d_def]
  cases hr : foldChildren cs (r01 a tx) with
  | nil => intro l hl; cases hl
  | cons p tail =>
    cases tail with
    | nil =>
      obtain ⟨k, v⟩ := p
      by_cases hk : k = "#text"
      · subst hk
        rw [hr] at hget
        simp only [pyDictGet, if_pos rfl] at hget
        obtain ⟨s, rfl⟩ := r01_get_text a tx v hget.symm
        intro l hl
        simp at hl
      · intro l hl
        simp [hk] at hl
    | cons q tail2 =>
      intro l hl
      cases hl



theorem rebuild_group_list (t : String) (cs : List Element)
    (IH : ∀ c ∈ cs, RoundOK c) (ht : ∀ c ∈ cs, c.tag = t) :
    ∃ es, listToElements (cs.map _element_to_dict) t = .ok es ∧
      skelEqList es cs = true := by
  induction cs with
  | nil => exact ⟨[], rfl, rfl⟩
  | cons c cs' ih =>
    obtain ⟨e', he', hsk⟩ := IH c (by simp)
    have he2 : _dict_to_element (_element_to_dict c) t = .ok e' := by
      rw [← ht c (by simp)]; exact he'
    obtain ⟨es, hes, hsks⟩ := ih (fun x hx => IH x (by simp [hx])) (fun x hx => ht x (by simp [hx]))
    refine ⟨e' :: es, ?_, ?_⟩
    · rw [List.map_cons]
      show (do
        let c2 ← _dict_to_element (_element_to_dict c) t
        let cs2 ← listToElements (cs'.map _element_to_dict) t
        pure (c2 :: cs2) : Except String _) = _
      rw [he2, hes]
      rfl
    · simp only [skelEqList, Bool.and_eq_true]
      exact ⟨hsk, hsks⟩

theorem rebuild_entries : ∀ (gs : List (String × List Element)) (text0 : Option String)
    (ch0 : List Element),
    (∀ c ∈ flattenGroups gs, RoundOK c) →
    (∀ p ∈ gs, ∀ c ∈ p.2, c.tag = p.1) →
    (∀ p ∈ gs, p.2 ≠ []) →
    (∀ p ∈ gs, p.1 ≠ "@attributes" ∧ p.1 ≠ "#text") →
    (∀ c ∈ flattenGroups gs, ∀ l, _element_to_dict c ≠ .list l) →
    ∃ cs', dictEntriesToElement (groupEntries gs) text0 ch0 = .ok (text0, ch0 ++ cs') ∧
      skelEqList cs' (flattenGroups gs) = true
  | [], text0, ch0, _, _, _, _, _ =>
    ⟨[], by simp [groupEntries, flattenGroups, dictEntriesToElement], rfl⟩
  | (t, cs) :: gs', text0, ch0, IH, htag, hne, hres, hnl => by
    obtain ⟨hta, htt⟩ := hres (t, cs) (by simp)
    have hflat : flattenGroups ((t, cs) :: gs') = cs ++ flattenGroups gs' := rfl
    have IH' : ∀ c ∈ flattenGroups gs', RoundOK c := fun c hc =>
      IH c (by rw [hflat]; exact List.mem_append_right _ hc)
    have hnl' : ∀ c ∈ flattenGroups gs', ∀ l, _element_to_dict c ≠ .list l := fun c hc =>
      hnl c (by rw [hflat]; exact List.mem_append_right _ hc)
    have htag' : ∀ p ∈ gs', ∀ c ∈ p.2, c.tag = p.1 := fun p hp => htag p (by simp [hp])
    have hne' : ∀ p ∈ gs', p.2 ≠ [] := fun p hp => hne p (by simp [hp])
    have hres' : ∀ p ∈ gs', p.1 ≠ "@attributes" ∧ p.1 ≠ "#text" := fun p hp =>
      hres p (by simp [hp])
    match cs, hne (t, cs) (by simp), htag (t, cs) (by simp),
        (fun c hc => IH c (by rw [hflat]; exact List.mem_append_left _ hc) :
          ∀ c ∈ cs, RoundOK c),
        (fun c hc => hnl c (by rw [hflat]; exact List.mem_append_left _ hc) :
          ∀ c ∈ cs, ∀ l, _element_to_dict c ≠ .list l) with
    | [], hcne, _, _, _ => exact absurd rfl hcne
    | [c], _, hct, IHg, hnlg =>
      obtain ⟨e', he', hsk⟩ := IHg c (by simp)
      have he2 : _dict_to_element (_element_to_dict c) t = .ok e' := by
        rw [← show c.tag = t from hct c (by simp)]; exact he'
      have hGE : groupEntries ((t, [c]) :: gs') =
          (t, _element_to_dict c) :: groupEntries gs' := rfl
      rw [hGE]
      cases hv : _element_to_dict c with
      | list l => exact absurd hv (by simpa using hnlg c (by simp) l)
      | null =>
        have he3 : _dict_to_element (Value.null) t = .ok e' := hv ▸ he2
        rw [show dictEntriesToElement ((t, (Value.null : Value)) :: groupEntries gs') text0 ch0 =
          (if t = "@attributes" then dictEntriesToElement (groupEntries gs') text0 ch0
           else if t = "#text" then
             dictEntriesToElement (groupEntries gs') (some (pyStr (Value.null))) ch0
           else (do
             let c2 ← _dict_to_element (Value.null) t
             dictEntriesToElement (groupEntries gs') text0 (ch0 ++ [c2]))) from rfl,
          if_neg hta, if_neg htt, he3]
        obtain ⟨cs₂, hcs₂, hsk₂⟩ := rebuild_entries gs' text0 (ch0 ++ [e']) IH' htag' hne' hres' hnl'
        refine ⟨e' :: cs₂, ?_, ?_⟩
        · rw [show ((do
            let c2 ← (Except.ok e' : Except String Element)
            dictEntriesToElement (groupEntries gs') text0 (ch0 ++ [c2])) : Except String _) =
            dictEntriesToElement (groupEntries gs') text0 (ch0 ++ [e']) from rfl, hcs₂]
          simp
        · rw [show flattenGroups ((t, [c]) :: gs') = [c] ++ flattenGroups gs' from rfl]
          exact skelEqList_append [e'] [c] cs₂ (flattenGroups gs')
            (by simp [skelEqList, hsk]) hsk₂
      | bool b =>
        have he3 : _dict_to_element (Value.bool b) t = .ok e' := hv ▸ he2
        rw [show dictEntriesToElement ((t, (Value.bool b : Value)) :: groupEntries gs') text0 ch0 =
          (if t = "@attributes" then dictEntriesToElement (groupEntries gs') text0 ch0
           else if t = "#text" then
             dictEntriesToElement (groupEntries gs') (some (pyStr (Value.bool b))) ch0
           else (do
             let c2 ← _dict_to_element (Value.bool b) t
             dictEntriesToElement (groupEntries gs') text0 (ch0 ++ [c2]))) from rfl,
          if_neg hta, if_neg htt, he3]
        obtain ⟨cs₂, hcs₂, hsk₂⟩ := rebuild_entries gs' text0 (ch0 ++ [e']) IH' htag' hne' hres' hnl'
        refine ⟨e' :: cs₂, ?_, ?_⟩
        · rw [show ((do
            let c2 ← (Except.ok e' : Except String Element)
            dictEntriesToElement (groupEntries gs') text0 (ch0 ++ [c2])) : Except String _) =
            dictEntriesToElement (groupEntries gs') text0 (ch0 ++ [e']) from rfl, hcs₂]
          simp
        · rw [show flattenGroups ((t, [c]) :: gs') = [c] ++ flattenGroups gs' from rfl]
          exact skelEqList_append [e'] [c] cs₂ (flattenGroups gs')
            (by simp [skelEqList, hsk]) hsk₂
      | int n =>
        have he3 : _dict_to_element (Value.int n) t = .ok e' := hv ▸ he2
        rw [show dictEntriesToElement ((t, (Value.int n : Value)) :: groupEntries gs') text0 ch0 =
          (if t = "@attributes" then dictEntriesToElement (groupEntries gs') text0 ch0
           else if t = "#text" then
             dictEntriesToElement (groupEntries gs') (some (pyStr (Value.int n))) ch0
           else (do
             let c2 ← _dict_to_element (Value.int n) t
             dictEntriesToElement (groupEntries gs') text0 (ch0 ++ [c2]))) from rfl,
          if_neg hta, if_neg htt, he3]
        obtain ⟨cs₂, hcs₂, hsk₂⟩ := rebuild_entries gs' text0 (ch0 ++ [e']) IH' htag' hne' hres' hnl'
        refine ⟨e' :: cs₂, ?_, ?_⟩
        · rw [show ((do
            let c2 ← (Except.ok e' : Except String Element)
            dictEntriesToElement (groupEntries gs') text0 (ch0 ++ [c2])) : Except String _) =
            dictEntriesToElement (groupEntries gs') text0 (ch0 ++ [e']) from rfl, hcs₂]
          simp
        · rw [show flattenGroups ((t, [c]) :: gs') = [c] ++ flattenGroups gs' from rfl]
          exact skelEqList_append [e'] [c] cs₂ (flattenGroups gs')
            (by simp [skelEqList, hsk]) hsk₂
      | float x =>
        have he3 : _dict_to_element (Value.float x) t = .ok e' := hv ▸ he2
        rw [show dictEntriesToElement ((t, (Value.float x : Value)) :: groupEntries gs') text0 ch0 =
          (if t = "@attributes" then dictEntriesToElement (groupEntries gs') text0 ch0
           else if t = "#text" then
             dictEntriesToElement (groupEntries gs') (some (pyStr (Value.float x))) ch0
           else (do
             let c2 ← _dict_to_element (Value.float x) t
             dictEntriesToElement (groupEntries gs') text0 (ch0 ++ [c2]))) from rfl,
          if_neg hta, if_neg htt, he3]
        obtain ⟨cs₂, hcs₂, hsk₂⟩ := rebuild_entries gs' text0 (ch0 ++ [e']) IH' htag' hne' hres' hnl'
        refine ⟨e' :: cs₂, ?_, ?_⟩
        · rw [show ((do
            let c2 ← (Except.ok e' : Except String Element)
            dictEntriesToElement (groupEntries gs') text0 (ch0 ++ [c2])) : Except String _) =
            dictEntriesToElement (groupEntries gs') text0 (ch0 ++ [e']) from rfl, hcs₂]
          simp
        · rw [show flattenGroups ((t, [c]) :: gs') = [c] ++ flattenGroups gs' from rfl]
          exact skelEqList_append [e'] [c] cs₂ (flattenGroups gs')
            (by simp [skelEqList, hsk]) hsk₂
      | str sv =>
        have he3 : _dict_to_element (Value.str sv) t = .ok e' := hv ▸ he2
        rw [show dictEntriesToElement ((t, (Value.str sv : Value)) :: groupEntries gs') text0 ch0 =
          (if t = "@attributes" then dictEntriesToElement (groupEntries gs') text0 ch0
           else if t = "#text" then
             dictEntriesToElement (groupEntries gs') (some (pyStr (Value.str sv))) ch0
           else (do
             let c2 ← _dict_to_element (Value.str sv) t
             dictEntriesToElement (groupEntries gs') text0 (ch0 ++ [c2]))) from rfl,
          if_neg hta, if_neg htt, he3]
        obtain ⟨cs₂, hcs₂, hsk₂⟩ := rebuild_entries gs' text0 (ch0 ++ [e']) IH' htag' hne' hres' hnl'
        refine ⟨e' :: cs₂, ?_, ?_⟩
        · rw [show ((do
            let c2 ← (Except.ok e' : Except String Element)
            dictEntriesToElement (groupEntries gs') text0 (ch0 ++ [c2])) : Except String _) =
            dictEntriesToElement (groupEntries gs') text0 (ch0 ++ [e']) from rfl, hcs₂]
          simp
        · rw [show flattenGroups ((t, [c]) :: gs') = [c] ++ flattenGroups gs' from rfl]
          exact skelEqList_append [e'] [c] cs₂ (flattenGroups gs')
            (by simp [skelEqList, hsk]) hsk₂
      | dict dd =>
        have he3 : _dict_to_element (Value.dict dd) t = .ok e' := hv ▸ he2
        rw [show dictEntriesToElement ((t, (Value.dict dd : Value)) :: groupEntries gs') text0 ch0 =
          (if t = "@attributes" then dictEntriesToElement (groupEntries gs') text0 ch0
           else if t = "#text" then
             dictEntriesToElement (groupEntries gs') (some (pyStr (Value.dict dd))) ch0
           else (do
             let c2 ← _dict_to_element (Value.dict dd) t
             dictEntriesToElement (groupEntries gs') text0 (ch0 ++ [c2]))) from rfl,
          if_neg hta, if_neg htt, he3]
        obtain ⟨cs₂, hcs₂, hsk₂⟩ := rebuild_entries gs' text0 (ch0 ++ [e']) IH' htag' hne' hres' hnl'
        refine ⟨e' :: cs₂, ?_, ?_⟩
        · rw [show ((do
            let c2 ← (Except.ok e' : Except String Element)
            dictEntriesToElement (groupEntries gs') text0 (ch0 ++ [c2])) : Except String _) =
            dictEntriesToElement (groupEntries gs') text0 (ch0 ++ [e']) from rfl, hcs₂]
          simp
        · rw [show flattenGroups ((t, [c]) :: gs') = [c] ++ flattenGroups gs' from rfl]
          exact skelEqList_append [e'] [c] cs₂ (flattenGroups gs')
            (by simp [skelEqList, hsk]) hsk₂
    | c :: c2 :: cs3, _, hct, IHg, hnlg =>
      obtain ⟨es, hes, hsks⟩ := rebuild_group_list t (c :: c2 :: cs3) IHg hct
      have hGE : groupEntries ((t, c :: c2 :: cs3) :: gs') =
          (t, .list ((c :: c2 :: cs3).map _element_to_dict)) :: groupEntries gs' := rfl
      rw [hGE]
      rw [show dictEntriesToElement
          ((t, Value.list ((c :: c2 :: cs3).map _element_to_dict)) :: groupEntries gs')
          text0 ch0 =
        (if t = "@attributes" then dictEntriesToElement (groupEntries gs') text0 ch0
         else if t = "#text" then
           dictEntriesToElement (groupEntries gs')
             (some (pyStr (.list ((c :: c2 :: cs3).map _element_to_dict)))) ch0
         else (do
           let cs2 ← listToElements ((c :: c2 :: cs3).map _element_to_dict) t
           dictEntriesToElement (groupEntries gs') text0 (ch0 ++ cs2))) from rfl,
        if_neg hta, if_neg htt, hes]
      obtain ⟨cs₂, hcs₂, hsk₂⟩ := rebuild_entries gs' text0 (ch0 ++ es) IH' htag' hne' hres' hnl'
      refine ⟨es ++ cs₂, ?_, ?_⟩
      · rw [show ((do
          let cs2 ← (Except.ok es : Except String (List Element))
          dictEntriesToElement (groupEntries gs') text0 (ch0 ++ cs2)) : Except String _) =
          dictEntriesToElement (groupEntries gs') text0 (ch0 ++ es) from rfl, hcs₂]
        simp
      · rw [hflat]
        exact skelEqList_append es (c :: c2 :: cs3) cs₂ (flattenGroups gs') hsks hsk₂



theorem r01_get_attr_empty (a : List (String × String)) (tx : Option String)
    (ha : a.isEmpty = true) : pyDictGet (r01 a tx) "@attributes" = none := by
  simp only [r01, ha]
  cases tx with
  | none => rfl
  | some s => by_cases hs : (stripL s.data).isEmpty <;> simp [hs, pyDictGet]

theorem r01_get_attr_nonempty (a : List (String × String)) (tx : Option String)
    (ha : a.isEmpty = false) : pyDictGet (r01 a tx) "@attributes" =
      some (.dict (a.map fun p => (p.1, .str p.2))) := by
  simp only [r01, ha]
  cases tx with
  | none => rfl
  | some s => by_cases hs : (stripL s.data).isEmpty <;> simp [hs, pyDictGet, pyDictGet_append]

theorem dictEntries_r01_front (a : List (String × String)) (tx : Option String)
    (GE : List (String × Value)) :
    dictEntriesToElement (r01 a tx ++ GE) none [] =
      dictEntriesToElement GE (r01Text tx) [] := by
  cases tx with
  | none =>
    by_cases ha : a.isEmpty
    · have h : r01 a none = [] := by simp [r01, ha]
      rw [h]
      rfl
    · have h : r01 a none = [("@attributes", .dict (a.map fun p => (p.1, .str p.2)))] := by
        simp [r01, ha]
      rw [h, show r01Text none = none from rfl]
      rfl
  | some s =>
    by_cases ha : a.isEmpty <;> by_cases hs : (stripL s.data).isEmpty
    · have h : r01 a (some s) = [] := by simp [r01, ha, hs]
      rw [h, show r01Text (some s) = none from by simp [r01Text, hs]]
      rfl
    · have h : r01 a (some s) = [("#text", .str ⟨stripL s.data⟩)] := by simp [r01, ha, hs]
      rw [h, show r01Text (some s) = some ⟨stripL s.data⟩ from by simp [r01Text, hs]]
      rfl
    · have h : r01 a (some s) = [("@attributes", .dict (a.map fun p => (p.1, .str p.2)))] := by
        simp [r01, ha, hs]
      rw [h, show r01Text (some s) = none from by simp [r01Text, hs]]
      rfl
    · have h : r01 a (some s) = [("@attributes", .dict (a.map fun p => (p.1, .str p.2))),
          ("#text", .str ⟨stripL s.data⟩)] := by
        simp [r01, ha, hs]
      rw [h, show r01Text (some s) = some ⟨stripL s.data⟩ from by simp [r01Text, hs]]
      rfl



/-- Rebuilding a dict of the shape the tree-mapping produces: attributes come
back exactly, the children are the flattened groups' rebuilds. -/
theorem rebuild_dict (tag : String) (a : List (String × String)) (tx : Option String)
    (gs : List (String × List Element))
    (IH : ∀ c ∈ flattenGroups gs, RoundOK c)
    (htag : ∀ p ∈ gs, ∀ c ∈ p.2, c.tag = p.1)
    (hne : ∀ p ∈ gs, p.2 ≠ [])
    (hres : ∀ p ∈ gs, p.1 ≠ "@attributes" ∧ p.1 ≠ "#text")
    (hnl : ∀ c ∈ flattenGroups gs, ∀ l, _element_to_dict c ≠ .list l) :
    ∃ cs', _dict_to_element (.dict (r01 a tx ++ groupEntries gs)) tag =
        .ok ⟨tag, a, r01Text tx, cs'⟩ ∧
      skelEqList cs' (flattenGroups gs) = true := by
  have hGEattr : pyDictGet (groupEntries gs) "@attributes" = none := by
    apply pyDictGet_none_of_keys
    intro p hp
    simp only [groupEntries, List.mem_map] at hp
    obtain ⟨q, hq, rfl⟩ := hp
    exact (hres q hq).1
  have hbody : _dict_to_element (.dict (r01 a tx ++ groupEntries gs)) tag = (do
      let attrib ←
        match pyDictGet (r01 a tx ++ groupEntries gs) "@attributes" with
        | some av => attribUpdate [] av
        | none => pure []
      let (text, children) ← dictEntriesToElement (r01 a tx ++ groupEntries gs) none []
      pure (⟨tag, attrib, text, children⟩ : Element) : Except String Element) := rfl
  obtain ⟨cs', hcs', hsk'⟩ := rebuild_entries gs (r01Text tx) [] IH htag hne hres hnl
  have hentries : dictEntriesToElement (r01 a tx ++ groupEntries gs) none [] =
      .ok (r01Text tx, cs') := by
    rw [dictEntries_r01_front, hcs']
    simp
  refine ⟨cs', ?_, hsk'⟩
  by_cases ha : a.isEmpty
  · have hgetA : pyDictGet (r01 a tx ++ groupEntries gs) "@attributes" = none := by
      rw [pyDictGet_append, r01_get_attr_empty a tx ha]
      exact hGEattr
    have ha' : a = [] := by simpa using ha
    subst ha'
    rw [hbody, hgetA]
    show (do
      let attrib ← (pure [] : Except String (List (String × String)))
      let (text, children) ← dictEntriesToElement (r01 [] tx ++ groupEntries gs) none []
      pure (⟨tag, attrib, text, children⟩ : Element) : Except String Element) = _
    rw [hentries]
    rfl
  · have hgetA : pyDictGet (r01 a tx ++ groupEntries gs) "@attributes" =
        some (.dict (a.map fun p => (p.1, .str p.2))) := by
      rw [pyDictGet_append, r01_get_attr_nonempty a tx (by simpa using ha)]
    rw [hbody, hgetA]
    show (do
      let attrib ← attribUpdate [] (.dict (a.map fun p => (p.1, .str p.2)))
      let (text, children) ← dictEntriesToElement (r01 a tx ++ groupEntries gs) none []
      pure (⟨tag, attrib, text, children⟩ : Element) : Except String Element) = _
    rw [show attribUpdate [] (.dict (a.map fun p => (p.1, .str p.2))) =
      .ok ((a.map fun p => (p.1, Value.str p.2)).map fun q => (q.1, pyStr q.2)) from rfl,
      attrib_map_roundtrip a, hentries]
    rfl



theorem mem_flattenGroups (gs : List (String × List Element)) (p : String × List Element)
    (hp : p ∈ gs) (c : Element) (hc : c ∈ p.2) : c ∈ flattenGroups gs := by
  induction gs with
  | nil => simp at hp
  | cons q gs' ih =>
    rw [show flattenGroups (q :: gs') = q.2 ++ flattenGroups gs' from by
      obtain ⟨t, g⟩ := q; rfl]
    rcases List.mem_cons.mp hp with rfl | hp'
    · exact List.mem_append_left _ hc
    · exact List.mem_append_right _ (ih hp')

theorem goodTree_parts (tag : String) (a : List (String × String)) (tx : Option String)
    (cs : List Element) (h : goodTree ⟨tag, a, tx, cs⟩ = true) :
    nodupKeys ((childGroups cs).map Prod.fst) = true ∧
    (cs.map Element.tag).contains "@attributes" = false ∧
    (cs.map Element.tag).contains "#text" = false ∧
    goodForest cs = true := by
  simp only [goodTree, Bool.and_eq_true] at h
  obtain ⟨⟨⟨h1, h2⟩, h3⟩, h4⟩ := h
  exact ⟨h1, by simpa using h2, by simpa using h3, h4⟩

theorem roundOK_aux : ∀ (n : Nat) (e : Element), sizeOf e ≤ n → goodTree e = true → RoundOK e := by
  intro n
  induction n with
  | zero =>
    intro e hsz
    obtain ⟨tag, a, tx, cs⟩ := e
    simp [Element.mk.sizeOf_spec] at hsz
  | succ n ih =>
    rintro ⟨tag, a, tx, cs⟩ hsz hg
    obtain ⟨hnodup, hnat, hntx, hforest⟩ := goodTree_parts tag a tx cs hg
    have IHall : ∀ c ∈ cs, RoundOK c := by
      intro c hc
      apply ih c ?_ (goodForest_mem cs hforest c hc)
      have h1 := List.sizeOf_lt_of_mem hc
      have h2 : sizeOf (Element.mk tag a tx cs) = 1 + sizeOf tag + sizeOf a
          + sizeOf tx + sizeOf cs := by simp [Element.mk.sizeOf_spec]
      omega
    have htagG := childGroups_tagged cs
    have hneG := childGroups_nonempty cs
    have hresG : ∀ p ∈ childGroups cs, p.1 ≠ "@attributes" ∧ p.1 ≠ "#text" := by
      intro p hp
      have hmem := childGroups_fst_mem cs p hp
      constructor
      · intro he
        exact absurd (he ▸ hmem) (by simpa using hnat)
      · intro he
        exact absurd (he ▸ hmem) (by simpa using hntx)
    have hnlG : ∀ c ∈ cs, ∀ l, _element_to_dict c ≠ .list l := by
      intro c hc
      have hgc := goodForest_mem cs hforest c hc
      obtain ⟨tc, ac, xc, cc⟩ := c
      obtain ⟨_, _, h3, _⟩ := goodTree_parts tc ac xc cc hgc
      exact e2d_ne_list ⟨tc, ac, xc, cc⟩ (by simpa using h3)
    have h0G : ∀ p ∈ childGroups cs, pyDictGet (r01 a tx) p.1 = none := fun p hp =>
      r01_get_other a tx p.1 (hresG p hp).1 (hresG p hp).2
    have hIHflat : ∀ c ∈ flattenGroups (childGroups cs), RoundOK c := by
      rw [childGroups_flatten]; exact IHall
    have hnlflat : ∀ c ∈ flattenGroups (childGroups cs), ∀ l, _element_to_dict c ≠ .list l := by
      rw [childGroups_flatten]; exact hnlG
    have htagged : ∀ p ∈ childGroups cs, ∀ c ∈ p.2, c.tag = p.1 := htagG
    have hfold : foldChildren cs (r01 a tx) = r01 a tx ++ groupEntries (childGroups cs) := by
      conv_lhs => rw [← childGroups_flatten cs]
      exact foldChildren_flatten (childGroups cs) (r01 a tx) htagged hneG h0G hnodup
        (fun p hp c hc => hnlG c (childGroups_flatten cs ▸
          mem_flattenGroups (childGroups cs) p hp c hc))
    show ∃ e', _dict_to_element (_element_to_dict ⟨tag, a, tx, cs⟩) tag = .ok e' ∧
      skelEq e' ⟨tag, a, tx, cs⟩ = true
    rw [e2d_def, hfold]
    have hdict : ∀ d : List (String × Value),
        d = r01 a tx ++ groupEntries (childGroups cs) →
        (∃ e', _dict_to_element (.dict d) tag = .ok e' ∧ skelEq e' ⟨tag, a, tx, cs⟩ = true) := by
      rintro d rfl
      obtain ⟨cs', hok, hsk⟩ := rebuild_dict tag a tx (childGroups cs)
        hIHflat htagged hneG hresG hnlflat
      refine ⟨⟨tag, a, r01Text tx, cs'⟩, hok, ?_⟩
      have hskcs : skelEqList cs' cs = true := by
        rw [childGroups_flatten cs] at hsk
        exact hsk
      simp [skelEq, hskcs]
    cases cs with
    | nil =>
      rw [show groupEntries (childGroups ([] : List Element)) = [] from rfl, List.append_nil]
      cases tx with
      | none =>
        by_cases ha : a.isEmpty
        · have ha' : a = [] := by simpa using ha
          subst ha'
          rw [show r01 [] none = [] from rfl]
          exact ⟨⟨tag, [], some "", []⟩, rfl, by simp [skelEq, skelEqList]⟩
        · have hr01 : r01 a none =
              [("@attributes", .dict (a.map fun p => (p.1, .str p.2)))] := by simp [r01, ha]
          rw [hr01]
          have := hdict (r01 a none ++ []) rfl
          rw [List.append_nil, hr01] at this
          show ∃ e', _dict_to_element
            (if ("@attributes" : String) = "#text" then
              Value.dict (a.map fun p => (p.1, .str p.2))
            else .dict [("@attributes", .dict (a.map fun p => (p.1, .str p.2)))]) tag =
              .ok e' ∧ _
          rw [if_neg (by decide)]
          exact this
      | some s =>
        by_cases ha : a.isEmpty <;> by_cases hs : (stripL s.data).isEmpty
        · have ha' : a = [] := by simpa using ha
          subst ha'
          rw [show r01 [] (some s) = [] from by simp [r01, hs]]
          exact ⟨⟨tag, [], some "", []⟩, rfl, by simp [skelEq, skelEqList]⟩
        · have ha' : a = [] := by simpa using ha
          subst ha'
          have hr01 : r01 [] (some s) = [("#text", .str ⟨stripL s.data⟩)] := by
            simp [r01, hs]
          rw [hr01]
          show ∃ e', _dict_to_element
            (if ("#text" : String) = "#text" then Value.str ⟨stripL s.data⟩
             else .dict [("#text", .str ⟨stripL s.data⟩)]) tag = .ok e' ∧ _
          rw [if_pos rfl]
          exact ⟨⟨tag, [], some (pyStr (.str ⟨stripL s.data⟩)), []⟩, rfl,
            by simp [skelEq, skelEqList]⟩
        · have hr01 : r01 a (some s) =
              [("@attributes", .dict (a.map fun p => (p.1, .str p.2)))] := by
            simp [r01, ha, hs]
          rw [hr01]
          have := hdict (r01 a (some s) ++ []) rfl
          rw [List.append_nil, hr01] at this
          show ∃ e', _dict_to_element
            (if ("@attributes" : String) = "#text" then
              Value.dict (a.map fun p => (p.1, .str p.2))
            else .dict [("@attributes", .dict (a.map fun p => (p.1, .str p.2)))]) tag =
              .ok e' ∧ _
          rw [if_neg (by decide)]
          exact this
        · have hr01 : r01 a (some s) =
              [("@attributes", .dict (a.map fun p => (p.1, .str p.2))),
               ("#text", .str ⟨stripL s.data⟩)] := by
            simp [r01, ha, hs]
          rw [hr01]
          have := hdict (r01 a (some s) ++ []) rfl
          rw [List.append_nil, hr01] at this
          exact this
    | cons c0 cs0 =>
      have hGne : groupEntries (childGroups (c0 :: cs0)) ≠ [] := by
        have h1 := childGroups_ne_nil (c0 :: cs0) (by simp)
        cases hcg : childGroups (c0 :: cs0) with
        | nil => exact absurd hcg h1
        | cons q qs => simp [groupEntries]
      cases hRG : r01 a tx ++ groupEntries (childGroups (c0 :: cs0)) with
      | nil =>
        exact absurd (List.append_eq_nil.mp hRG).2 hGne
      | cons p tail =>
        cases tail with
        | nil =>
          have hr01nil : r01 a tx = [] ∧ groupEntries (childGroups (c0 :: cs0)) = [p] := by
            cases hr : r01 a tx with
            | nil => rw [hr] at hRG; simpa using hRG
            | cons y ys =>
              rw [hr] at hRG
              simp only [List.cons_append, List.cons.injEq] at hRG
              obtain ⟨rfl, habs⟩ := hRG
              exact absurd (List.append_eq_nil.mp habs).2 hGne
          obtain ⟨k, gv⟩ := p
          have hkG : ("#text" : String) ≠ k := by
            have hmem : (k, gv) ∈ groupEntries (childGroups (c0 :: cs0)) := by
              rw [hr01nil.2]; simp
            simp only [groupEntries, List.mem_map] at hmem
            obtain ⟨q, hq, hqe⟩ := hmem
            have : q.1 = k := congrArg Prod.fst hqe
            intro he
            exact (hresG q hq).2 (by rw [this, ← he])
          show ∃ e', _dict_to_element
            (if k = "#text" then gv else .dict [(k, gv)]) tag = .ok e' ∧ _
          rw [if_neg (fun he => hkG he.symm)]
          have := hdict [(k, gv)] hRG.symm
          exact this
        | cons q tail2 =>
          have := hdict (p :: q :: tail2) hRG.symm
          exact this

/-- Claim C6 (corrected): for the tree `<r><a/><b/><a/></r>`, whose repeated
tag `a` straddles another child, the round trip reorders the children —
the rebuilt child tags are `a, a, b` while the original are `a, b, a` — so
the tag structure is not reproduced as claimed. -/
theorem C6_counterexample :
    (_dict_to_element
        (_element_to_dict ⟨"r", [], none,
          [⟨"a", [], none, []⟩, ⟨"b", [], none, []⟩, ⟨"a", [], none, []⟩]⟩) "r").map
      (fun e => e.children.map Element.tag) = .ok ["a", "a", "b"] ∧
    ([⟨"a", [], none, []⟩, ⟨"b", [], none, []⟩,
      (⟨"a", [], none, []⟩ : Element)].map Element.tag) = ["a", "b", "a"] ∧
    (["a", "a", "b"] : List String) ≠ ["a", "b", "a"] :=
  ⟨rfl, rfl, by decide⟩

/-- Claim C6 (amended): for every ElementNode tree in which, at every node,
children with equal tags are adjacent, no tag group repeats, and no child is
tagged with a reserved key (`"@attributes"`, `"#text"`),
`ValueToElement(ElementToValue(t), t.tag)` succeeds and reproduces `t`'s tag
structure and every node's attribute map (direct text is outside the
skeleton: the empty node and single-text collapses only affect text). -/
theorem C6_tree_roundtrip_skeleton (t : Element) (h : goodTree t = true) :
    ∃ e', _dict_to_element (_element_to_dict t) t.tag = .ok e' ∧ skelEq e' t = true :=
  roundOK_aux (sizeOf t) t le_rfl h

/-- Witness for C6: a tree with attributes, text, a repeated adjacent tag and
a distinct sibling. -/
theorem C6_witness :
    ∃ e', _dict_to_element
      (_element_to_dict ⟨"r", [("id", "1")], some "hi",
        [⟨"x", [], none, []⟩, ⟨"x", [], some "2", []⟩, ⟨"y", [("k", "v")], none, []⟩]⟩) "r" =
        .ok e' ∧
      skelEq e' ⟨"r", [("id", "1")], some "hi",
        [⟨"x", [], none, []⟩, ⟨"x", [], some "2", []⟩, ⟨"y", [("k", "v")], none, []⟩]⟩ = true :=
  C6_tree_roundtrip_skeleton _ (by rfl)

/-! ### Line-splitting and joining -/

theorem intercalate_go_data (s : String) :
    ∀ (as : List String) (acc : String),
      (String.intercalate.go acc s as).data
        = acc.data ++ as.flatMap (fun b => s.data ++ b.data) := by
  intro as
  induction as with
  | nil => intro acc; simp [String.intercalate.go]
  | cons b t ih =>
    intro acc
    show (String.intercalate.go (acc ++ s ++ b) s t).data = _
    rw [ih]
    simp

theorem splitLinesL_ne_nil (l : List Char) : splitLinesL l ≠ [] := by
  induction l with
  | nil => simp [splitLinesL]
  | cons c rest ih =>
    by_cases h : c = '\n'
    · simp [splitLinesL, h]
    · cases hsp : splitLinesL rest <;> simp [splitLinesL, h, hsp]



theorem intercalate_data (c : String) (cs : List String) :
    (String.intercalate "\n" (c :: cs)).data
      = c.data ++ cs.flatMap (fun b => '\n' :: b.data) := by
  show (String.intercalate.go c "\n" cs).data = _
  rw [intercalate_go_data]
  rfl

theorem splitLinesL_append_newline (A B : List Char) :
    splitLinesL (A ++ '\n' :: B) = splitLinesL A ++ splitLinesL B := by
  induction A with
  | nil => simp [splitLinesL]
  | cons c A ih =>
    by_cases hc : c = '\n'
    · simp [splitLinesL, hc, ih]
    · cases hs : splitLinesL A with
      | nil => exact absurd hs (splitLinesL_ne_nil A)
      | cons h t => simp [splitLinesL, hc, ih, hs]

theorem splitLinesL_no_newline (l : List Char) (h : l.contains '\n' = false) :
    splitLinesL l = [l] := by
  induction l with
  | nil => rfl
  | cons c rest ih =>
    simp only [List.contains_cons, Bool.or_eq_false_iff] at h
    obtain ⟨hc, hrest⟩ := h
    have hc' : ¬c = '\n' := by
      intro hcc; subst hcc; simp at hc
    simp [splitLinesL, hc', ih hrest]

theorem splitLinesL_flat (cs : List (List Char)) :
    ∀ (c : List Char),
      splitLinesL (c ++ cs.flatMap (fun s => '\n' :: s))
        = splitLinesL c ++ cs.flatMap splitLinesL := by
  induction cs with
  | nil => intro c; simp
  | cons b t ih =>
    intro c
    rw [show c ++ ((b :: t).flatMap fun s => '\n' :: s)
        = c ++ '\n' :: (b ++ t.flatMap fun s => '\n' :: s) from by simp]
    rw [splitLinesL_append_newline, ih b]
    simp

theorem splitLines_intercalate (c : String) (cs : List String) :
    splitLinesL (String.intercalate "\n" (c :: cs)).data
      = splitLinesL c.data ++ cs.flatMap (fun s => splitLinesL s.data) := by
  rw [intercalate_data]
  have h1 : cs.flatMap (fun b => '\n' :: b.data)
      = (cs.map String.data).flatMap (fun s => '\n' :: s) := by
    induction cs with
    | nil => rfl
    | cons b t ih => simp [ih]
  have h2 : cs.flatMap (fun s => splitLinesL s.data)
      = (cs.map String.data).flatMap splitLinesL := by
    clear h1
    induction cs with
    | nil => rfl
    | cons b t ih => simp [ih]
  rw [h1, h2, splitLinesL_flat]

theorem joinLinesL_splitLinesL (l : List Char) : joinLinesL (splitLinesL l) = l := by
  induction l with
  | nil => rfl
  | cons c rest ih =>
    by_cases hc : c = '\n'
    · subst hc
      cases hs : splitLinesL rest with
      | nil => exact absurd hs (splitLinesL_ne_nil rest)
      | cons h t =>
        rw [hs] at ih
        show joinLinesL ([] :: splitLinesL rest) = '\n' :: rest
        rw [hs]
        show [] ++ '\n' :: joinLinesL (h :: t) = '\n' :: rest
        rw [ih]
        rfl
    · cases hs : splitLinesL rest with
      | nil => exact absurd hs (splitLinesL_ne_nil rest)
      | cons h t =>
        rw [hs] at ih
        simp only [splitLinesL]
        rw [if_neg hc, hs]
        cases t with
        | nil =>
          show c :: h = c :: rest
          rw [show h = rest from ih]
        | cons b t2 =>
          show (c :: h) ++ '\n' :: joinLinesL (b :: t2) = c :: rest
          show c :: (h ++ '\n' :: joinLinesL (b :: t2)) = c :: rest
          rw [show h ++ '\n' :: joinLinesL (b :: t2) = rest from ih]

theorem head?_joinLinesL (A : List Char) (T : List (List Char)) (h : A ≠ []) :
    (joinLinesL (A :: T)).head? = A.head? := by
  cases T with
  | nil => rfl
  | cons B T2 =>
    cases A with
    | nil => exact absurd rfl h
    | cons a A2 => rfl

theorem joinLinesL_ne_nil (A : List Char) (T : List (List Char)) (h : A ≠ []) :
    joinLinesL (A :: T) ≠ [] := by
  cases T with
  | nil => exact h
  | cons B T2 =>
    cases A with
    | nil => exact absurd rfl h
    | cons a A2 => simp [joinLinesL]

theorem cleanLast_append_right (A L : List Char) (h : L ≠ []) :
    cleanLast (A ++ L) = cleanLast L := by
  obtain ⟨c, hc⟩ : ∃ c, L.getLast? = some c := ⟨L.getLast h, List.getLast?_eq_getLast L h⟩
  simp [cleanLast, List.getLast?_append, hc]

theorem cleanLast_joinLinesL :
    ∀ (T : List (List Char)) (A : List Char),
      (∀ x ∈ A :: T, x ≠ [] ∧ cleanLast x = true) →
      cleanLast (joinLinesL (A :: T)) = true := by
  intro T
  induction T with
  | nil => intro A h; exact (h A (by simp)).2
  | cons B T2 ih =>
    intro A h
    show cleanLast (A ++ '\n' :: joinLinesL (B :: T2)) = true
    rw [cleanLast_append_right _ _ (by simp)]
    have hJ : joinLinesL (B :: T2) ≠ [] :=
      joinLinesL_ne_nil B T2 (h B (by simp)).1
    rw [show ('\n' :: joinLinesL (B :: T2)) = ['\n'] ++ joinLinesL (B :: T2) from rfl]
    rw [cleanLast_append_right _ _ hJ]
    exact ih B (fun x hx => h x (by simp at hx ⊢; tauto))


/-! ### Decimal digits of a natural number -/

theorem natDigitsGo_acc :
    ∀ (fuel n : Nat) (acc : List Char),
      natDigitsGo fuel n acc = natDigitsGo fuel n [] ++ acc := by
  intro fuel
  induction fuel with
  | zero => intro n acc; simp [natDigitsGo]
  | succ f ih =>
    intro n acc
    by_cases h : n < 10
    · simp [natDigitsGo, h]
    · rw [natDigitsGo, if_neg h, natDigitsGo, if_neg h,
        ih (n / 10) (Char.ofNat (Char.toNat (Char.ofNat 48) + n % 10) :: acc),
        ih (n / 10) [Char.ofNat (Char.toNat (Char.ofNat 48) + n % 10)]]
      simp

theorem natDigitsGo_ne_nil :
    ∀ (fuel n : Nat) (acc : List Char), natDigitsGo fuel n acc ≠ [] := by
  intro fuel
  induction fuel with
  | zero => intro n acc; simp [natDigitsGo]
  | succ f ih =>
    intro n acc
    by_cases h : n < 10
    · simp [natDigitsGo, h]
    · rw [natDigitsGo, if_neg h]
      exact ih _ _

theorem digitChar_spec (d : Nat) (h : d < 10) :
    (Char.ofNat ('0'.toNat + d)).isDigit = true
      ∧ digitVal (Char.ofNat ('0'.toNat + d)) = d := by
  interval_cases d <;> exact ⟨by decide, by decide⟩

theorem natDigitsGo_digits :
    ∀ (fuel n : Nat) (c : Char), c ∈ natDigitsGo fuel n [] → c.isDigit = true := by
  intro fuel
  induction fuel with
  | zero =>
    intro n c hc
    simp [natDigitsGo] at hc
    rw [hc]
    exact (digitChar_spec (n % 10) (Nat.mod_lt n (by omega))).1
  | succ f ih =>
    intro n c hc
    by_cases h : n < 10
    · rw [natDigitsGo, if_pos h] at hc
      simp at hc
      rw [hc]
      exact (digitChar_spec n h).1
    · rw [natDigitsGo, if_neg h, natDigitsGo_acc] at hc
      rcases List.mem_append.1 hc with hm | hm
      · exact ih _ _ hm
      · simp at hm
        rw [hm]
        exact (digitChar_spec (n % 10) (Nat.mod_lt n (by omega))).1

theorem natOfDigits_concat (A : List Char) (c : Char) :
    natOfDigits (A ++ [c]) = natOfDigits A * 10 + digitVal c := by
  simp [natOfDigits, List.foldl_append]

theorem natDigitsGo_read :
    ∀ (fuel n : Nat), n ≤ fuel → natOfDigits (natDigitsGo fuel n []) = n := by
  intro fuel
  induction fuel with
  | zero =>
    intro n hn
    have : n = 0 := by omega
    subst this
    decide
  | succ f ih =>
    intro n hn
    by_cases h : n < 10
    · rw [natDigitsGo, if_pos h]
      show natOfDigits ([] ++ [_]) = n
      rw [natOfDigits_concat, (digitChar_spec n h).2]
      simp [natOfDigits]
    · rw [natDigitsGo, if_neg h, natDigitsGo_acc, natOfDigits_concat,
        (digitChar_spec (n % 10) (Nat.mod_lt n (by omega))).2]
      have hdiv : n / 10 < n := Nat.div_lt_self (by omega) (by omega)
      rw [ih (n / 10) (by omega)]
      omega

theorem pyNatStr_isdigit (n : Nat) : pyIsDigit (pyNatStr n).data = true := by
  have h1 := natDigitsGo_ne_nil n n []
  have h2 := natDigitsGo_digits n n
  cases hl : natDigitsGo n n [] with
  | nil => exact absurd hl h1
  | cons c t =>
    rw [pyNatStr]
    show pyIsDigit (natDigitsGo n n []) = true
    rw [hl]
    rw [hl] at h2
    simp [pyIsDigit, List.all_eq_true]
    constructor
    · exact h2 c (by simp)
    · intro x hx
      exact h2 x (by simp [hx])

theorem pyNatStr_read (n : Nat) : pyIntOfDigits (pyNatStr n).data = (n : Int) := by
  show pyIntOfDigits (natDigitsGo n n []) = (n : Int)
  rw [pyIntOfDigits, natDigitsGo_read n n le_rfl]


/-! ### Scalar tokens -/

theorem pyIsDigit_ne_nil (l : List Char) (h : pyIsDigit l = true) : l ≠ [] := by
  intro he
  rw [he] at h
  simp [pyIsDigit] at h

theorem pyIsDigit_ne_lit (l : List Char) (h : pyIsDigit l = true) :
    l ≠ "null".data ∧ l ≠ "true".data ∧ l ≠ "false".data := by
  refine ⟨?_, ?_, ?_⟩ <;> intro he <;> rw [he] at h <;> exact absurd h (by decide)

theorem pyIsDigit_cons_false (c : Char) (l : List Char) (h : c.isDigit = false) :
    pyIsDigit (c :: l) = false := by
  simp [pyIsDigit, h]

theorem pyIsDigit_contains_false (l : List Char) (c : Char) (hc : c.isDigit = false)
    (h : l.contains c = true) : pyIsDigit l = false := by
  have hm : c ∈ l := by simpa using h
  cases hl : pyIsDigit l with
  | false => rfl
  | true =>
    simp [pyIsDigit, List.all_eq_true] at hl
    rw [hl.2 c hm] at hc
    exact absurd hc (by simp)

theorem digit_not_ws (c : Char) (h : c.isDigit = true) : isPyWhitespace c = false := by
  cases hws : isPyWhitespace c with
  | false => rfl
  | true =>
    exfalso
    have hm : c ∈ pyWsChars := by simpa [isPyWhitespace] using hws
    have hall : pyWsChars.all (fun x => !x.isDigit) = true := by decide
    have hnd := List.all_eq_true.mp hall c hm
    rw [h] at hnd
    exact absurd hnd (by decide)

theorem cleanEnds_of_digits (l : List Char) (h : pyIsDigit l = true) :
    cleanEnds l = true := by
  simp only [pyIsDigit, Bool.and_eq_true, List.all_eq_true] at h
  obtain ⟨hne, hall⟩ := h
  cases l with
  | nil => rfl
  | cons c t =>
    simp only [cleanEnds, Bool.and_eq_true]
    constructor
    · show cleanHead (c :: t) = true
      simp [cleanHead, digit_not_ws c (hall c (by simp))]
    · show cleanLast (c :: t) = true
      have hg : (c :: t).getLast? = some ((c :: t).getLast (by simp)) :=
        List.getLast?_eq_getLast _ (by simp)
      simp [cleanLast, hg, digit_not_ws _ (hall _ (List.getLast_mem _))]

theorem digits_not_contains (l : List Char) (h : pyIsDigit l = true) (c : Char)
    (hc : c.isDigit = false) : l.contains c = false := by
  cases hcl : l.contains c with
  | false => rfl
  | true => rw [pyIsDigit_contains_false l c hc hcl] at h; exact absurd h (by simp)

theorem pyFloatParse_dquote (l : List Char) : pyFloatParse ('"' :: l) = none := rfl

theorem pyFloatParse_squote (l : List Char) : pyFloatParse (Char.ofNat 39 :: l) = none := rfl

theorem sv_int (n : Int) (h : 0 ≤ n) :
    SimpleYAML._serialize_value (.int n) = pyNatStr n.natAbs := by
  show pyIntStr n = _
  rw [pyIntStr, if_neg (by omega)]

theorem sv_str_quoted (s : String) (hq : (s.data.contains ' ' || s.data.contains ':') = true) :
    (SimpleYAML._serialize_value (.str s)).data = '"' :: (s.data ++ ['"']) := by
  show (if s.data.contains ' ' || s.data.contains ':' then ("\"" ++ s ++ "\"" : String)
      else pyStr (.str s)).data = _
  rw [if_pos hq]
  show ('"' :: s.data) ++ ['"'] = _
  simp

theorem sv_str_plain (s : String) (hq : (s.data.contains ' ' || s.data.contains ':') = false) :
    SimpleYAML._serialize_value (.str s) = s := by
  show (if s.data.contains ' ' || s.data.contains ':' then ("\"" ++ s ++ "\"" : String)
      else pyStr (.str s)) = s
  rw [if_neg (by rw [hq]; simp)]
  rfl

theorem safeKey_spec (k : String) (h : SafeKey k = true) :
    cleanEnds k.data = true ∧ k.data.contains ':' = false ∧ k.data.contains '\n' = false ∧
    k.data.head? ≠ some '#' ∧ k.data.head? ≠ some '-' := by
  simp only [SafeKey, Bool.and_eq_true, Bool.not_eq_true', beq_eq_false_iff_ne, ne_eq] at h
  exact ⟨h.1.1.1.1, h.1.1.1.2, h.1.1.2, h.1.2, h.2⟩

theorem safeText_spec (s : String) (h : SafeText s = true) :
    s.data.contains '\n' = false ∧
    (s.data.contains ' ' = true ∨ s.data.contains ':' = true ∨
      (s.data.isEmpty = false ∧ cleanEnds s.data = true ∧ s ≠ "null" ∧ s ≠ "true" ∧
       s ≠ "false" ∧ (pyIsDigit s.data = true ∨ pyFloatParse s.data = none) ∧
       quoteWrapped s.data = false ∧ allAscii s.data = true)) := by
  simp only [SafeText, Bool.and_eq_true, Bool.or_eq_true, Bool.not_eq_true',
    beq_eq_false_iff_ne, ne_eq, Option.isNone_iff_eq_none] at h
  exact ⟨h.1, by tauto⟩


theorem string_data_inj (s t : String) (h : s.data = t.data) : s = t := by
  cases s; cases t; exact congrArg String.mk h

theorem safeScalar_int (n : Int) (h : SafeScalar (.int n) = true) : 0 ≤ n := by
  simpa [SafeScalar] using h

theorem safeText_plain (s : String) (hst : SafeText s = true)
    (hq : (s.data.contains ' ' || s.data.contains ':') = false) :
    s.data.isEmpty = false ∧ cleanEnds s.data = true ∧ s ≠ "null" ∧ s ≠ "true" ∧
    s ≠ "false" ∧ (pyIsDigit s.data = true ∨ pyFloatParse s.data = none) ∧
    quoteWrapped s.data = false ∧ allAscii s.data = true := by
  have hspec := safeText_spec s hst
  simp only [Bool.or_eq_false_iff] at hq
  rcases hspec.2 with h1 | h1 | h1
  · rw [hq.1] at h1; exact absurd h1 (by simp)
  · rw [hq.2] at h1; exact absurd h1 (by simp)
  · exact h1

theorem sv_ne_nil (v : Value) (h : SafeScalar v = true) :
    (SimpleYAML._serialize_value v).data ≠ [] := by
  cases v with
  | null => decide
  | bool b => cases b <;> decide
  | int n =>
    rw [sv_int n (safeScalar_int n h)]
    exact pyIsDigit_ne_nil _ (pyNatStr_isdigit n.natAbs)
  | float x => simp [SafeScalar] at h
  | list l => simp [SafeScalar] at h
  | dict d => simp [SafeScalar] at h
  | str s =>
    have hst : SafeText s = true := h
    cases hq : (s.data.contains ' ' || s.data.contains ':') with
    | true => rw [sv_str_quoted s hq]; simp
    | false =>
      rw [sv_str_plain s hq]
      have hne := (safeText_plain s hst hq).1
      intro he
      rw [he] at hne
      simp at hne

theorem sv_cleanEnds (v : Value) (h : SafeScalar v = true) :
    cleanEnds (SimpleYAML._serialize_value v).data = true := by
  cases v with
  | null => decide
  | bool b => cases b <;> decide
  | int n =>
    rw [sv_int n (safeScalar_int n h)]
    exact cleanEnds_of_digits _ (pyNatStr_isdigit n.natAbs)
  | float x => simp [SafeScalar] at h
  | list l => simp [SafeScalar] at h
  | dict d => simp [SafeScalar] at h
  | str s =>
    have hst : SafeText s = true := h
    cases hq : (s.data.contains ' ' || s.data.contains ':') with
    | true =>
      rw [sv_str_quoted s hq]
      simp only [cleanEnds, Bool.and_eq_true]
      refine ⟨rfl, ?_⟩
      rw [show ('"' :: (s.data ++ ['"']) : List Char) = ('"' :: s.data) ++ ['"'] from rfl,
        cleanLast_append_right _ _ (by simp)]
      decide
    | false =>
      rw [sv_str_plain s hq]
      exact (safeText_plain s hst hq).2.1

theorem sv_no_newline (v : Value) (h : SafeScalar v = true) :
    (SimpleYAML._serialize_value v).data.contains '\n' = false := by
  cases v with
  | null => decide
  | bool b => cases b <;> decide
  | int n =>
    rw [sv_int n (safeScalar_int n h)]
    exact digits_not_contains _ (pyNatStr_isdigit n.natAbs) '\n' (by decide)
  | float x => simp [SafeScalar] at h
  | list l => simp [SafeScalar] at h
  | dict d => simp [SafeScalar] at h
  | str s =>
    have hst : SafeText s = true := h
    have hnl := (safeText_spec s hst).1
    cases hq : (s.data.contains ' ' || s.data.contains ':') with
    | true =>
      rw [sv_str_quoted s hq]
      have hmem : '\n' ∉ s.data := by simpa using hnl
      simp [hmem]
    | false =>
      rw [sv_str_plain s hq]
      exact hnl

theorem sv_no_colon_item (v : Value) (h : SafeItem v = true) :
    (SimpleYAML._serialize_value v).data.contains ':' = false := by
  cases v with
  | null => decide
  | bool b => cases b <;> decide
  | int n =>
    have hn : 0 ≤ n := by simpa [SafeItem] using h
    rw [sv_int n hn]
    exact digits_not_contains _ (pyNatStr_isdigit n.natAbs) ':' (by decide)
  | float x => simp [SafeItem] at h
  | list l => simp [SafeItem] at h
  | dict d => simp [SafeItem] at h
  | str s =>
    simp only [SafeItem, Bool.and_eq_true, Bool.not_eq_true'] at h
    cases hq : (s.data.contains ' ' || s.data.contains ':') with
    | true =>
      rw [sv_str_quoted s hq]
      have hmem : ':' ∉ s.data := by simpa using h.2
      simp [hmem]
    | false =>
      rw [sv_str_plain s hq]
      exact h.2

theorem safeItem_scalar (v : Value) (h : SafeItem v = true) : SafeScalar v = true := by
  cases v with
  | null => rfl
  | bool b => rfl
  | int n => simpa [SafeItem, SafeScalar] using h
  | float x => simp [SafeItem] at h
  | list l => simp [SafeItem] at h
  | dict d => simp [SafeItem] at h
  | str s =>
    simp only [SafeItem, Bool.and_eq_true] at h
    exact h.1

theorem sv_reparse (v : Value) (h : SafeScalar v = true) :
    SimpleYAML._parse_value (SimpleYAML._serialize_value v).data = numify v := by
  have hlitn : "null".data = ['n', 'u', 'l', 'l'] := rfl
  have hlitt : "true".data = ['t', 'r', 'u', 'e'] := rfl
  have hlitf : "false".data = ['f', 'a', 'l', 's', 'e'] := rfl
  cases v with
  | null => rfl
  | bool b => cases b <;> rfl
  | float x => simp [SafeScalar] at h
  | list l => simp [SafeScalar] at h
  | dict d => simp [SafeScalar] at h
  | int n =>
    have hn : 0 ≤ n := safeScalar_int n h
    rw [sv_int n hn]
    have hd := pyNatStr_isdigit n.natAbs
    have hne := pyIsDigit_ne_nil _ hd
    obtain ⟨hl1, hl2, hl3⟩ := pyIsDigit_ne_lit _ hd
    simp only [SimpleYAML._parse_value]
    rw [if_neg (by simp [hne, hl1]), if_neg (by simp [hl2]), if_neg (by simp [hl3]),
      if_pos hd, pyNatStr_read]
    show Value.int n.natAbs = numify (.int n)
    rw [Int.natAbs_of_nonneg hn]
    rfl
  | str s =>
    have hst : SafeText s = true := h
    cases hq : (s.data.contains ' ' || s.data.contains ':') with
    | true =>
      have hnd : pyIsDigit s.data = false := by
        rcases (by simpa using hq : s.data.contains ' ' = true ∨ s.data.contains ':' = true)
            with h1 | h1
        · exact pyIsDigit_contains_false _ _ (by decide) h1
        · exact pyIsDigit_contains_false _ _ (by decide) h1
      rw [show (SimpleYAML._serialize_value (.str s)).data = '"' :: (s.data ++ ['"']) from
        sv_str_quoted s hq]
      simp only [SimpleYAML._parse_value]
      rw [if_neg (by simp [hlitn]), if_neg (by simp [hlitt]), if_neg (by simp [hlitf]),
        if_neg (by simp [pyIsDigit_cons_false '"' _ (by decide)]), pyFloatParse_dquote]
      have hglast : ('"' :: (s.data ++ ['"']) : List Char).getLast? = some '"' := by
        rw [show ('"' :: (s.data ++ ['"']) : List Char) = ('"' :: s.data) ++ ['"'] from rfl,
          List.getLast?_concat]
      show (if quoteWrapped ('"' :: (s.data ++ ['"'])) = true then
          Value.str ⟨(List.drop 1 ('"' :: (s.data ++ ['"']))).dropLast⟩
        else Value.str ⟨'"' :: (s.data ++ ['"'])⟩) = numify (.str s)
      rw [if_pos (show quoteWrapped ('"' :: (s.data ++ ['"'])) = true by
        simp [quoteWrapped, hglast])]
      show Value.str ⟨(s.data ++ ['"']).dropLast⟩ = numify (.str s)
      rw [List.dropLast_concat]
      show Value.str s = numify (.str s)
      simp only [numify]
      rw [if_neg (by simp [hnd])]
    | false =>
      rw [sv_str_plain s hq]
      obtain ⟨hne, hce, hnull, htrue, hfalse, hnum, hqw, hasc⟩ := safeText_plain s hst hq
      have hdne : s.data ≠ [] := by
        intro he; rw [he] at hne; simp at hne
      have hnull' : s.data ≠ "null".data := fun hd => hnull (string_data_inj _ _ hd)
      have htrue' : s.data ≠ "true".data := fun hd => htrue (string_data_inj _ _ hd)
      have hfalse' : s.data ≠ "false".data := fun hd => hfalse (string_data_inj _ _ hd)
      cases hdig : pyIsDigit s.data with
      | true =>
        simp only [SimpleYAML._parse_value]
        rw [if_neg (by simp [hdne, hnull']), if_neg (by simp [htrue']),
          if_neg (by simp [hfalse']), if_pos hdig]
        simp only [numify]
        rw [if_pos hdig]
      | false =>
        have hfl : pyFloatParse s.data = none := by
          rcases hnum with h1 | h1
          · rw [h1] at hdig; exact absurd hdig (by simp)
          · exact h1
        simp only [SimpleYAML._parse_value]
        rw [if_neg (by simp [hdne, hnull']), if_neg (by simp [htrue']),
          if_neg (by simp [hfalse']), if_neg (by simp [hdig]), hfl]
        show (if quoteWrapped s.data = true then Value.str ⟨(List.drop 1 s.data).dropLast⟩
          else Value.str ⟨s.data⟩) = numify (.str s)
        rw [if_neg (show ¬(quoteWrapped s.data = true) by simp [hqw])]
        show Value.str ⟨s.data⟩ = numify (.str s)
        simp only [numify]
        rw [if_neg (by simp [hdig])]


/-! ### One-line steps of the block parser -/

theorem kv_step_core (fuel ind : Nat) (key : String) (r : List Char) (R : List (List Char))
    (res : List (String × Value)) (items : List Value)
    (h1 : cleanEnds key.data = true) (h2 : key.data.contains ':' = false)
    (h3 : key.data.head? ≠ some '#') (h4 : key.data.head? ≠ some '-')
    (hcl : cleanLast (':' :: r) = true) :
    SimpleYAML._parse_lines_go (fuel + 1) ind
        ((List.replicate ind ' ' ++ key.data ++ ':' :: r) :: R) res items
      = (if (stripL r).isEmpty = false then
           SimpleYAML._parse_lines_go fuel ind R
             (pyDictSet res key (SimpleYAML._parse_value (stripL r))) items
         else
           match R with
           | next_line :: _ =>
             if indentOf next_line > ind then
               SimpleYAML._parse_lines_go fuel ind
                 (R.dropWhile fun sl => !(indentOf sl ≤ ind && !(stripL sl).isEmpty))
                 (pyDictSet res key
                   (SimpleYAML._parse_lines_go fuel (indentOf next_line)
                     (R.takeWhile fun sl => !(indentOf sl ≤ ind && !(stripL sl).isEmpty)) [] []))
                 items
             else SimpleYAML._parse_lines_go fuel ind R res items
           | [] =>
             SimpleYAML._parse_lines_go fuel ind R (pyDictSet res key .null) items) := by
  have hch : cleanHead (key.data ++ ':' :: r) = true := by
    cases hk : key.data with
    | nil => rfl
    | cons c cs =>
      simp only [cleanEnds, Bool.and_eq_true] at h1
      have := h1.1
      rw [hk] at this
      simpa [cleanHead, List.head?] using this
  have hce : cleanEnds (key.data ++ ':' :: r) = true := by
    simp only [cleanEnds, Bool.and_eq_true]
    refine ⟨hch, ?_⟩
    rw [cleanLast_append_right _ _ (by simp)]
    exact hcl
  have hstrip : stripL (List.replicate ind ' ' ++ key.data ++ ':' :: r)
      = key.data ++ ':' :: r := by
    rw [List.append_assoc, stripL_replicate_append, stripL_of_cleanEnds _ hce]
  have hind : indentOf (List.replicate ind ' ' ++ key.data ++ ':' :: r) = ind := by
    rw [List.append_assoc, indentOf_replicate_append _ _ hch]
  have hemp : (key.data ++ ':' :: r).isEmpty = false := by
    cases hk : key.data <;> simp
  have hnh : ¬((key.data ++ ':' :: r).head? = some '#') := by
    cases hk : key.data with
    | nil => simp
    | cons c cs => rw [hk] at h3; simpa using h3
  have hnd2 : (key.data ++ ':' :: r).head? ≠ some '-' := by
    cases hk : key.data with
    | nil => simp
    | cons c cs => rw [hk] at h4; simpa using h4
  have hpref : "- ".data.isPrefixOf (key.data ++ ':' :: r) = false :=
    not_isPrefixOf_dash _ hnd2
  have hsplit : splitFirstColon (key.data ++ ':' :: r) = some (key.data, r) :=
    splitFirstColon_append key.data r h2
  have hkstrip : stripL key.data = key.data := stripL_of_cleanEnds _ h1
  rw [parse_go_cons]
  simp only [hstrip, hemp, hind, hsplit, hkstrip]
  rw [if_neg (by simp [hemp, hnh, h3])]
  simp only [lt_irrefl, if_false, hpref, Bool.false_eq_true]
  cases hv : (stripL r).isEmpty with
  | true =>
    simp only [hv, Bool.not_true, Bool.false_eq_true, if_false]
    rw [if_neg (show ¬(true = false) by simp)]
  | false =>
    simp only [hv, Bool.not_false, if_true]

theorem kv_scalar_step (fuel ind : Nat) (key : String) (sv : List Char) (R : List (List Char))
    (res : List (String × Value)) (items : List Value)
    (h1 : cleanEnds key.data = true) (h2 : key.data.contains ':' = false)
    (h3 : key.data.head? ≠ some '#') (h4 : key.data.head? ≠ some '-')
    (hsv : sv ≠ []) (hsvce : cleanEnds sv = true) :
    SimpleYAML._parse_lines_go (fuel + 1) ind
        ((List.replicate ind ' ' ++ key.data ++ ':' :: ' ' :: sv) :: R) res items
      = SimpleYAML._parse_lines_go fuel ind R
          (pyDictSet res key (SimpleYAML._parse_value sv)) items := by
  have hsvcl : cleanLast sv = true := by
    simp only [cleanEnds, Bool.and_eq_true] at hsvce
    exact hsvce.2
  have hcl : cleanLast (':' :: ' ' :: sv) = true := by
    rw [show (':' :: ' ' :: sv) = [':', ' '] ++ sv from rfl, cleanLast_append_right _ _ hsv]
    exact hsvcl
  have hval : stripL (' ' :: sv) = sv := by
    rw [show (' ' :: sv) = List.replicate 1 ' ' ++ sv from rfl, stripL_replicate_append,
      stripL_of_cleanEnds _ hsvce]
  rw [kv_step_core fuel ind key (' ' :: sv) R res items h1 h2 h3 h4 hcl, hval]
  rw [if_pos (show sv.isEmpty = false by cases sv with
    | nil => exact absurd rfl hsv
    | cons a t => rfl)]

theorem kv_container_step (fuel ind : Nat) (key : String) (next : List Char)
    (R2 : List (List Char)) (res : List (String × Value)) (items : List Value)
    (h1 : cleanEnds key.data = true) (h2 : key.data.contains ':' = false)
    (h3 : key.data.head? ≠ some '#') (h4 : key.data.head? ≠ some '-')
    (hdeep : ind < indentOf next) :
    SimpleYAML._parse_lines_go (fuel + 1) ind
        ((List.replicate ind ' ' ++ key.data ++ ':' :: []) :: next :: R2) res items
      = SimpleYAML._parse_lines_go fuel ind
          ((next :: R2).dropWhile fun sl => !(indentOf sl ≤ ind && !(stripL sl).isEmpty))
          (pyDictSet res key
            (SimpleYAML._parse_lines_go fuel (indentOf next)
              ((next :: R2).takeWhile fun sl => !(indentOf sl ≤ ind && !(stripL sl).isEmpty))
              [] []))
          items := by
  rw [kv_step_core fuel ind key [] (next :: R2) res items h1 h2 h3 h4 (by decide)]
  rw [if_neg (by simp [stripL])]
  show (if indentOf next > ind then _ else _) = _
  rw [if_pos hdeep]

theorem item_step (fuel ind : Nat) (sv : List Char) (R : List (List Char))
    (res : List (String × Value)) (items : List Value)
    (hsv : sv ≠ []) (hsvce : cleanEnds sv = true) (hsc : sv.contains ':' = false) :
    SimpleYAML._parse_lines_go (fuel + 1) ind
        ((List.replicate ind ' ' ++ '-' :: ' ' :: sv) :: R) res items
      = SimpleYAML._parse_lines_go fuel ind R res
          (items ++ [SimpleYAML._parse_value sv]) := by
  have hsvcl : cleanLast sv = true := by
    simp only [cleanEnds, Bool.and_eq_true] at hsvce
    exact hsvce.2
  have hstrip : stripL (List.replicate ind ' ' ++ '-' :: ' ' :: sv) = '-' :: ' ' :: sv := by
    rw [stripL_replicate_append]
    apply stripL_of_cleanEnds
    simp only [cleanEnds, Bool.and_eq_true]
    refine ⟨rfl, ?_⟩
    rw [show ('-' :: ' ' :: sv) = ['-', ' '] ++ sv from rfl, cleanLast_append_right _ _ hsv]
    exact hsvcl
  have hind : indentOf (List.replicate ind ' ' ++ '-' :: ' ' :: sv) = ind :=
    indentOf_replicate_append _ _ rfl
  have hval : stripL (('-' :: ' ' :: sv).drop 2) = sv := by
    show stripL sv = sv
    exact stripL_of_cleanEnds _ hsvce
  rw [parse_go_cons]
  simp only [hstrip, hind]
  rw [if_neg (by simp)]
  simp only [lt_irrefl, if_false]
  rw [if_pos (show "- ".data.isPrefixOf ('-' :: ' ' :: sv) = true by
    show (('-' == '-') && [' '].isPrefixOf (' ' :: sv)) = true
    simp)]
  simp only [hval, splitFirstColon_none sv hsc]


/-- The loop body with every `let` inlined, for symbolic branch analysis. -/
theorem parse_go_cons2 (fuel indent : Nat) (line : List Char) (rest : List (List Char))
    (result : List (String × Value)) (list_items : List Value) :
    SimpleYAML._parse_lines_go (fuel + 1) indent (line :: rest) result list_items =
    (if (stripL line).isEmpty || (stripL line).head? = some '#' then
       SimpleYAML._parse_lines_go fuel indent rest result list_items
     else if indentOf line < indent then
       if !list_items.isEmpty then .list list_items else .dict result
     else if indentOf line > indent then
       SimpleYAML._parse_lines_go fuel indent rest result list_items
     else if "- ".data.isPrefixOf (stripL line) then
       match splitFirstColon (stripL ((stripL line).drop 2)) with
       | some (k, v) =>
         SimpleYAML._parse_lines_go fuel indent rest result
           (list_items ++ [.dict [(⟨stripL k⟩, SimpleYAML._parse_value (stripL v))]])
       | none =>
         SimpleYAML._parse_lines_go fuel indent rest result
           (list_items ++ [SimpleYAML._parse_value (stripL ((stripL line).drop 2))])
     else
       match splitFirstColon (stripL line) with
       | some (k0, v0) =>
         if !(stripL v0).isEmpty then
           SimpleYAML._parse_lines_go fuel indent rest
             (pyDictSet result ⟨stripL k0⟩ (SimpleYAML._parse_value (stripL v0))) list_items
         else
           match rest with
           | next_line :: _ =>
             if indentOf next_line > indentOf line then
               SimpleYAML._parse_lines_go fuel indent
                 (rest.dropWhile fun sl => !(indentOf sl ≤ indentOf line && !(stripL sl).isEmpty))
                 (pyDictSet result ⟨stripL k0⟩
                   (SimpleYAML._parse_lines_go fuel (indentOf next_line)
                     (rest.takeWhile fun sl =>
                       !(indentOf sl ≤ indentOf line && !(stripL sl).isEmpty)) [] []))
                 list_items
             else SimpleYAML._parse_lines_go fuel indent rest result list_items
           | [] =>
             SimpleYAML._parse_lines_go fuel indent rest
               (pyDictSet result ⟨stripL k0⟩ .null) list_items
       | none => SimpleYAML._parse_lines_go fuel indent rest result list_items) := rfl

/-- Any fuel at least the number of lines drives the loop to the same result:
the cursor advances at least one line per iteration. -/
theorem go_fuel_irrel :
    ∀ (n : Nat) (lines : List (List Char)) (f1 f2 ind : Nat)
      (r : List (String × Value)) (li : List Value),
      lines.length ≤ n → lines.length ≤ f1 → lines.length ≤ f2 →
      SimpleYAML._parse_lines_go f1 ind lines r li
        = SimpleYAML._parse_lines_go f2 ind lines r li := by
  intro n
  induction n using Nat.strong_induction_on with
  | _ n IH =>
    intro lines f1 f2 ind r li hn h1 h2
    cases lines with
    | nil => cases f1 <;> cases f2 <;> rfl
    | cons line rest =>
      have hlt : rest.length < n := by simp at hn; omega
      cases f1 with
      | zero => simp at h1
      | succ f1 =>
        cases f2 with
        | zero => simp at h2
        | succ f2 =>
          have hr1 : rest.length ≤ f1 := by simp at h1; omega
          have hr2 : rest.length ≤ f2 := by simp at h2; omega
          have IHrest : ∀ (ind' : Nat) (r' : List (String × Value)) (li' : List Value),
              SimpleYAML._parse_lines_go f1 ind' rest r' li'
                = SimpleYAML._parse_lines_go f2 ind' rest r' li' :=
            fun ind' r' li' => IH rest.length hlt rest f1 f2 ind' r' li' le_rfl hr1 hr2
          rw [parse_go_cons2, parse_go_cons2]
          by_cases hskip : ((stripL line).isEmpty
              || decide ((stripL line).head? = some '#')) = true
          · rw [if_pos hskip, if_pos hskip, IHrest]
          · rw [if_neg hskip, if_neg hskip]
            by_cases hlt2 : indentOf line < ind
            · rw [if_pos hlt2, if_pos hlt2]
            · rw [if_neg hlt2, if_neg hlt2]
              by_cases hgt : indentOf line > ind
              · rw [if_pos hgt, if_pos hgt, IHrest]
              · rw [if_neg hgt, if_neg hgt]
                by_cases hdash : "- ".data.isPrefixOf (stripL line) = true
                · rw [if_pos hdash, if_pos hdash]
                  cases hsp : splitFirstColon (stripL ((stripL line).drop 2)) with
                  | some p =>
                    obtain ⟨k, v⟩ := p
                    simp only [hsp]
                    rw [IHrest]
                  | none =>
                    simp only [hsp]
                    rw [IHrest]
                · rw [if_neg hdash, if_neg hdash]
                  cases hsp : splitFirstColon (stripL line) with
                  | none =>
                    simp only [hsp]
                    rw [IHrest]
                  | some p =>
                    obtain ⟨k0, v0⟩ := p
                    simp only [hsp]
                    by_cases hval : (!(stripL v0).isEmpty) = true
                    · rw [if_pos hval, if_pos hval, IHrest]
                    · rw [if_neg hval, if_neg hval]
                      cases rest with
                      | nil =>
                        show SimpleYAML._parse_lines_go f1 ind []
                            (pyDictSet r ⟨stripL k0⟩ .null) li
                          = SimpleYAML._parse_lines_go f2 ind []
                            (pyDictSet r ⟨stripL k0⟩ .null) li
                        exact IHrest _ _ _
                      | cons next R2 =>
                        show (if indentOf next > indentOf line then _ else _)
                          = (if indentOf next > indentOf line then _ else _)
                        by_cases hdeep : indentOf next > indentOf line
                        · rw [if_pos hdeep, if_pos hdeep]
                          have hS : ((next :: R2).takeWhile fun sl =>
                              !(indentOf sl ≤ indentOf line && !(stripL sl).isEmpty)).length
                              ≤ (next :: R2).length :=
                            List.Sublist.length_le (List.takeWhile_sublist _)
                          have hR : ((next :: R2).dropWhile fun sl =>
                              !(indentOf sl ≤ indentOf line && !(stripL sl).isEmpty)).length
                              ≤ (next :: R2).length :=
                            List.Sublist.length_le (List.dropWhile_sublist _)
                          have hinner := IH (next :: R2).length hlt
                            ((next :: R2).takeWhile fun sl =>
                              !(indentOf sl ≤ indentOf line && !(stripL sl).isEmpty))
                            f1 f2 (indentOf next) [] [] hS (by omega) (by omega)
                          rw [hinner]
                          exact IH (next :: R2).length hlt
                            ((next :: R2).dropWhile fun sl =>
                              !(indentOf sl ≤ indentOf line && !(stripL sl).isEmpty))
                            f1 f2 ind _ li hR (by omega) (by omega)
                        · rw [if_neg hdeep, if_neg hdeep, IHrest]


/-! ### Safety extraction and serialized line shapes -/

theorem safeEntries_cons (k : String) (v : Value) (rest : List (String × Value))
    (h : SafeEntries ((k, v) :: rest) = true) :
    SafeKey k = true ∧ SafeVal v = true ∧ SafeEntries rest = true := by
  simp only [SafeEntries, Bool.and_eq_true] at h
  exact ⟨h.1.1, h.1.2, h.2⟩

theorem safeItems_cons (v : Value) (rest : List Value)
    (h : SafeItems (v :: rest) = true) : SafeItem v = true ∧ SafeItems rest = true := by
  simp only [SafeItems, Bool.and_eq_true] at h
  exact h

theorem safeVal_dict (d : List (String × Value)) (h : SafeVal (.dict d) = true) :
    d ≠ [] ∧ nodupKeys (d.map Prod.fst) = true ∧ SafeEntries d = true := by
  simp only [SafeVal, Bool.and_eq_true] at h
  refine ⟨fun he => ?_, h.1.2, h.2⟩
  rw [he] at h
  simp at h

theorem safeVal_list (l : List Value) (h : SafeVal (.list l) = true) :
    l ≠ [] ∧ SafeItems l = true := by
  simp only [SafeVal, Bool.and_eq_true] at h
  refine ⟨fun he => ?_, h.2⟩
  rw [he] at h
  simp at h

theorem cleanHead_key_colon (key : String) (h1 : cleanEnds key.data = true) (r : List Char) :
    cleanHead (key.data ++ ':' :: r) = true := by
  cases hk : key.data with
  | nil => rfl
  | cons c cs =>
    simp only [cleanEnds, Bool.and_eq_true] at h1
    have := h1.1
    rw [hk] at this
    simpa [cleanHead, List.head?] using this

theorem stripL_kv (ind : Nat) (key : String) (r : List Char)
    (h1 : cleanEnds key.data = true) (hcl : cleanLast (':' :: r) = true) :
    stripL (List.replicate ind ' ' ++ key.data ++ ':' :: r) = key.data ++ ':' :: r
      ∧ indentOf (List.replicate ind ' ' ++ key.data ++ ':' :: r) = ind := by
  have hch := cleanHead_key_colon key h1 r
  have hce : cleanEnds (key.data ++ ':' :: r) = true := by
    simp only [cleanEnds, Bool.and_eq_true]
    refine ⟨hch, ?_⟩
    rw [cleanLast_append_right _ _ (by simp)]
    exact hcl
  constructor
  · rw [List.append_assoc, stripL_replicate_append, stripL_of_cleanEnds _ hce]
  · rw [List.append_assoc, indentOf_replicate_append _ _ hch]

theorem stripL_item (ind : Nat) (sv : List Char) (hsv : sv ≠ []) (hcl : cleanLast sv = true) :
    stripL (List.replicate ind ' ' ++ '-' :: ' ' :: sv) = '-' :: ' ' :: sv
      ∧ indentOf (List.replicate ind ' ' ++ '-' :: ' ' :: sv) = ind := by
  constructor
  · rw [stripL_replicate_append]
    apply stripL_of_cleanEnds
    simp only [cleanEnds, Bool.and_eq_true]
    refine ⟨rfl, ?_⟩
    rw [show ('-' :: ' ' :: sv) = ['-', ' '] ++ sv from rfl, cleanLast_append_right _ _ hsv]
    exact hcl
  · exact indentOf_replicate_append _ _ rfl

theorem cleanLast_of_cleanEnds (l : List Char) (h : cleanEnds l = true) :
    cleanLast l = true := by
  simp only [cleanEnds, Bool.and_eq_true] at h
  exact h.2

theorem lines_props_aux : ∀ (n : Nat),
    (∀ (d : List (String × Value)) (k : Nat), sizeOf d ≤ n → SafeEntries d = true →
      ∀ line ∈ dictLines d k,
        line ≠ [] ∧ cleanLast line = true ∧ 2 * k ≤ indentOf line) ∧
    (∀ (l : List Value) (k : Nat), sizeOf l ≤ n → SafeItems l = true →
      ∀ line ∈ listLines l k,
        line ≠ [] ∧ cleanLast line = true ∧ 2 * k ≤ indentOf line) := by
  intro n
  induction n using Nat.strong_induction_on with
  | _ n IH =>
    constructor
    · intro d k hsz hsafe line hmem
      cases d with
      | nil => simp [dictLines] at hmem
      | cons e rest =>
        obtain ⟨key, v⟩ := e
        obtain ⟨hkey, hv, hrest⟩ := safeEntries_cons key v rest hsafe
        obtain ⟨hk1, hk2, hk3, hk4, hk5⟩ := safeKey_spec key hkey
        have hszrest : sizeOf rest < sizeOf ((key, v) :: rest) := by
          simp
          try omega
        have hrestprops : ∀ line ∈ dictLines rest k,
            line ≠ [] ∧ cleanLast line = true ∧ 2 * k ≤ indentOf line :=
          fun l hl => (IH (sizeOf rest) (by omega)).1 rest k le_rfl hrest l hl
        cases v with
        | dict d2 =>
          obtain ⟨hne2, hnd2, hs2⟩ := safeVal_dict d2 hv
          have hszd2 : sizeOf d2 < sizeOf ((key, Value.dict d2) :: rest) := by
            simp
            omega
          simp only [dictLines] at hmem
          rcases List.mem_append.1 hmem with hm | hm
          · rcases List.mem_cons.1 hm with hm1 | hm1
            · subst hm1
              refine ⟨by simp, ?_, ?_⟩
              · rw [cleanLast_append_right _ _ (by simp)]
                decide
              · rw [List.append_assoc, indentOf_replicate_append _ _
                  (cleanHead_key_colon key hk1 [])]
            · obtain ⟨hl1, hl2, hl3⟩ :=
                (IH (sizeOf d2) (by omega)).1 d2 (k + 1) le_rfl hs2 line hm1
              exact ⟨hl1, hl2, by omega⟩
          · exact hrestprops line hm
        | list l2 =>
          obtain ⟨hne2, hs2⟩ := safeVal_list l2 hv
          have hszl2 : sizeOf l2 < sizeOf ((key, Value.list l2) :: rest) := by
            simp
            omega
          simp only [dictLines] at hmem
          rcases List.mem_append.1 hmem with hm | hm
          · rcases List.mem_cons.1 hm with hm1 | hm1
            · subst hm1
              refine ⟨by simp, ?_, ?_⟩
              · rw [cleanLast_append_right _ _ (by simp)]
                decide
              · rw [List.append_assoc, indentOf_replicate_append _ _
                  (cleanHead_key_colon key hk1 [])]
            · obtain ⟨hl1, hl2, hl3⟩ :=
                (IH (sizeOf l2) (by omega)).2 l2 (k + 1) le_rfl hs2 line hm1
              exact ⟨hl1, hl2, by omega⟩
          · exact hrestprops line hm
        | null =>
          have hsc : SafeScalar Value.null = true := hv
          simp only [dictLines] at hmem
          rcases List.mem_append.1 hmem with hm | hm
          · rcases List.mem_cons.1 hm with hm1 | hm1
            · subst hm1
              have hsv := sv_cleanEnds _ hsc
              have hsvne := sv_ne_nil _ hsc
              refine ⟨by simp, ?_, ?_⟩
              · rw [cleanLast_append_right _ _ (by simp),
                  show (':' :: ' ' :: (SimpleYAML._serialize_value Value.null).data)
                    = [':', ' '] ++ (SimpleYAML._serialize_value Value.null).data from rfl,
                  cleanLast_append_right _ _ hsvne]
                exact cleanLast_of_cleanEnds _ hsv
              · rw [List.append_assoc, indentOf_replicate_append _ _
                  (cleanHead_key_colon key hk1 _)]
            · simp at hm1
          · exact hrestprops line hm
        | bool b =>
          have hsc : SafeScalar (Value.bool b) = true := hv
          simp only [dictLines] at hmem
          rcases List.mem_append.1 hmem with hm | hm
          · rcases List.mem_cons.1 hm with hm1 | hm1
            · subst hm1
              have hsv := sv_cleanEnds _ hsc
              have hsvne := sv_ne_nil _ hsc
              refine ⟨by simp, ?_, ?_⟩
              · rw [cleanLast_append_right _ _ (by simp),
                  show (':' :: ' ' :: (SimpleYAML._serialize_value (Value.bool b)).data)
                    = [':', ' '] ++ (SimpleYAML._serialize_value (Value.bool b)).data from rfl,
                  cleanLast_append_right _ _ hsvne]
                exact cleanLast_of_cleanEnds _ hsv
              · rw [List.append_assoc, indentOf_replicate_append _ _
                  (cleanHead_key_colon key hk1 _)]
            · simp at hm1
          · exact hrestprops line hm
        | int m =>
          have hsc : SafeScalar (Value.int m) = true := hv
          simp only [dictLines] at hmem
          rcases List.mem_append.1 hmem with hm | hm
          · rcases List.mem_cons.1 hm with hm1 | hm1
            · subst hm1
              have hsv := sv_cleanEnds _ hsc
              have hsvne := sv_ne_nil _ hsc
              refine ⟨by simp, ?_, ?_⟩
              · rw [cleanLast_append_right _ _ (by simp),
                  show (':' :: ' ' :: (SimpleYAML._serialize_value (Value.int m)).data)
                    = [':', ' '] ++ (SimpleYAML._serialize_value (Value.int m)).data from rfl,
                  cleanLast_append_right _ _ hsvne]
                exact cleanLast_of_cleanEnds _ hsv
              · rw [List.append_assoc, indentOf_replicate_append _ _
                  (cleanHead_key_colon key hk1 _)]
            · simp at hm1
          · exact hrestprops line hm
        | float x =>
          have hsc : SafeScalar (Value.float x) = true := hv
          simp [SafeScalar] at hsc
        | str t =>
          have hsc : SafeScalar (Value.str t) = true := hv
          simp only [dictLines] at hmem
          rcases List.mem_append.1 hmem with hm | hm
          · rcases List.mem_cons.1 hm with hm1 | hm1
            · subst hm1
              have hsv := sv_cleanEnds _ hsc
              have hsvne := sv_ne_nil _ hsc
              refine ⟨by simp, ?_, ?_⟩
              · rw [cleanLast_append_right _ _ (by simp),
                  show (':' :: ' ' :: (SimpleYAML._serialize_value (Value.str t)).data)
                    = [':', ' '] ++ (SimpleYAML._serialize_value (Value.str t)).data from rfl,
                  cleanLast_append_right _ _ hsvne]
                exact cleanLast_of_cleanEnds _ hsv
              · rw [List.append_assoc, indentOf_replicate_append _ _
                  (cleanHead_key_colon key hk1 _)]
            · simp at hm1
          · exact hrestprops line hm
    · intro l k hsz hsafe line hmem
      cases l with
      | nil => simp [listLines] at hmem
      | cons v rest =>
        obtain ⟨hitem, hrest⟩ := safeItems_cons v rest hsafe
        have hsc := safeItem_scalar v hitem
        have hszrest : sizeOf rest < sizeOf (v :: rest) := by
          simp
          try omega
        have hrestprops : ∀ line ∈ listLines rest k,
            line ≠ [] ∧ cleanLast line = true ∧ 2 * k ≤ indentOf line :=
          fun l2 hl => (IH (sizeOf rest) (by omega)).2 rest k le_rfl hrest l2 hl
        cases v with
        | dict d2 => simp [SafeItem] at hitem
        | list l2 => simp [SafeItem] at hitem
        | float x => simp [SafeItem] at hitem
        | null =>
          simp only [listLines] at hmem
          rcases List.mem_append.1 hmem with hm | hm
          · rcases List.mem_cons.1 hm with hm1 | hm1
            · subst hm1
              have hsv := sv_cleanEnds _ hsc
              have hsvne := sv_ne_nil _ hsc
              refine ⟨by simp, ?_, ?_⟩
              · rw [cleanLast_append_right _ _ (by simp),
                  show ('-' :: ' ' :: (SimpleYAML._serialize_value Value.null).data)
                    = ['-', ' '] ++ (SimpleYAML._serialize_value Value.null).data from rfl,
                  cleanLast_append_right _ _ hsvne]
                exact cleanLast_of_cleanEnds _ hsv
              · rw [(stripL_item (2 * k) _ hsvne (cleanLast_of_cleanEnds _ hsv)).2]
            · simp at hm1
          · exact hrestprops line hm
        | bool b =>
          simp only [listLines] at hmem
          rcases List.mem_append.1 hmem with hm | hm
          · rcases List.mem_cons.1 hm with hm1 | hm1
            · subst hm1
              have hsv := sv_cleanEnds _ hsc
              have hsvne := sv_ne_nil _ hsc
              refine ⟨by simp, ?_, ?_⟩
              · rw [cleanLast_append_right _ _ (by simp),
                  show ('-' :: ' ' :: (SimpleYAML._serialize_value (Value.bool b)).data)
                    = ['-', ' '] ++ (SimpleYAML._serialize_value (Value.bool b)).data from rfl,
                  cleanLast_append_right _ _ hsvne]
                exact cleanLast_of_cleanEnds _ hsv
              · rw [(stripL_item (2 * k) _ hsvne (cleanLast_of_cleanEnds _ hsv)).2]
            · simp at hm1
          · exact hrestprops line hm
        | int m =>
          simp only [listLines] at hmem
          rcases List.mem_append.1 hmem with hm | hm
          · rcases List.mem_cons.1 hm with hm1 | hm1
            · subst hm1
              have hsv := sv_cleanEnds _ hsc
              have hsvne := sv_ne_nil _ hsc
              refine ⟨by simp, ?_, ?_⟩
              · rw [cleanLast_append_right _ _ (by simp),
                  show ('-' :: ' ' :: (SimpleYAML._serialize_value (Value.int m)).data)
                    = ['-', ' '] ++ (SimpleYAML._serialize_value (Value.int m)).data from rfl,
                  cleanLast_append_right _ _ hsvne]
                exact cleanLast_of_cleanEnds _ hsv
              · rw [(stripL_item (2 * k) _ hsvne (cleanLast_of_cleanEnds _ hsv)).2]
            · simp at hm1
          · exact hrestprops line hm
        | str t =>
          simp only [listLines] at hmem
          rcases List.mem_append.1 hmem with hm | hm
          · rcases List.mem_cons.1 hm with hm1 | hm1
            · subst hm1
              have hsv := sv_cleanEnds _ hsc
              have hsvne := sv_ne_nil _ hsc
              refine ⟨by simp, ?_, ?_⟩
              · rw [cleanLast_append_right _ _ (by simp),
                  show ('-' :: ' ' :: (SimpleYAML._serialize_value (Value.str t)).data)
                    = ['-', ' '] ++ (SimpleYAML._serialize_value (Value.str t)).data from rfl,
                  cleanLast_append_right _ _ hsvne]
                exact cleanLast_of_cleanEnds _ hsv
              · rw [(stripL_item (2 * k) _ hsvne (cleanLast_of_cleanEnds _ hsv)).2]
            · simp at hm1
          · exact hrestprops line hm


theorem dictLines_head (d : List (String × Value)) (k : Nat) (hne : d ≠ [])
    (hs : SafeEntries d = true) :
    ∃ h t, dictLines d k = h :: t ∧ indentOf h = 2 * k ∧ (stripL h).isEmpty = false := by
  cases d with
  | nil => exact absurd rfl hne
  | cons e rest =>
    obtain ⟨key, v⟩ := e
    obtain ⟨hkey, hv, hrest⟩ := safeEntries_cons key v rest hs
    obtain ⟨hk1, hk2, hk3, hk4, hk5⟩ := safeKey_spec key hkey
    have keyCase : ∀ (t : List (List Char)),
        dictLines ((key, v) :: rest) k
          = (List.replicate (2 * k) ' ' ++ key.data ++ [':']) :: t →
        ∃ h t2, dictLines ((key, v) :: rest) k = h :: t2
          ∧ indentOf h = 2 * k ∧ (stripL h).isEmpty = false := by
      intro t heq
      obtain ⟨hstr, hind⟩ := stripL_kv (2 * k) key [] hk1 (by decide)
      exact ⟨_, _, heq, hind, by rw [hstr]; simp⟩
    have scalarCase : SafeScalar v = true →
        dictLines ((key, v) :: rest) k
          = (List.replicate (2 * k) ' ' ++ key.data
              ++ ':' :: ' ' :: (SimpleYAML._serialize_value v).data) :: dictLines rest k →
        ∃ h t2, dictLines ((key, v) :: rest) k = h :: t2
          ∧ indentOf h = 2 * k ∧ (stripL h).isEmpty = false := by
      intro hsc heq
      have hsvne := sv_ne_nil _ hsc
      have hsvcl := cleanLast_of_cleanEnds _ (sv_cleanEnds _ hsc)
      have hcl : cleanLast (':' :: ' ' :: (SimpleYAML._serialize_value v).data) = true := by
        rw [show (':' :: ' ' :: (SimpleYAML._serialize_value v).data)
            = [':', ' '] ++ (SimpleYAML._serialize_value v).data from rfl,
          cleanLast_append_right _ _ hsvne]
        exact hsvcl
      obtain ⟨hstr, hind⟩ :=
        stripL_kv (2 * k) key (' ' :: (SimpleYAML._serialize_value v).data) hk1 hcl
      exact ⟨_, _, heq, hind, by rw [hstr]; simp⟩
    cases v with
    | dict d2 => exact keyCase (dictLines d2 (k + 1) ++ dictLines rest k) (by first | rfl | simp [dictLines])
    | list l2 => exact keyCase (listLines l2 (k + 1) ++ dictLines rest k) (by first | rfl | simp [dictLines])
    | null => exact scalarCase hv (by first | rfl | simp [dictLines])
    | bool b => exact scalarCase hv (by first | rfl | simp [dictLines])
    | int m => exact scalarCase hv (by first | rfl | simp [dictLines])
    | str t => exact scalarCase hv (by first | rfl | simp [dictLines])
    | float x =>
      have hsc : SafeScalar (Value.float x) = true := hv
      simp [SafeScalar] at hsc

theorem listLines_head (l : List Value) (k : Nat) (hne : l ≠ [])
    (hs : SafeItems l = true) :
    ∃ h t, listLines l k = h :: t ∧ indentOf h = 2 * k ∧ (stripL h).isEmpty = false := by
  cases l with
  | nil => exact absurd rfl hne
  | cons v rest =>
    obtain ⟨hitem, hrest⟩ := safeItems_cons v rest hs
    have hsc := safeItem_scalar v hitem
    have scalarCase :
        listLines (v :: rest) k
          = (List.replicate (2 * k) ' '
              ++ '-' :: ' ' :: (SimpleYAML._serialize_value v).data) :: listLines rest k →
        ∃ h t2, listLines (v :: rest) k = h :: t2
          ∧ indentOf h = 2 * k ∧ (stripL h).isEmpty = false := by
      intro heq
      have hsvne := sv_ne_nil _ hsc
      have hsvcl := cleanLast_of_cleanEnds _ (sv_cleanEnds _ hsc)
      obtain ⟨hstr, hind⟩ := stripL_item (2 * k) _ hsvne hsvcl
      exact ⟨_, _, heq, hind, by rw [hstr]; simp⟩
    cases v with
    | dict d2 => simp [SafeItem] at hitem
    | list l2 => simp [SafeItem] at hitem
    | float x => simp [SafeItem] at hitem
    | null => exact scalarCase (by first | rfl | simp [listLines])
    | bool b => exact scalarCase (by first | rfl | simp [listLines])
    | int m => exact scalarCase (by first | rfl | simp [listLines])
    | str t => exact scalarCase (by first | rfl | simp [listLines])

theorem dictLines_ne_nil (d : List (String × Value)) (k : Nat) (hne : d ≠ [])
    (hs : SafeEntries d = true) : dictLines d k ≠ [] := by
  obtain ⟨h, t, heq, _, _⟩ := dictLines_head d k hne hs
  rw [heq]
  simp

theorem listLines_ne_nil (l : List Value) (k : Nat) (hne : l ≠ [])
    (hs : SafeItems l = true) : listLines l k ≠ [] := by
  obtain ⟨h, t, heq, _, _⟩ := listLines_head l k hne hs
  rw [heq]
  simp

theorem numifyItems_ne_nil (l : List Value) (h : l ≠ []) : numifyItems l ≠ [] := by
  cases l with
  | nil => exact absurd rfl h
  | cons v rest => simp [numifyItems]


/-! ### From the serializer's chunks to the line lists -/

theorem no_newline_kv (k : Nat) (key : String) (r : List Char)
    (hknl : key.data.contains '\n' = false) (hrnl : r.contains '\n' = false) :
    (List.replicate k ' ' ++ key.data ++ ':' :: r).contains '\n' = false := by
  have h1 : '\n' ∉ key.data := by simpa using hknl
  have h2 : '\n' ∉ r := by simpa using hrnl
  simp [List.mem_replicate, h1, h2]

theorem no_newline_item (k : Nat) (r : List Char) (hrnl : r.contains '\n' = false) :
    (List.replicate k ' ' ++ '-' :: ' ' :: r).contains '\n' = false := by
  have h2 : '\n' ∉ r := by simpa using hrnl
  simp [List.mem_replicate, h2]

theorem serializeDictChunks_ne_nil (d : List (String × Value)) (k : Nat) (hne : d ≠ []) :
    SimpleYAML.serializeDictChunks d k ≠ [] := by
  cases d with
  | nil => exact absurd rfl hne
  | cons e rest =>
    obtain ⟨key, v⟩ := e
    cases v <;> simp [SimpleYAML.serializeDictChunks]

theorem serializeListChunks_ne_nil (l : List Value) (k : Nat) (hne : l ≠ []) :
    SimpleYAML.serializeListChunks l k ≠ [] := by
  cases l with
  | nil => exact absurd rfl hne
  | cons v rest => cases v <;> simp [SimpleYAML.serializeListChunks]

theorem kv_chunk_data (k : Nat) (key : String) (v : Value) :
    (SimpleYAML.indStr k ++ key ++ ": " ++ SimpleYAML._serialize_value v).data
      = List.replicate (2 * k) ' ' ++ key.data
          ++ ':' :: ' ' :: (SimpleYAML._serialize_value v).data := by
  show ((List.replicate (2 * k) ' ' ++ key.data) ++ [':', ' '])
      ++ (SimpleYAML._serialize_value v).data = _
  simp

theorem key_chunk_data (k : Nat) (key : String) :
    (SimpleYAML.indStr k ++ key ++ ":").data
      = List.replicate (2 * k) ' ' ++ key.data ++ [':'] := by
  show (List.replicate (2 * k) ' ' ++ key.data) ++ [':'] = _
  simp

theorem item_chunk_data (k : Nat) (v : Value) :
    (SimpleYAML.indStr k ++ "- " ++ SimpleYAML._serialize_value v).data
      = List.replicate (2 * k) ' ' ++ '-' :: ' ' :: (SimpleYAML._serialize_value v).data := by
  show (List.replicate (2 * k) ' ' ++ ['-', ' '])
      ++ (SimpleYAML._serialize_value v).data = _
  simp

theorem dash_chunk_data (k : Nat) :
    (SimpleYAML.indStr k ++ "- ").data = List.replicate (2 * k) ' ' ++ ['-', ' '] := rfl

theorem ser_chunks_aux : ∀ (n : Nat),
    (∀ (d : List (String × Value)) (k : Nat), sizeOf d ≤ n → SafeEntries d = true →
      (SimpleYAML.serializeDictChunks d k).flatMap (fun s => splitLinesL s.data)
        = dictLines d k) ∧
    (∀ (l : List Value) (k : Nat), sizeOf l ≤ n → SafeItems l = true →
      (SimpleYAML.serializeListChunks l k).flatMap (fun s => splitLinesL s.data)
        = listLines l k) := by
  intro n
  induction n using Nat.strong_induction_on with
  | _ n IH =>
    constructor
    · intro d k hsz hsafe
      cases d with
      | nil => simp [SimpleYAML.serializeDictChunks, dictLines]
      | cons e rest =>
        obtain ⟨key, v⟩ := e
        obtain ⟨hkey, hv, hrest⟩ := safeEntries_cons key v rest hsafe
        obtain ⟨hk1, hk2, hk3, hk4, hk5⟩ := safeKey_spec key hkey
        have hszrest : sizeOf rest < sizeOf ((key, v) :: rest) := by
          simp
          try omega
        have IHrest := (IH (sizeOf rest) (by omega)).1 rest k le_rfl hrest
        have scalarCase : SafeScalar v = true →
            SimpleYAML.serializeDictChunks ((key, v) :: rest) k
              = (SimpleYAML.indStr k ++ key ++ ": " ++ SimpleYAML._serialize_value v)
                  :: SimpleYAML.serializeDictChunks rest k →
            dictLines ((key, v) :: rest) k
              = (List.replicate (2 * k) ' ' ++ key.data
                  ++ ':' :: ' ' :: (SimpleYAML._serialize_value v).data) :: dictLines rest k →
            (SimpleYAML.serializeDictChunks ((key, v) :: rest) k).flatMap
                (fun s => splitLinesL s.data)
              = dictLines ((key, v) :: rest) k := by
          intro hsc hchunks hlines
          rw [hchunks, hlines]
          simp only [List.flatMap_cons]
          rw [kv_chunk_data,
            splitLinesL_no_newline _ (no_newline_kv (2 * k) key _ hk3
              (by
                rw [show (' ' :: (SimpleYAML._serialize_value v).data).contains '\n'
                    = (([' '] ++ (SimpleYAML._serialize_value v).data).contains '\n') from rfl]
                have h2 : '\n' ∉ (SimpleYAML._serialize_value v).data := by
                  simpa using sv_no_newline v hsc
                simp [h2])),
            IHrest]
          rfl
        cases v with
        | null => exact scalarCase hv rfl (by first | rfl | simp [dictLines])
        | bool b => exact scalarCase hv rfl (by first | rfl | simp [dictLines])
        | int m => exact scalarCase hv rfl (by first | rfl | simp [dictLines])
        | str t => exact scalarCase hv rfl (by first | rfl | simp [dictLines])
        | float x =>
          have hsc : SafeScalar (Value.float x) = true := hv
          simp [SafeScalar] at hsc
        | dict d2 =>
          obtain ⟨hne2, hnd2, hs2⟩ := safeVal_dict d2 hv
          have hszd2 : sizeOf d2 < sizeOf ((key, Value.dict d2) :: rest) := by
            simp
            try omega
          have hinner : splitLinesL (SimpleYAML.serialize (.dict d2) (k + 1)).data
              = dictLines d2 (k + 1) := by
            have hchunks2 := (IH (sizeOf d2) (by omega)).1 d2 (k + 1) le_rfl hs2
            cases hc : SimpleYAML.serializeDictChunks d2 (k + 1) with
            | nil => exact absurd hc (serializeDictChunks_ne_nil d2 (k + 1) hne2)
            | cons c cs =>
              rw [show SimpleYAML.serialize (.dict d2) (k + 1)
                  = String.intercalate "\n" (SimpleYAML.serializeDictChunks d2 (k + 1))
                  from rfl, hc, splitLines_intercalate]
              rw [hc] at hchunks2
              simpa using hchunks2
          show ((SimpleYAML.indStr k ++ key ++ ":")
              :: SimpleYAML.serialize (.dict d2) (k + 1)
              :: SimpleYAML.serializeDictChunks rest k).flatMap (fun s => splitLinesL s.data)
            = dictLines ((key, Value.dict d2) :: rest) k
          simp only [List.flatMap_cons]
          rw [key_chunk_data,
            splitLinesL_no_newline _ (no_newline_kv (2 * k) key [] hk3 (by simp)),
            hinner, IHrest]
          rw [show dictLines ((key, Value.dict d2) :: rest) k
              = (List.replicate (2 * k) ' ' ++ key.data ++ [':'])
                  :: (dictLines d2 (k + 1) ++ dictLines rest k)
              from by first | rfl | simp [dictLines]]
          rfl
        | list l2 =>
          obtain ⟨hne2, hs2⟩ := safeVal_list l2 hv
          have hszl2 : sizeOf l2 < sizeOf ((key, Value.list l2) :: rest) := by
            simp
            try omega
          have hinner : splitLinesL (SimpleYAML.serialize (.list l2) (k + 1)).data
              = listLines l2 (k + 1) := by
            have hchunks2 := (IH (sizeOf l2) (by omega)).2 l2 (k + 1) le_rfl hs2
            cases hc : SimpleYAML.serializeListChunks l2 (k + 1) with
            | nil => exact absurd hc (serializeListChunks_ne_nil l2 (k + 1) hne2)
            | cons c cs =>
              rw [show SimpleYAML.serialize (.list l2) (k + 1)
                  = String.intercalate "\n" (SimpleYAML.serializeListChunks l2 (k + 1))
                  from rfl, hc, splitLines_intercalate]
              rw [hc] at hchunks2
              simpa using hchunks2
          show ((SimpleYAML.indStr k ++ key ++ ":")
              :: SimpleYAML.serialize (.list l2) (k + 1)
              :: SimpleYAML.serializeDictChunks rest k).flatMap (fun s => splitLinesL s.data)
            = dictLines ((key, Value.list l2) :: rest) k
          simp only [List.flatMap_cons]
          rw [key_chunk_data,
            splitLinesL_no_newline _ (no_newline_kv (2 * k) key [] hk3 (by simp)),
            hinner, IHrest]
          rw [show dictLines ((key, Value.list l2) :: rest) k
              = (List.replicate (2 * k) ' ' ++ key.data ++ [':'])
                  :: (listLines l2 (k + 1) ++ dictLines rest k)
              from by first | rfl | simp [dictLines]]
          rfl
    · intro l k hsz hsafe
      cases l with
      | nil => simp [SimpleYAML.serializeListChunks, listLines]
      | cons v rest =>
        obtain ⟨hitem, hrest⟩ := safeItems_cons v rest hsafe
        have hsc := safeItem_scalar v hitem
        have hszrest : sizeOf rest < sizeOf (v :: rest) := by
          simp
          try omega
        have IHrest := (IH (sizeOf rest) (by omega)).2 rest k le_rfl hrest
        have scalarCase :
            SimpleYAML.serializeListChunks (v :: rest) k
              = (SimpleYAML.indStr k ++ "- " ++ SimpleYAML._serialize_value v)
                  :: SimpleYAML.serializeListChunks rest k →
            listLines (v :: rest) k
              = (List.replicate (2 * k) ' '
                  ++ '-' :: ' ' :: (SimpleYAML._serialize_value v).data) :: listLines rest k →
            (SimpleYAML.serializeListChunks (v :: rest) k).flatMap
                (fun s => splitLinesL s.data)
              = listLines (v :: rest) k := by
          intro hchunks hlines
          rw [hchunks, hlines]
          simp only [List.flatMap_cons]
          rw [item_chunk_data,
            splitLinesL_no_newline _ (no_newline_item (2 * k) _ (sv_no_newline v hsc)),
            IHrest]
          rfl
        cases v with
        | null => exact scalarCase rfl (by first | rfl | simp [listLines])
        | bool b => exact scalarCase rfl (by first | rfl | simp [listLines])
        | int m => exact scalarCase rfl (by first | rfl | simp [listLines])
        | str t => exact scalarCase rfl (by first | rfl | simp [listLines])
        | float x => simp [SafeItem] at hitem
        | dict d2 => simp [SafeItem] at hitem
        | list l2 => simp [SafeItem] at hitem

theorem serialize_dict_splitLines (d : List (String × Value)) (k : Nat) (hne : d ≠ [])
    (hs : SafeEntries d = true) :
    splitLinesL (SimpleYAML.serialize (.dict d) k).data = dictLines d k := by
  have hchunks := (ser_chunks_aux (sizeOf d)).1 d k le_rfl hs
  cases hc : SimpleYAML.serializeDictChunks d k with
  | nil => exact absurd hc (serializeDictChunks_ne_nil d k hne)
  | cons c cs =>
    rw [show SimpleYAML.serialize (.dict d) k
        = String.intercalate "\n" (SimpleYAML.serializeDictChunks d k) from rfl, hc,
      splitLines_intercalate]
    rw [hc] at hchunks
    simpa using hchunks

theorem serialize_list_splitLines (l : List Value) (k : Nat) (hne : l ≠ [])
    (hs : SafeItems l = true) :
    splitLinesL (SimpleYAML.serialize (.list l) k).data = listLines l k := by
  have hchunks := (ser_chunks_aux (sizeOf l)).2 l k le_rfl hs
  cases hc : SimpleYAML.serializeListChunks l k with
  | nil => exact absurd hc (serializeListChunks_ne_nil l k hne)
  | cons c cs =>
    rw [show SimpleYAML.serialize (.list l) k
        = String.intercalate "\n" (SimpleYAML.serializeListChunks l k) from rfl, hc,
      splitLines_intercalate]
    rw [hc] at hchunks
    simpa using hchunks


theorem takeWhile_append_all {α : Type} (p : α → Bool) (A B : List α)
    (hA : ∀ x ∈ A, p x = true) (hB : ∀ b, B.head? = some b → p b = false) :
    (A ++ B).takeWhile p = A ∧ (A ++ B).dropWhile p = B := by
  induction A with
  | nil =>
    simp only [List.nil_append]
    cases B with
    | nil => simp
    | cons b t =>
      have := hB b rfl
      simp [List.takeWhile_cons, List.dropWhile_cons, this]
  | cons a A2 ih =>
    have hpa := hA a (by simp)
    have ih2 := ih (fun x hx => hA x (by simp [hx]))
    simp [List.takeWhile_cons, List.dropWhile_cons, hpa, ih2.1, ih2.2]

theorem pyDictSet_none (r : List (String × Value)) (k : String) (v : Value)
    (h : pyDictGet r k = none) : pyDictSet r k v = r ++ [(k, v)] := by
  induction r with
  | nil => rfl
  | cons kv rest ih =>
    obtain ⟨k2, w⟩ := kv
    simp only [pyDictGet] at h
    by_cases hk : k2 = k
    · simp [hk] at h
    · have h2 : pyDictGet rest k = none := by simpa [hk] using h
      simp [pyDictSet, hk, ih h2]


/-- The central loop characterization: the serialized lines of a safe block,
followed by any lines the look-ahead leaves alone, are consumed into the
scope's accumulators, and the loop continues on the remaining lines. -/
theorem parse_block_aux : ∀ (n : Nat),
    (∀ (d : List (String × Value)) (k fuel : Nat) (result : List (String × Value))
        (suffix : List (List Char)),
      sizeOf d ≤ n → SafeEntries d = true → nodupKeys (d.map Prod.fst) = true →
      (∀ kk ∈ d.map Prod.fst, pyDictGet result kk = none) →
      suffixOK (2 * k) suffix →
      (dictLines d k).length + suffix.length ≤ fuel →
      SimpleYAML._parse_lines_go fuel (2 * k) (dictLines d k ++ suffix) result [] =
        SimpleYAML._parse_lines_go suffix.length (2 * k) suffix
          (result ++ numifyEntries d) []) ∧
    (∀ (l : List Value) (k fuel : Nat) (result : List (String × Value)) (items : List Value)
        (suffix : List (List Char)),
      sizeOf l ≤ n → SafeItems l = true →
      suffixOK (2 * k) suffix →
      (listLines l k).length + suffix.length ≤ fuel →
      SimpleYAML._parse_lines_go fuel (2 * k) (listLines l k ++ suffix) result items =
        SimpleYAML._parse_lines_go suffix.length (2 * k) suffix result
          (items ++ numifyItems l)) := by
  intro n
  induction n using Nat.strong_induction_on with
  | _ n IH =>
    constructor
    · intro d k fuel result suffix hsz hsafe hnodup hres hsuf hfuel
      cases d with
      | nil =>
        have h0 : dictLines ([] : List (String × Value)) k = [] := by
          first | rfl | simp [dictLines]
        rw [h0] at hfuel ⊢
        rw [List.nil_append,
          show numifyEntries ([] : List (String × Value)) = [] from rfl,
          List.append_nil]
        simp only [List.length_nil] at hfuel
        exact go_fuel_irrel suffix.length suffix fuel suffix.length (2 * k) result []
          le_rfl (by omega) le_rfl
      | cons e rest =>
        obtain ⟨key, v⟩ := e
        obtain ⟨hkey, hv, hrest⟩ := safeEntries_cons key v rest hsafe
        obtain ⟨hk1, hk2, hk3, hk4, hk5⟩ := safeKey_spec key hkey
        simp only [List.map_cons, nodupKeys, Bool.and_eq_true, Bool.not_eq_true'] at hnodup
        obtain ⟨hkeyout, hndrest⟩ := hnodup
        have hszrest : sizeOf rest < sizeOf ((key, v) :: rest) := by
          simp
          try omega
        have hres1 : pyDictGet result key = none := hres key (by simp)
        have hresrest : ∀ (w : Value), ∀ kk ∈ rest.map Prod.fst,
            pyDictGet (result ++ [(key, w)]) kk = none := by
          intro w kk hkk
          rw [pyDictGet_append, hres kk (by simp [hkk])]
          have hne : ¬key = kk := by
            intro he
            rw [← he] at hkk
            have : (rest.map Prod.fst).contains key = true := by simpa using hkk
            rw [this] at hkeyout
            exact absurd hkeyout (by simp)
          simp [pyDictGet, hne]
        have hfinal : ∀ (w : Value), w = numify v →
            (result ++ [(key, w)]) ++ numifyEntries rest
              = result ++ numifyEntries ((key, v) :: rest) := by
          intro w hw
          subst hw
          rw [show numifyEntries ((key, v) :: rest) = (key, numify v) :: numifyEntries rest
            from rfl, List.append_assoc]
          rfl
        have scalarEntry : SafeScalar v = true →
            dictLines ((key, v) :: rest) k
              = (List.replicate (2 * k) ' ' ++ key.data
                  ++ ':' :: ' ' :: (SimpleYAML._serialize_value v).data) :: dictLines rest k →
            SimpleYAML._parse_lines_go fuel (2 * k)
                (dictLines ((key, v) :: rest) k ++ suffix) result [] =
              SimpleYAML._parse_lines_go suffix.length (2 * k) suffix
                (result ++ numifyEntries ((key, v) :: rest)) [] := by
          intro hsc hlines
          rw [hlines] at hfuel ⊢
          simp only [List.length_cons] at hfuel
          cases fuel with
          | zero => omega
          | succ f =>
            rw [List.cons_append,
              kv_scalar_step f (2 * k) key (SimpleYAML._serialize_value v).data
                (dictLines rest k ++ suffix) result [] hk1 hk2 hk4 hk5
                (sv_ne_nil v hsc) (sv_cleanEnds v hsc),
              sv_reparse v hsc, pyDictSet_none result key (numify v) hres1]
            rw [← hfinal (numify v) rfl]
            exact (IH (sizeOf rest) (by omega)).1 rest k f (result ++ [(key, numify v)])
              suffix le_rfl hrest hndrest (hresrest (numify v)) hsuf (by omega)
        have containerB : ∀ b, (dictLines rest k ++ suffix).head? = some b →
            (fun sl => !(indentOf sl ≤ 2 * k && !(stripL sl).isEmpty)) b = false := by
          intro b hb
          cases rest with
          | nil =>
            rw [show dictLines ([] : List (String × Value)) k = [] from by
              first | rfl | simp [dictLines], List.nil_append] at hb
            obtain ⟨hle, hnbl⟩ := hsuf b hb
            simp [hle, hnbl]
          | cons e2 rest2 =>
            obtain ⟨h1, t1, heq1, hind1, hnb1⟩ :=
              dictLines_head (e2 :: rest2) k (by simp) hrest
            rw [heq1, List.cons_append] at hb
            simp only [List.head?_cons, Option.some.injEq] at hb
            subst hb
            simp [hind1, hnb1]
        cases v with
        | null => exact scalarEntry hv (by first | rfl | simp [dictLines])
        | bool b => exact scalarEntry hv (by first | rfl | simp [dictLines])
        | int m => exact scalarEntry hv (by first | rfl | simp [dictLines])
        | str t => exact scalarEntry hv (by first | rfl | simp [dictLines])
        | float x =>
          have hsc : SafeScalar (Value.float x) = true := hv
          simp [SafeScalar] at hsc
        | dict d2 =>
          obtain ⟨hne2, hnd2, hs2⟩ := safeVal_dict d2 hv
          have hszd2 : sizeOf d2 < sizeOf ((key, Value.dict d2) :: rest) := by
            simp
            try omega
          obtain ⟨a0, t0, heqA, hind0, hnb0⟩ := dictLines_head d2 (k + 1) hne2 hs2
          have hAprops := (lines_props_aux (sizeOf d2)).1 d2 (k + 1) le_rfl hs2
          have hlines : dictLines ((key, Value.dict d2) :: rest) k
              = (List.replicate (2 * k) ' ' ++ key.data ++ ':' :: [])
                  :: (dictLines d2 (k + 1) ++ dictLines rest k) := by
            first | rfl | simp [dictLines]
          have hlen2 : (dictLines ((key, Value.dict d2) :: rest) k).length
              = 1 + (dictLines d2 (k + 1)).length + (dictLines rest k).length := by
            rw [hlines]
            simp
            omega
          cases fuel with
          | zero => omega
          | succ f =>
            have hshape : dictLines ((key, Value.dict d2) :: rest) k ++ suffix
                = (List.replicate (2 * k) ' ' ++ key.data ++ ':' :: [])
                    :: (a0 :: (t0 ++ (dictLines rest k ++ suffix))) := by
              rw [hlines, heqA]
              simp
            rw [hshape,
              kv_container_step f (2 * k) key a0 (t0 ++ (dictLines rest k ++ suffix))
                result [] hk1 hk2 hk4 hk5 (by rw [hind0]; omega)]
            have hA : ∀ x ∈ a0 :: t0,
                (fun sl => !(indentOf sl ≤ 2 * k && !(stripL sl).isEmpty)) x = true := by
              intro x hx
              rw [← heqA] at hx
              obtain ⟨hx1, hx2, hx3⟩ := hAprops x hx
              have : decide (indentOf x ≤ 2 * k) = false := by
                simp
                omega
              simp [this]
            have htd := takeWhile_append_all
              (fun sl => !(indentOf sl ≤ 2 * k && !(stripL sl).isEmpty))
              (a0 :: t0) (dictLines rest k ++ suffix) hA containerB
            rw [show a0 :: (t0 ++ (dictLines rest k ++ suffix))
                = (a0 :: t0) ++ (dictLines rest k ++ suffix) from rfl, htd.1, htd.2,
              ← heqA, hind0]
            have hinner0 := (IH (sizeOf d2) (by omega)).1 d2 (k + 1) f [] []
              le_rfl hs2 hnd2 (by intro kk hkk; rfl) (by intro h hh; simp at hh)
              (by simp; omega)
            rw [List.append_nil] at hinner0
            have hinner : SimpleYAML._parse_lines_go f (2 * (k + 1))
                (dictLines d2 (k + 1)) [] [] = Value.dict (numifyEntries d2) := by
              rw [hinner0]
              rfl
            rw [hinner,
              show Value.dict (numifyEntries d2) = numify (Value.dict d2) from rfl,
              pyDictSet_none result key (numify (Value.dict d2)) hres1,
              ← hfinal (numify (Value.dict d2)) rfl]
            exact (IH (sizeOf rest) (by omega)).1 rest k f
              (result ++ [(key, numify (Value.dict d2))]) suffix le_rfl hrest hndrest
              (hresrest (numify (Value.dict d2))) hsuf (by omega)
        | list l2 =>
          obtain ⟨hne2, hs2⟩ := safeVal_list l2 hv
          have hszl2 : sizeOf l2 < sizeOf ((key, Value.list l2) :: rest) := by
            simp
            try omega
          obtain ⟨a0, t0, heqA, hind0, hnb0⟩ := listLines_head l2 (k + 1) hne2 hs2
          have hAprops := (lines_props_aux (sizeOf l2)).2 l2 (k + 1) le_rfl hs2
          have hlines : dictLines ((key, Value.list l2) :: rest) k
              = (List.replicate (2 * k) ' ' ++ key.data ++ ':' :: [])
                  :: (listLines l2 (k + 1) ++ dictLines rest k) := by
            first | rfl | simp [dictLines]
          have hlen2 : (dictLines ((key, Value.list l2) :: rest) k).length
              = 1 + (listLines l2 (k + 1)).length + (dictLines rest k).length := by
            rw [hlines]
            simp
            omega
          cases fuel with
          | zero => omega
          | succ f =>
            have hshape : dictLines ((key, Value.list l2) :: rest) k ++ suffix
                = (List.replicate (2 * k) ' ' ++ key.data ++ ':' :: [])
                    :: (a0 :: (t0 ++ (dictLines rest k ++ suffix))) := by
              rw [hlines, heqA]
              simp
            rw [hshape,
              kv_container_step f (2 * k) key a0 (t0 ++ (dictLines rest k ++ suffix))
                result [] hk1 hk2 hk4 hk5 (by rw [hind0]; omega)]
            have hA : ∀ x ∈ a0 :: t0,
                (fun sl => !(indentOf sl ≤ 2 * k && !(stripL sl).isEmpty)) x = true := by
              intro x hx
              rw [← heqA] at hx
              obtain ⟨hx1, hx2, hx3⟩ := hAprops x hx
              have : decide (indentOf x ≤ 2 * k) = false := by
                simp
                omega
              simp [this]
            have htd := takeWhile_append_all
              (fun sl => !(indentOf sl ≤ 2 * k && !(stripL sl).isEmpty))
              (a0 :: t0) (dictLines rest k ++ suffix) hA containerB
            rw [show a0 :: (t0 ++ (dictLines rest k ++ suffix))
                = (a0 :: t0) ++ (dictLines rest k ++ suffix) from rfl, htd.1, htd.2,
              ← heqA, hind0]
            have hinner0 := (IH (sizeOf l2) (by omega)).2 l2 (k + 1) f [] [] []
              le_rfl hs2 (by intro h hh; simp at hh) (by simp; omega)
            rw [List.append_nil] at hinner0
            have hinner : SimpleYAML._parse_lines_go f (2 * (k + 1))
                (listLines l2 (k + 1)) [] [] = Value.list (numifyItems l2) := by
              rw [hinner0]
              show (if !(numifyItems l2).isEmpty then Value.list (numifyItems l2)
                else Value.dict []) = Value.list (numifyItems l2)
              rw [if_pos (by
                have := numifyItems_ne_nil l2 hne2
                cases hnu : numifyItems l2 with
                | nil => exact absurd hnu this
                | cons a b => rfl)]
            rw [hinner,
              show Value.list (numifyItems l2) = numify (Value.list l2) from rfl,
              pyDictSet_none result key (numify (Value.list l2)) hres1,
              ← hfinal (numify (Value.list l2)) rfl]
            exact (IH (sizeOf rest) (by omega)).1 rest k f
              (result ++ [(key, numify (Value.list l2))]) suffix le_rfl hrest hndrest
              (hresrest (numify (Value.list l2))) hsuf (by omega)
    · intro l k fuel result items suffix hsz hsafe hsuf hfuel
      cases l with
      | nil =>
        have h0 : listLines ([] : List Value) k = [] := by
          first | rfl | simp [listLines]
        rw [h0] at hfuel ⊢
        rw [List.nil_append,
          show numifyItems ([] : List Value) = [] from rfl,
          List.append_nil]
        simp only [List.length_nil] at hfuel
        exact go_fuel_irrel suffix.length suffix fuel suffix.length (2 * k) result items
          le_rfl (by omega) le_rfl
      | cons v rest =>
        obtain ⟨hitem, hrest⟩ := safeItems_cons v rest hsafe
        have hsc := safeItem_scalar v hitem
        have hszrest : sizeOf rest < sizeOf (v :: rest) := by
          simp
          try omega
        have hitemEntry :
            listLines (v :: rest) k
              = (List.replicate (2 * k) ' '
                  ++ '-' :: ' ' :: (SimpleYAML._serialize_value v).data) :: listLines rest k →
            SimpleYAML._parse_lines_go fuel (2 * k)
                (listLines (v :: rest) k ++ suffix) result items =
              SimpleYAML._parse_lines_go suffix.length (2 * k) suffix result
                (items ++ numifyItems (v :: rest)) := by
          intro hlines
          rw [hlines] at hfuel ⊢
          simp only [List.length_cons] at hfuel
          cases fuel with
          | zero => omega
          | succ f =>
            rw [List.cons_append,
              item_step f (2 * k) (SimpleYAML._serialize_value v).data
                (listLines rest k ++ suffix) result items
                (sv_ne_nil v hsc) (sv_cleanEnds v hsc) (sv_no_colon_item v hitem),
              sv_reparse v hsc]
            rw [show items ++ numifyItems (v :: rest)
                = (items ++ [numify v]) ++ numifyItems rest from by
              rw [show numifyItems (v :: rest) = numify v :: numifyItems rest from rfl,
                List.append_assoc]
              rfl]
            exact (IH (sizeOf rest) (by omega)).2 rest k f result (items ++ [numify v])
              suffix le_rfl hrest hsuf (by omega)
        cases v with
        | null => exact hitemEntry (by first | rfl | simp [listLines])
        | bool b => exact hitemEntry (by first | rfl | simp [listLines])
        | int m => exact hitemEntry (by first | rfl | simp [listLines])
        | str t => exact hitemEntry (by first | rfl | simp [listLines])
        | float x => simp [SafeItem] at hitem
        | dict d2 => simp [SafeItem] at hitem
        | list l2 => simp [SafeItem] at hitem


/-! ### The top-level round trip -/

theorem cleanHead_of_indent_zero (l : List Char) (h : indentOf l = 0) :
    cleanHead l = true := by
  cases l with
  | nil => rfl
  | cons c t =>
    simp only [indentOf, List.takeWhile_cons] at h
    cases hws : isPyWhitespace c with
    | false => simp [cleanHead, hws]
    | true => rw [hws] at h; simp at h

theorem cleanHead_congr_head? (a b : List Char) (h : a.head? = b.head?) :
    cleanHead a = cleanHead b := by
  simp [cleanHead, h]

theorem parse_serialize_dict (d : List (String × Value)) (hne : d ≠ [])
    (hnd : nodupKeys (d.map Prod.fst) = true) (hs : SafeEntries d = true) :
    SimpleYAML.parse (SimpleYAML.serialize (.dict d) 0) = .dict (numifyEntries d) := by
  have hsplit : splitLinesL (SimpleYAML.serialize (.dict d) 0).data = dictLines d 0 :=
    serialize_dict_splitLines d 0 hne hs
  have hjoin : (SimpleYAML.serialize (.dict d) 0).data = joinLinesL (dictLines d 0) := by
    rw [← hsplit, joinLinesL_splitLinesL]
  obtain ⟨h0, t0, heq, hind0, hnb0⟩ := dictLines_head d 0 hne hs
  have hprops := (lines_props_aux (sizeOf d)).1 d 0 le_rfl hs
  have hne0 : h0 ≠ [] := (hprops h0 (by rw [heq]; simp)).1
  have hch : cleanHead (SimpleYAML.serialize (.dict d) 0).data = true := by
    rw [hjoin, heq, cleanHead_congr_head? _ h0 (head?_joinLinesL h0 t0 hne0)]
    exact cleanHead_of_indent_zero h0 (by simpa using hind0)
  have hcl : cleanLast (SimpleYAML.serialize (.dict d) 0).data = true := by
    rw [hjoin, heq]
    apply cleanLast_joinLinesL
    intro x hx
    rw [← heq] at hx
    obtain ⟨hx1, hx2, _⟩ := hprops x hx
    exact ⟨hx1, hx2⟩
  have hstr : stripL (SimpleYAML.serialize (.dict d) 0).data
      = (SimpleYAML.serialize (.dict d) 0).data :=
    stripL_of_cleanEnds _ (by simp [cleanEnds, hch, hcl])
  show SimpleYAML._parse_lines
      (splitLinesL (stripL (SimpleYAML.serialize (.dict d) 0).data)) 0 = _
  rw [hstr, hsplit]
  show SimpleYAML._parse_lines_go (dictLines d 0).length 0 (dictLines d 0) [] [] = _
  have hblock := (parse_block_aux (sizeOf d)).1 d 0 (dictLines d 0).length [] []
    le_rfl hs hnd (by intro kk hkk; rfl) (by intro h hh; simp at hh) (by simp)
  rw [List.append_nil] at hblock
  exact hblock.trans rfl

theorem parse_serialize_list (l : List Value) (hne : l ≠ [])
    (hs : SafeItems l = true) :
    SimpleYAML.parse (SimpleYAML.serialize (.list l) 0) = .list (numifyItems l) := by
  have hsplit : splitLinesL (SimpleYAML.serialize (.list l) 0).data = listLines l 0 :=
    serialize_list_splitLines l 0 hne hs
  have hjoin : (SimpleYAML.serialize (.list l) 0).data = joinLinesL (listLines l 0) := by
    rw [← hsplit, joinLinesL_splitLinesL]
  obtain ⟨h0, t0, heq, hind0, hnb0⟩ := listLines_head l 0 hne hs
  have hprops := (lines_props_aux (sizeOf l)).2 l 0 le_rfl hs
  have hne0 : h0 ≠ [] := (hprops h0 (by rw [heq]; simp)).1
  have hch : cleanHead (SimpleYAML.serialize (.list l) 0).data = true := by
    rw [hjoin, heq, cleanHead_congr_head? _ h0 (head?_joinLinesL h0 t0 hne0)]
    exact cleanHead_of_indent_zero h0 (by simpa using hind0)
  have hcl : cleanLast (SimpleYAML.serialize (.list l) 0).data = true := by
    rw [hjoin, heq]
    apply cleanLast_joinLinesL
    intro x hx
    rw [← heq] at hx
    obtain ⟨hx1, hx2, _⟩ := hprops x hx
    exact ⟨hx1, hx2⟩
  have hstr : stripL (SimpleYAML.serialize (.list l) 0).data
      = (SimpleYAML.serialize (.list l) 0).data :=
    stripL_of_cleanEnds _ (by simp [cleanEnds, hch, hcl])
  show SimpleYAML._parse_lines
      (splitLinesL (stripL (SimpleYAML.serialize (.list l) 0).data)) 0 = _
  rw [hstr, hsplit]
  show SimpleYAML._parse_lines_go (listLines l 0).length 0 (listLines l 0) [] [] = _
  have hblock := (parse_block_aux (sizeOf l)).2 l 0 (listLines l 0).length [] [] []
    le_rfl hs (by intro h hh; simp at hh) (by simp)
  rw [List.append_nil] at hblock
  refine hblock.trans ?_
  show (if !(numifyItems l).isEmpty then Value.list ([] ++ numifyItems l)
    else Value.dict []) = Value.list (numifyItems l)
  rw [if_pos (by
    cases hnu : numifyItems l with
    | nil => exact absurd hnu (numifyItems_ne_nil l hne)
    | cons a b => rfl)]
  rfl


/-- Claim C1 (corrected): the round trip fails on a List containing a Map —
`[{"a": 1}]` serializes to `"- \n  a: 1"`, whose `- ` line strips to a bare
`-` that the parser treats as neither list item nor key-value pair, and whose
indented line is skipped, so the parse is the empty Map; no Integer/Float
coercion is involved since `numify` fixes the value. -/
theorem C1_counterexample :
    SimpleYAML.parse (SimpleYAML.serialize (.list [.dict [("a", .int 1)]]) 0) = .dict []
      ∧ numify (.list [.dict [("a", .int 1)]]) = .list [.dict [("a", .int 1)]]
      ∧ Value.list [.dict [("a", .int 1)]] ≠ .dict [] :=
  ⟨rfl, rfl, fun h => Value.noConfusion h⟩

/-- Claim C1 (amended): for every Value whose top level is a non-empty Map or
non-empty List, whose Map keys are newline/colon-free, strip-invariant and do
not begin with `#` or `-`, with pairwise-distinct keys per Map, whose scalars
are Null, Booleans, non-negative Integers or safe Text (newline-free; and
either quoted on output or a non-empty strip-invariant bare token that is not
a keyword literal, not float-parseable (with PEP 515 underscore groups)
unless all digits, not quote-wrapped, and all-ASCII — so that the modeled
`isdigit`/`int`/`float` agree with CPython on it), whose List items are such
scalars rendering colon-free, and
whose nested Maps and Lists are non-empty with the same conditions, parsing
the block-format serialization yields exactly the Value with every all-digit
Text coerced to the Integer it spells. -/
theorem C1_safe_round_trip (v : Value) (hc : isContainer v = true)
    (hs : SafeVal v = true) :
    SimpleYAML.parse (SimpleYAML.serialize v 0) = numify v := by
  cases v with
  | dict d =>
    obtain ⟨hne, hnd, hent⟩ := safeVal_dict d hs
    rw [parse_serialize_dict d hne hnd hent]
    rfl
  | list l =>
    obtain ⟨hne, hit⟩ := safeVal_list l hs
    rw [parse_serialize_list l hne hit]
    rfl
  | null => simp [isContainer] at hc
  | bool b => simp [isContainer] at hc
  | int n => simp [isContainer] at hc
  | float x => simp [isContainer] at hc
  | str t => simp [isContainer] at hc

/-- Witness for C1: a Map with a digit Text, a quoted Text, a nested Map and
a nested List round-trips, the digit Text coming back as an Integer. -/
theorem C1_witness :
    isContainer (Value.dict [("alpha", .int 12), ("beta", .str "x y"),
      ("num", .str "007"), ("gamma", .dict [("d", .null)]),
      ("delta", .list [.str "hi", .bool true])]) = true
    ∧ SafeVal (Value.dict [("alpha", .int 12), ("beta", .str "x y"),
      ("num", .str "007"), ("gamma", .dict [("d", .null)]),
      ("delta", .list [.str "hi", .bool true])]) = true
    ∧ SimpleYAML.parse (SimpleYAML.serialize (Value.dict [("alpha", .int 12),
      ("beta", .str "x y"), ("num", .str "007"), ("gamma", .dict [("d", .null)]),
      ("delta", .list [.str "hi", .bool true])]) 0)
      = numify (Value.dict [("alpha", .int 12), ("beta", .str "x y"),
        ("num", .str "007"), ("gamma", .dict [("d", .null)]),
        ("delta", .list [.str "hi", .bool true])]) :=
  ⟨rfl, by decide,
    C1_safe_round_trip (Value.dict [("alpha", .int 12), ("beta", .str "x y"),
      ("num", .str "007"), ("gamma", .dict [("d", .null)]),
      ("delta", .list [.str "hi", .bool true])]) rfl (by decide)⟩

end DataConvertModel
